import Mathlib

/-!
Verification development for the HybridMap repository: two open-addressing
hash-map backends (`FlatHashMap`, inline payload storage, and `NodeHashMap`,
pointer-indirection storage) sharing one probing/tombstone/growth discipline.

Modelling notes:
* `size_t` values become `Nat`.  Hash values computed by the user-supplied
  hash function are truncated with `% 2 ^ 64` where the C++ code receives a
  `size_t`, inside `make_hash`.
* The load-factor / tombstone-ratio tests in the C++ code compare `double`
  quotients against 0.75 and 0.25.  Capacities are powers of two and the
  relevant integers are far below `2 ^ 52`, so the `double` division is exact
  and the comparisons coincide with the integer comparisons
  `4 * (size + 1) > 3 * capacity` and `4 * tombstone_count > capacity`,
  which is how they are rendered here.
* The sized constructor computes `next_power_of_2(size_t(expected / 0.75))`;
  for `expected ≤ 2 ^ 50` the `double` computation is exact and equals the
  integer `(4 * expected) / 3`, which is how it is rendered here.
* Table slots are a three-state inductive (empty / tombstone / occupied):
  the C++ encodes the state with the sentinel hash values `EMPTY_HASH = 0`
  and `TOMBSTONE_HASH = 1` (FlatHashMap) resp. the null / sentinel entry
  pointers (NodeHashMap); `make_hash` guarantees an occupied slot never
  stores a sentinel hash, so the encodings are exactly a three-state tag
  plus, when occupied, the stored (sanitized) hash and the payload.
* `NodeHashMap` entry pointers become indices into the append-only backing
  list `entries`.
* `throw std::runtime_error("Hash table is full")` becomes an `Option`
  result with `none` for the throw.
-/

set_option linter.unusedSectionVars false

namespace HybridMap

/-! ### Constants (`constants.hpp`) -/

def INITIAL_CAPACITY : Nat := 16
def EMPTY_HASH : Nat := 0
def TOMBSTONE_HASH : Nat := 1

/-- `next_power_of_2` from `constants.hpp`: bit-smearing round-up to the next
power of two (the C++ operates on a 64-bit `size_t`; the shift ladder goes up
to `>> 32`). -/
def next_power_of_2 (n : Nat) : Nat :=
  if n = 0 then 1
  else
    let m := n - 1
    let m := m ||| (m >>> 1)
    let m := m ||| (m >>> 2)
    let m := m ||| (m >>> 4)
    let m := m ||| (m >>> 8)
    let m := m ||| (m >>> 16)
    let m := m ||| (m >>> 32)
    m + 1

/-- Hash sanitization shared by both backends: ensure a stored hash is never
`EMPTY_HASH` (0) or `TOMBSTONE_HASH` (1).  The `% 2 ^ 64` models the
truncation of the user hash function result to `size_t`. -/
def make_hash (h : Nat) : Nat :=
  if h % 2 ^ 64 = EMPTY_HASH ∨ h % 2 ^ 64 = TOMBSTONE_HASH then 2
  else h % 2 ^ 64

/-- Linear probing shared by both backends:
`probe(index, i) = (index + i) & (capacity_ - 1)`. -/
def probe (capacity index i : Nat) : Nat := (index + i) &&& (capacity - 1)

/-! ### FlatHashMap (`flat_hash_map.hpp`) -/

/-- One slot of the inline backend.  The C++ slot stores a hash marker plus
raw key/value storage; occupied slots (hash ∉ {0,1}) carry a constructed
key/value pair. -/
inductive FSlot (K V : Type) where
  | empty
  | tombstone
  | occupied (hash : Nat) (key : K) (value : V)
  deriving DecidableEq

/-- Read a slot; out-of-range reads never happen in reachable states and
default to `empty`. -/
def fslotAt (tbl : List (FSlot K V)) (pos : Nat) : FSlot K V :=
  tbl.getD pos .empty

structure FlatHashMap (K V : Type) where
  table : List (FSlot K V)
  size : Nat
  capacity : Nat
  tombstone_count : Nat
  deriving DecidableEq

namespace FlatHashMap

variable {K V : Type} [DecidableEq K]

/-- Default constructor: empty table of capacity `INITIAL_CAPACITY`. -/
def new (K V : Type) : FlatHashMap K V :=
  { table := List.replicate INITIAL_CAPACITY .empty
    size := 0
    capacity := INITIAL_CAPACITY
    tombstone_count := 0 }

/-- Sized constructor:
`capacity_ = next_power_of_2(size_t(expected_size / MAX_LOAD_FACTOR))`;
the `double` computation equals `(4 * expected_size) / 3` on the exactness
domain (see header notes). -/
def newSized (K V : Type) (expected_size : Nat) : FlatHashMap K V :=
  let cap := next_power_of_2 ((4 * expected_size) / 3)
  { table := List.replicate cap .empty
    size := 0
    capacity := cap
    tombstone_count := 0 }

/-- `find_slot` probing loop.  `i` is the current probe step, `fuel` the
number of remaining iterations (the C++ loop runs `capacity` iterations). -/
def find_slot_go (tbl : List (FSlot K V)) (capacity index hash : Nat)
    (key : K) : Nat → Nat → Nat
  | _, 0 => capacity
  | i, fuel + 1 =>
    let pos := probe capacity index i
    match fslotAt tbl pos with
    | .empty => capacity
    | .tombstone => find_slot_go tbl capacity index hash key (i + 1) fuel
    | .occupied h0 k0 _ =>
      if h0 = hash ∧ k0 = key then pos
      else find_slot_go tbl capacity index hash key (i + 1) fuel

/-- `FlatHashMap::find_slot`: returns the slot index of `key`, or `capacity_`
when not found (empty slot ends the search; tombstones are skipped). -/
def find_slot (m : FlatHashMap K V) (key : K) (hash : Nat) : Nat :=
  find_slot_go m.table m.capacity (hash &&& (m.capacity - 1)) hash key 0
    m.capacity

/-- `insert_internal` probing loop (used by `rehash`): occupy the first empty
or tombstone slot, decrementing `tombstone_count_` on tombstone reuse;
exhausting the table throws. -/
def insert_internal_go (hash : Nat) (key : K) (value : V) :
    Nat → Nat → FlatHashMap K V → Option (FlatHashMap K V)
  | _, 0, _ => none
  | i, fuel + 1, m =>
    let pos := probe m.capacity (hash &&& (m.capacity - 1)) i
    match fslotAt m.table pos with
    | .empty =>
      some { m with table := m.table.set pos (.occupied hash key value) }
    | .tombstone =>
      some { m with
              table := m.table.set pos (.occupied hash key value)
              tombstone_count := m.tombstone_count - 1 }
    | .occupied _ _ _ => insert_internal_go hash key value (i + 1) fuel m

def insert_internal (m : FlatHashMap K V) (hash : Nat) (key : K) (value : V) :
    Option (FlatHashMap K V) :=
  insert_internal_go hash key value 0 m.capacity m

/-- Body of the reinsertion loop in `FlatHashMap::rehash`: occupied slots
are reinserted with their stored hash, empty and tombstone slots are
skipped. -/
def rehash_step (acc : Option (FlatHashMap K V)) (slot : FSlot K V) :
    Option (FlatHashMap K V) :=
  match acc, slot with
  | some m1, .occupied h k v => insert_internal m1 h k v
  | some m1, _ => some m1
  | none, _ => none

/-- `FlatHashMap::rehash`: fresh table of `new_capacity`, reset
`tombstone_count_`, reinsert every occupied slot of the old table in order
using its stored hash.  `size_` is untouched. -/
def rehash (m : FlatHashMap K V) (new_capacity : Nat) :
    Option (FlatHashMap K V) :=
  let fresh : FlatHashMap K V :=
    { table := List.replicate new_capacity .empty
      size := m.size
      capacity := new_capacity
      tombstone_count := 0 }
  m.table.foldl rehash_step (some fresh)

/-- Main probing loop of `FlatHashMap::insert`: remember the first tombstone,
stop at the first empty slot (insert there, or at the remembered tombstone),
update in place on a hash-and-key match. -/
def insert_loop (hash : Nat) (key : K) (value : V) :
    Nat → Nat → Option Nat → FlatHashMap K V →
    Option (FlatHashMap K V × V × Bool)
  | _, 0, _, _ => none
  | i, fuel + 1, first_tombstone, m =>
    let pos := probe m.capacity (hash &&& (m.capacity - 1)) i
    match fslotAt m.table pos with
    | .empty =>
      let insert_pos := first_tombstone.getD pos
      some ({ m with
                table := m.table.set insert_pos (.occupied hash key value)
                size := m.size + 1
                tombstone_count :=
                  if first_tombstone.isSome then m.tombstone_count - 1
                  else m.tombstone_count },
            value, true)
    | .tombstone =>
      insert_loop hash key value (i + 1) fuel
        (if first_tombstone.isNone then some pos else first_tombstone) m
    | .occupied h0 k0 _ =>
      if h0 = hash ∧ k0 = key then
        some ({ m with table := m.table.set pos (.occupied hash key value) },
              value, false)
      else insert_loop hash key value (i + 1) fuel first_tombstone m

/-- `FlatHashMap::insert`: growth / compaction pre-check, then probing. -/
def insert (hf : K → Nat) (m : FlatHashMap K V) (key : K) (value : V) :
    Option (FlatHashMap K V × V × Bool) :=
  let pre : Option (FlatHashMap K V) :=
    if 4 * (m.size + 1) > 3 * m.capacity ∨
        4 * m.tombstone_count > m.capacity then
      rehash m (m.capacity * 2)
    else some m
  pre.bind fun m1 => insert_loop (make_hash (hf key)) key value 0 m1.capacity
    none m1

/-- `FlatHashMap::find`: null pointer becomes `none`. -/
def find (hf : K → Nat) (m : FlatHashMap K V) (key : K) : Option V :=
  let hash := make_hash (hf key)
  let pos := find_slot m key hash
  if pos = m.capacity then none
  else
    match fslotAt m.table pos with
    | .occupied _ _ v => some v
    | _ => none

/-- `FlatHashMap::contains`. -/
def contains (hf : K → Nat) (m : FlatHashMap K V) (key : K) : Bool :=
  (find hf m key).isSome

/-- `FlatHashMap::erase`: tombstone the slot, then compact by a same-capacity
rehash when the tombstone ratio exceeds 0.25 and the map is non-empty. -/
def erase (hf : K → Nat) (m : FlatHashMap K V) (key : K) :
    Option (FlatHashMap K V × Bool) :=
  let hash := make_hash (hf key)
  let pos := find_slot m key hash
  if pos = m.capacity then some (m, false)
  else
    let m1 : FlatHashMap K V :=
      { m with
          table := m.table.set pos .tombstone
          tombstone_count := m.tombstone_count + 1
          size := m.size - 1 }
    if 4 * m1.tombstone_count > m1.capacity ∧ m1.size > 0 then
      (rehash m1 m1.capacity).map fun m2 => (m2, true)
    else some (m1, true)

/-- `FlatHashMap::clear`: destroy payloads, mark every slot empty; `size_`
and `tombstone_count_` reset, capacity kept. -/
def clear (m : FlatHashMap K V) : FlatHashMap K V :=
  { m with
      table := m.table.map fun _ => .empty
      size := 0
      tombstone_count := 0 }

/-- `FlatHashMap::operator[]`: return the value of an existing slot, else
insert a default-constructed value (`d` models `Value{}`). -/
def bracket (hf : K → Nat) (d : V) (m : FlatHashMap K V) (key : K) :
    Option (FlatHashMap K V × V) :=
  let hash := make_hash (hf key)
  let pos := find_slot m key hash
  if pos ≠ m.capacity then
    match fslotAt m.table pos with
    | .occupied _ _ v => some (m, v)
    | _ => none
  else (insert hf m key d).map fun r => (r.1, r.2.1)

/-- Move construction: the destination steals the table and scalar fields;
the source is explicitly voided (`size_ = capacity_ = tombstone_count_ = 0`,
table vector moved-from hence empty).  First component: destination, second:
what remains of the source. -/
def move_construct (m : FlatHashMap K V) :
    FlatHashMap K V × FlatHashMap K V :=
  ({ table := m.table, size := m.size, capacity := m.capacity
     tombstone_count := m.tombstone_count },
   { table := [], size := 0, capacity := 0, tombstone_count := 0 })

/-- Move assignment (`operator=(FlatHashMap&&)`): destination contents are
destroyed and replaced; the source is voided exactly as in move
construction.  First component: new destination state, second: source. -/
def move_assign (_dest m : FlatHashMap K V) :
    FlatHashMap K V × FlatHashMap K V :=
  ({ table := m.table, size := m.size, capacity := m.capacity
     tombstone_count := m.tombstone_count },
   { table := [], size := 0, capacity := 0, tombstone_count := 0 })

end FlatHashMap

/-! ### NodeHashMap (`node_hash_map.hpp`) -/

/-- One slot of the indirect backend: `{hash, Entry*}` with `entry == nullptr`
meaning empty and the sentinel pointer meaning tombstone.  Entry pointers are
modelled as indices into the append-only backing list `entries`. -/
inductive NSlot where
  | empty
  | tombstone
  | occupied (hash : Nat) (entry : Nat)
  deriving DecidableEq

def nslotAt (tbl : List NSlot) (pos : Nat) : NSlot :=
  tbl.getD pos .empty

structure NodeHashMap (K V : Type) where
  table : List NSlot
  entries : List (K × V)
  size : Nat
  capacity : Nat
  tombstone_count : Nat
  deriving DecidableEq

namespace NodeHashMap

variable {K V : Type} [DecidableEq K]

def new (K V : Type) : NodeHashMap K V :=
  { table := List.replicate INITIAL_CAPACITY .empty
    entries := []
    size := 0
    capacity := INITIAL_CAPACITY
    tombstone_count := 0 }

def newSized (K V : Type) (expected_size : Nat) : NodeHashMap K V :=
  let cap := next_power_of_2 ((4 * expected_size) / 3)
  { table := List.replicate cap .empty
    entries := []
    size := 0
    capacity := cap
    tombstone_count := 0 }

/-- Does the slot entry `eid` hold `key` (`entry->data.first == key`)? -/
def entry_key_eq (entries : List (K × V)) (eid : Nat) (key : K) : Prop :=
  match entries.get? eid with
  | some e => e.1 = key
  | none => False

instance (entries : List (K × V)) (eid : Nat) (key : K) :
    Decidable (entry_key_eq entries eid key) := by
  unfold entry_key_eq
  match entries.get? eid with
  | some e => exact inferInstanceAs (Decidable (e.1 = key))
  | none => exact inferInstanceAs (Decidable False)

/-- `NodeHashMap::find_slot` probing loop. -/
def find_slot_go (tbl : List NSlot) (entries : List (K × V))
    (capacity index hash : Nat) (key : K) : Nat → Nat → Nat
  | _, 0 => capacity
  | i, fuel + 1 =>
    let pos := probe capacity index i
    match nslotAt tbl pos with
    | .empty => capacity
    | .tombstone => find_slot_go tbl entries capacity index hash key (i + 1) fuel
    | .occupied h0 eid =>
      if h0 = hash ∧ entry_key_eq entries eid key then pos
      else find_slot_go tbl entries capacity index hash key (i + 1) fuel

def find_slot (m : NodeHashMap K V) (key : K) (hash : Nat) : Nat :=
  find_slot_go m.table m.entries m.capacity (hash &&& (m.capacity - 1)) hash
    key 0 m.capacity

/-- `insert_internal` probing loop (used by `rehash`): relink the existing
entry pointer into the first empty or tombstone slot. -/
def insert_internal_go (hash eid : Nat) :
    Nat → Nat → NodeHashMap K V → Option (NodeHashMap K V)
  | _, 0, _ => none
  | i, fuel + 1, m =>
    let pos := probe m.capacity (hash &&& (m.capacity - 1)) i
    match nslotAt m.table pos with
    | .empty => some { m with table := m.table.set pos (.occupied hash eid) }
    | .tombstone =>
      some { m with
              table := m.table.set pos (.occupied hash eid)
              tombstone_count := m.tombstone_count - 1 }
    | .occupied _ _ => insert_internal_go hash eid (i + 1) fuel m

def insert_internal (m : NodeHashMap K V) (hash eid : Nat) :
    Option (NodeHashMap K V) :=
  insert_internal_go hash eid 0 m.capacity m

/-- Body of the reinsertion loop in `NodeHashMap::rehash`. -/
def rehash_step (acc : Option (NodeHashMap K V)) (slot : NSlot) :
    Option (NodeHashMap K V) :=
  match acc, slot with
  | some m1, .occupied h eid => insert_internal m1 h eid
  | some m1, _ => some m1
  | none, _ => none

/-- `NodeHashMap::rehash`: rebuild only the slot array; entries are not
moved. -/
def rehash (m : NodeHashMap K V) (new_capacity : Nat) :
    Option (NodeHashMap K V) :=
  let fresh : NodeHashMap K V :=
    { m with
        table := List.replicate new_capacity .empty
        capacity := new_capacity
        tombstone_count := 0 }
  m.table.foldl rehash_step (some fresh)

/-- In-place update of `entry->data.second` (the key part is `const`). -/
def set_entry_value (entries : List (K × V)) (eid : Nat) (v : V) :
    List (K × V) :=
  match entries.get? eid with
  | some e => entries.set eid (e.1, v)
  | none => entries

/-- Main probing loop of `NodeHashMap::insert`. -/
def insert_loop (hash : Nat) (key : K) (value : V) :
    Nat → Nat → Option Nat → NodeHashMap K V →
    Option (NodeHashMap K V × V × Bool)
  | _, 0, _, _ => none
  | i, fuel + 1, first_tombstone, m =>
    let pos := probe m.capacity (hash &&& (m.capacity - 1)) i
    match nslotAt m.table pos with
    | .empty =>
      let insert_pos := first_tombstone.getD pos
      some ({ m with
                table := m.table.set insert_pos
                  (.occupied hash m.entries.length)
                entries := m.entries ++ [(key, value)]
                size := m.size + 1
                tombstone_count :=
                  if first_tombstone.isSome then m.tombstone_count - 1
                  else m.tombstone_count },
            value, true)
    | .tombstone =>
      insert_loop hash key value (i + 1) fuel
        (if first_tombstone.isNone then some pos else first_tombstone) m
    | .occupied h0 eid =>
      if h0 = hash ∧ entry_key_eq m.entries eid key then
        some ({ m with entries := set_entry_value m.entries eid value },
              value, false)
      else insert_loop hash key value (i + 1) fuel first_tombstone m

/-- `NodeHashMap::insert`: growth / compaction pre-check, then probing. -/
def insert (hf : K → Nat) (m : NodeHashMap K V) (key : K) (value : V) :
    Option (NodeHashMap K V × V × Bool) :=
  let pre : Option (NodeHashMap K V) :=
    if 4 * (m.size + 1) > 3 * m.capacity ∨
        4 * m.tombstone_count > m.capacity then
      rehash m (m.capacity * 2)
    else some m
  pre.bind fun m1 => insert_loop (make_hash (hf key)) key value 0 m1.capacity
    none m1

/-- `NodeHashMap::find`. -/
def find (hf : K → Nat) (m : NodeHashMap K V) (key : K) : Option V :=
  let hash := make_hash (hf key)
  let pos := find_slot m key hash
  if pos = m.capacity then none
  else
    match nslotAt m.table pos with
    | .occupied _ eid => (m.entries.get? eid).map Prod.snd
    | _ => none

def contains (hf : K → Nat) (m : NodeHashMap K V) (key : K) : Bool :=
  (find hf m key).isSome

/-- `NodeHashMap::erase`: tombstone the slot (sentinel hash and pointer);
the entry itself stays in the backing store.  Compaction as in the flat
backend. -/
def erase (hf : K → Nat) (m : NodeHashMap K V) (key : K) :
    Option (NodeHashMap K V × Bool) :=
  let hash := make_hash (hf key)
  let pos := find_slot m key hash
  if pos = m.capacity then some (m, false)
  else
    let m1 : NodeHashMap K V :=
      { m with
          table := m.table.set pos .tombstone
          tombstone_count := m.tombstone_count + 1
          size := m.size - 1 }
    if 4 * m1.tombstone_count > m1.capacity ∧ m1.size > 0 then
      (rehash m1 m1.capacity).map fun m2 => (m2, true)
    else some (m1, true)

/-- `NodeHashMap::clear`: reset the slot array, drop all entries. -/
def clear (m : NodeHashMap K V) : NodeHashMap K V :=
  { m with
      table := m.table.map fun _ => .empty
      entries := []
      size := 0
      tombstone_count := 0 }

/-- `NodeHashMap::operator[]`. -/
def bracket (hf : K → Nat) (d : V) (m : NodeHashMap K V) (key : K) :
    Option (NodeHashMap K V × V) :=
  let hash := make_hash (hf key)
  let pos := find_slot m key hash
  if pos ≠ m.capacity then
    match nslotAt m.table pos with
    | .occupied _ eid => (m.entries.get? eid).map fun e => (m, e.2)
    | _ => none
  else (insert hf m key d).map fun r => (r.1, r.2.1)

/-- Move construction: `NodeHashMap(NodeHashMap&&) = default`, so the
vector members are moved (left empty) while the scalar members `size_`,
`capacity_`, `tombstone_count_` are merely copied and stay behind in the
source.  First component: destination, second: what remains of the source. -/
def move_construct (m : NodeHashMap K V) :
    NodeHashMap K V × NodeHashMap K V :=
  (m,
   { table := [], entries := [], size := m.size, capacity := m.capacity
     tombstone_count := m.tombstone_count })

/-- Move assignment is also `= default`, with the same member-wise
behaviour. -/
def move_assign (_dest m : NodeHashMap K V) :
    NodeHashMap K V × NodeHashMap K V :=
  (m,
   { table := [], entries := [], size := m.size, capacity := m.capacity
     tombstone_count := m.tombstone_count })

end NodeHashMap

/-! ### Operation sequences and reachable states -/

/-- The public mutating/observing operations both backends expose with the
same contract. -/
inductive MapOp (K V : Type) where
  | insert (key : K) (value : V)
  | erase (key : K)
  | clear
  | bracket (key : K)
  | find (key : K)
  | contains (key : K)

/-- Observable outcome of one operation: the value produced (if any), the
boolean produced (if any), and `size()` right after the step. -/
structure Obs (V : Type) where
  valueOut : Option V
  boolOut : Bool
  sizeOut : Nat
  deriving DecidableEq

namespace FlatHashMap

variable {K V : Type} [DecidableEq K]

def step (hf : K → Nat) (d : V) (m : FlatHashMap K V) :
    MapOp K V → Option (FlatHashMap K V × Obs V)
  | .insert k v => (insert hf m k v).map fun r => (r.1, ⟨some r.2.1, r.2.2, r.1.size⟩)
  | .erase k => (erase hf m k).map fun r => (r.1, ⟨none, r.2, r.1.size⟩)
  | .clear => some (clear m, ⟨none, true, (clear m).size⟩)
  | .bracket k => (bracket hf d m k).map fun r => (r.1, ⟨some r.2, true, r.1.size⟩)
  | .find k => some (m, ⟨find hf m k, (find hf m k).isSome, m.size⟩)
  | .contains k => some (m, ⟨none, contains hf m k, m.size⟩)

def run (hf : K → Nat) (d : V) :
    List (MapOp K V) → FlatHashMap K V →
    Option (FlatHashMap K V × List (Obs V))
  | [], m => some (m, [])
  | op :: ops, m =>
    (step hf d m op).bind fun r =>
      (run hf d ops r.1).map fun s => (s.1, r.2 :: s.2)

/-- States reachable from a freshly constructed (non-moved-from) map by the
public operations.  The sized constructor is restricted to the domain where
the `double` capacity computation is exact (see header notes). -/
inductive Reach (hf : K → Nat) (d : V) : FlatHashMap K V → Prop where
  | new : Reach hf d (FlatHashMap.new K V)
  | newSized (n : Nat) (hn : n ≤ 2 ^ 50) :
      Reach hf d (FlatHashMap.newSized K V n)
  | insert {m m1 : FlatHashMap K V} {k : K} {v v1 : V} {b : Bool} :
      Reach hf d m → FlatHashMap.insert hf m k v = some (m1, v1, b) →
      Reach hf d m1
  | erase {m m1 : FlatHashMap K V} {k : K} {b : Bool} :
      Reach hf d m → FlatHashMap.erase hf m k = some (m1, b) →
      Reach hf d m1
  | clear {m : FlatHashMap K V} :
      Reach hf d m → Reach hf d (FlatHashMap.clear m)
  | bracket {m m1 : FlatHashMap K V} {k : K} {v1 : V} :
      Reach hf d m → FlatHashMap.bracket hf d m k = some (m1, v1) →
      Reach hf d m1

end FlatHashMap

namespace NodeHashMap

variable {K V : Type} [DecidableEq K]

def step (hf : K → Nat) (d : V) (m : NodeHashMap K V) :
    MapOp K V → Option (NodeHashMap K V × Obs V)
  | .insert k v => (insert hf m k v).map fun r => (r.1, ⟨some r.2.1, r.2.2, r.1.size⟩)
  | .erase k => (erase hf m k).map fun r => (r.1, ⟨none, r.2, r.1.size⟩)
  | .clear => some (clear m, ⟨none, true, (clear m).size⟩)
  | .bracket k => (bracket hf d m k).map fun r => (r.1, ⟨some r.2, true, r.1.size⟩)
  | .find k => some (m, ⟨find hf m k, (find hf m k).isSome, m.size⟩)
  | .contains k => some (m, ⟨none, contains hf m k, m.size⟩)

def run (hf : K → Nat) (d : V) :
    List (MapOp K V) → NodeHashMap K V →
    Option (NodeHashMap K V × List (Obs V))
  | [], m => some (m, [])
  | op :: ops, m =>
    (step hf d m op).bind fun r =>
      (run hf d ops r.1).map fun s => (s.1, r.2 :: s.2)

inductive Reach (hf : K → Nat) (d : V) : NodeHashMap K V → Prop where
  | new : Reach hf d (NodeHashMap.new K V)
  | newSized (n : Nat) (hn : n ≤ 2 ^ 50) :
      Reach hf d (NodeHashMap.newSized K V n)
  | insert {m m1 : NodeHashMap K V} {k : K} {v v1 : V} {b : Bool} :
      Reach hf d m → NodeHashMap.insert hf m k v = some (m1, v1, b) →
      Reach hf d m1
  | erase {m m1 : NodeHashMap K V} {k : K} {b : Bool} :
      Reach hf d m → NodeHashMap.erase hf m k = some (m1, b) →
      Reach hf d m1
  | clear {m : NodeHashMap K V} :
      Reach hf d m → Reach hf d (NodeHashMap.clear m)
  | bracket {m m1 : NodeHashMap K V} {k : K} {v1 : V} :
      Reach hf d m → NodeHashMap.bracket hf d m k = some (m1, v1) →
      Reach hf d m1

end NodeHashMap

/-! ### Basic lemmas: sanitized hashes, probing, power-of-two capacities -/

theorem two_le_make_hash (h : Nat) : 2 ≤ make_hash h := by
  unfold make_hash
  split
  · omega
  · next hcon =>
    push_neg at hcon
    simp only [EMPTY_HASH, TOMBSTONE_HASH] at hcon
    omega

theorem make_hash_ne_zero (h : Nat) : make_hash h ≠ EMPTY_HASH := by
  have := two_le_make_hash h
  simp only [EMPTY_HASH]
  omega

theorem make_hash_ne_one (h : Nat) : make_hash h ≠ TOMBSTONE_HASH := by
  have := two_le_make_hash h
  simp only [TOMBSTONE_HASH]
  omega

theorem probe_eq_mod {c : Nat} (j : Nat) (hc : c = 2 ^ j) (index i : Nat) :
    probe c index i = (index + i) % c := by
  subst hc
  exact Nat.and_pow_two_sub_one_eq_mod _ j

theorem probe_lt {c : Nat} (j : Nat) (hc : c = 2 ^ j) (index i : Nat) :
    probe c index i < c := by
  rw [probe_eq_mod j hc]
  exact Nat.mod_lt _ (hc ▸ Nat.pos_pow_of_pos j (by norm_num))

theorem probe_inj {c : Nat} (j : Nat) (hc : c = 2 ^ j) (index : Nat)
    {i1 i2 : Nat} (h1 : i1 < c) (h2 : i2 < c)
    (heq : probe c index i1 = probe c index i2) : i1 = i2 := by
  rw [probe_eq_mod j hc, probe_eq_mod j hc] at heq
  have h3 : i1 % c = i2 % c := Nat.ModEq.add_left_cancel' index heq
  rwa [Nat.mod_eq_of_lt h1, Nat.mod_eq_of_lt h2] at h3

theorem probe_surj {c : Nat} (j : Nat) (hc : c = 2 ^ j) (index : Nat)
    {p : Nat} (hp : p < c) : ∃ i, i < c ∧ probe c index i = p := by
  have hpos : 0 < c := hc ▸ Nat.pos_pow_of_pos j (by norm_num)
  have hr : index % c < c := Nat.mod_lt _ hpos
  refine ⟨(c + p - index % c) % c, Nat.mod_lt _ hpos, ?_⟩
  rw [probe_eq_mod j hc, Nat.add_mod_mod]
  have hdm : c * (index / c) + index % c = index := Nat.div_add_mod index c
  have hsplit : index + (c + p - index % c) = c * (index / c) + c + p := by
    omega
  rw [hsplit]
  have hfold : c * (index / c) + c + p = c * (index / c + 1) + p := by ring
  rw [hfold, Nat.mul_add_mod, Nat.mod_eq_of_lt hp]

/-- One step of the bit-smearing ladder in `next_power_of_2`. -/
def smear (k v : Nat) : Nat := v ||| (v >>> k)

theorem next_power_of_2_eq (n : Nat) :
    next_power_of_2 n =
      if n = 0 then 1
      else smear 32 (smear 16 (smear 8 (smear 4 (smear 2 (smear 1 (n - 1)))))) + 1 :=
  rfl

/-- The value `v` has exactly the bits that `x` has within distance `< d`
below them. -/
def SmearSpec (x d v : Nat) : Prop :=
  ∀ b, v.testBit b = true ↔ ∃ i, i < d ∧ x.testBit (b + i) = true

theorem smearSpec_base (x : Nat) : SmearSpec x 1 x := by
  intro b
  constructor
  · intro h
    exact ⟨0, Nat.zero_lt_one, by simpa using h⟩
  · rintro ⟨i, hi, h⟩
    have hi0 : i = 0 := by omega
    subst hi0
    simpa using h

theorem smearSpec_step {x d v : Nat} (h : SmearSpec x d v) :
    SmearSpec x (2 * d) (smear d v) := by
  intro b
  unfold smear
  rw [Nat.testBit_lor, Nat.testBit_shiftRight, Bool.or_eq_true]
  constructor
  · rintro (hb | hb)
    · obtain ⟨i, hi, hx⟩ := (h b).mp hb
      exact ⟨i, by omega, hx⟩
    · obtain ⟨i, hi, hx⟩ := (h (d + b)).mp hb
      refine ⟨i + d, by omega, ?_⟩
      have harith : b + (i + d) = d + b + i := by omega
      rwa [harith]
  · rintro ⟨i, hi, hx⟩
    by_cases hid : i < d
    · exact Or.inl ((h b).mpr ⟨i, hid, hx⟩)
    · refine Or.inr ((h (d + b)).mpr ⟨i - d, by omega, ?_⟩)
      have harith : d + b + (i - d) = b + i := by omega
      rwa [harith]

theorem smear_all (x : Nat) :
    SmearSpec x 64
      (smear 32 (smear 16 (smear 8 (smear 4 (smear 2 (smear 1 x)))))) := by
  have h1 := smearSpec_base x
  have h2 := smearSpec_step h1
  have h4 := smearSpec_step h2
  have h8 := smearSpec_step h4
  have h16 := smearSpec_step h8
  have h32 := smearSpec_step h16
  have h64 := smearSpec_step h32
  norm_num at h2 h4 h8 h16 h32 h64
  exact h64

theorem testBit_size_sub_one {x : Nat} (hx : 0 < x) :
    x.testBit (x.size - 1) = true := by
  have hs : 0 < x.size := by
    rcases Nat.eq_zero_or_pos x.size with h | h
    · exact absurd (Nat.size_eq_zero.mp h) (by omega)
    · exact h
  have hlow : 2 ^ (x.size - 1) ≤ x := by
    by_contra hlt
    push_neg at hlt
    have := Nat.size_le.mpr hlt
    omega
  have hhigh : x < 2 ^ x.size := Nat.lt_size_self x
  have hpow : 2 ^ x.size = 2 ^ (x.size - 1) * 2 := by
    rw [← Nat.pow_succ]
    congr 1
    omega
  rw [Nat.testBit_to_div_mod]
  have hdiv : x / 2 ^ (x.size - 1) = 1 := by
    have hge : 1 ≤ x / 2 ^ (x.size - 1) :=
      (Nat.one_le_div_iff (Nat.pos_pow_of_pos _ (by norm_num))).mpr hlow
    have hlt2 : x / 2 ^ (x.size - 1) < 2 :=
      Nat.div_lt_of_lt_mul (by omega)
    omega
  simp [hdiv]

theorem smear_chain_eq {x : Nat} (hx : 0 < x) (hlt : x < 2 ^ 62) :
    smear 32 (smear 16 (smear 8 (smear 4 (smear 2 (smear 1 x))))) =
      2 ^ x.size - 1 := by
  have hspec := smear_all x
  have hsize : x.size ≤ 62 := Nat.size_le.mpr hlt
  apply Nat.eq_of_testBit_eq
  intro b
  rw [Nat.testBit_two_pow_sub_one]
  by_cases hb : b < x.size
  · have hmsb := testBit_size_sub_one hx
    have hex : ∃ i, i < 64 ∧ x.testBit (b + i) = true := by
      refine ⟨x.size - 1 - b, by omega, ?_⟩
      have harith : b + (x.size - 1 - b) = x.size - 1 := by omega
      rw [harith]
      exact hmsb
    rw [(hspec b).mpr hex]
    simp [hb]
  · have hnone : ¬∃ i, i < 64 ∧ x.testBit (b + i) = true := by
      rintro ⟨i, _, hti⟩
      have hlt2 : x < 2 ^ (b + i) :=
        lt_of_lt_of_le (Nat.lt_size_self x)
          (Nat.pow_le_pow_right (by norm_num) (by omega))
      rw [Nat.testBit_lt_two_pow hlt2] at hti
      exact absurd hti (by simp)
    have hfalse :
        (smear 32 (smear 16 (smear 8 (smear 4 (smear 2 (smear 1 x)))))).testBit
          b = false := by
      cases hcase :
          (smear 32 (smear 16 (smear 8 (smear 4 (smear 2 (smear 1 x)))))).testBit
            b
      · rfl
      · exact absurd ((hspec b).mp hcase) hnone
    rw [hfalse]
    simp [hb]

theorem next_power_of_2_isPow2 {n : Nat} (hn : n ≤ 2 ^ 62) :
    ∃ j, next_power_of_2 n = 2 ^ j := by
  rcases Nat.eq_zero_or_pos n with h0 | h0
  · subst h0
    exact ⟨0, rfl⟩
  rcases Nat.lt_or_ge n 2 with h1 | h2
  · have hn1 : n = 1 := by omega
    subst hn1
    exact ⟨0, rfl⟩
  · have hx : 0 < n - 1 := by omega
    have hxlt : n - 1 < 2 ^ 62 := by omega
    refine ⟨(n - 1).size, ?_⟩
    rw [next_power_of_2_eq, if_neg (by omega), smear_chain_eq hx hxlt]
    have := Nat.pos_pow_of_pos (n - 1).size (show 0 < 2 by norm_num)
    omega

/-! ### Slot classification and table counting for the flat backend -/

namespace FlatHashMap

variable {K V : Type} [DecidableEq K]

def isOccB : FSlot K V → Bool
  | .occupied _ _ _ => true
  | _ => false

def isTombB : FSlot K V → Bool
  | .tombstone => true
  | _ => false

def isEmptyB : FSlot K V → Bool
  | .empty => true
  | _ => false

/-- Keys of one slot (one key when occupied, none otherwise). -/
def keyList : FSlot K V → List K
  | .occupied _ k _ => [k]
  | _ => []

/-- Full content of one slot. -/
def entryList : FSlot K V → List (Nat × K × V)
  | .occupied h k v => [(h, k, v)]
  | _ => []

/-- Keys stored in occupied slots, in table order. -/
def occupiedKeys (tbl : List (FSlot K V)) : List K :=
  tbl.filterMap fun s => match s with
    | .occupied _ k _ => some k
    | _ => none

/-- (hash, key, value) triples stored in occupied slots, in table order. -/
def occEntries (tbl : List (FSlot K V)) : List (Nat × K × V) :=
  tbl.filterMap fun s => match s with
    | .occupied h k v => some (h, k, v)
    | _ => none

def countOcc (tbl : List (FSlot K V)) : Nat := tbl.countP isOccB
def countTomb (tbl : List (FSlot K V)) : Nat := tbl.countP isTombB
def countEmptySlots (tbl : List (FSlot K V)) : Nat := tbl.countP isEmptyB

theorem count_partition (tbl : List (FSlot K V)) :
    countOcc tbl + countTomb tbl + countEmptySlots tbl = tbl.length := by
  induction tbl with
  | nil => rfl
  | cons s rest ih =>
    simp only [countOcc, countTomb, countEmptySlots, List.countP_cons,
      List.length_cons] at *
    cases s <;> simp [isOccB, isTombB, isEmptyB] <;> omega

theorem countOcc_le_length (tbl : List (FSlot K V)) :
    countOcc tbl ≤ tbl.length :=
  List.countP_le_length _

theorem occupiedKeys_cons (s : FSlot K V) (rest : List (FSlot K V)) :
    occupiedKeys (s :: rest) = keyList s ++ occupiedKeys rest := by
  cases s <;> simp [occupiedKeys, keyList, List.filterMap_cons]

theorem occEntries_cons (s : FSlot K V) (rest : List (FSlot K V)) :
    occEntries (s :: rest) = entryList s ++ occEntries rest := by
  cases s <;> simp [occEntries, entryList, List.filterMap_cons]

theorem countOcc_cons (s : FSlot K V) (rest : List (FSlot K V)) :
    countOcc (s :: rest) = (keyList s).length + countOcc rest := by
  cases s <;> simp [countOcc, keyList, List.countP_cons, isOccB, Nat.add_comm]

theorem countTomb_cons (s : FSlot K V) (rest : List (FSlot K V)) :
    countTomb (s :: rest) =
      (if isTombB s then 1 else 0) + countTomb rest := by
  cases s <;> simp [countTomb, List.countP_cons, isTombB, Nat.add_comm]

theorem length_occupiedKeys (tbl : List (FSlot K V)) :
    (occupiedKeys tbl).length = countOcc tbl := by
  induction tbl with
  | nil => rfl
  | cons s rest ih =>
    rw [occupiedKeys_cons, countOcc_cons, List.length_append, ih]

/-- Reading a slot below the length is a `get?` hit. -/
theorem fslotAt_eq_of_get? {tbl : List (FSlot K V)} {pos : Nat}
    {s : FSlot K V} (h : tbl.get? pos = some s) : fslotAt tbl pos = s := by
  unfold fslotAt
  rw [List.getD_eq_get?, h]
  rfl

theorem get?_of_fslotAt_occupied {tbl : List (FSlot K V)} {pos : Nat}
    {h : Nat} {k : K} {v : V} (hocc : fslotAt tbl pos = .occupied h k v) :
    tbl.get? pos = some (.occupied h k v) := by
  unfold fslotAt at hocc
  rw [List.getD_eq_get?] at hocc
  cases hget : tbl.get? pos with
  | none =>
    rw [hget] at hocc
    exact absurd hocc (by simp)
  | some s =>
    rw [hget] at hocc
    simp only [Option.getD_some] at hocc
    rw [← hocc]

theorem fslotAt_occupied_lt_length {tbl : List (FSlot K V)} {pos : Nat}
    {h : Nat} {k : K} {v : V} (hocc : fslotAt tbl pos = .occupied h k v) :
    pos < tbl.length := by
  have := get?_of_fslotAt_occupied hocc
  rcases List.get?_eq_some.mp this with ⟨hlt, _⟩
  exact hlt

theorem fslotAt_set_self {tbl : List (FSlot K V)} {pos : Nat}
    (hpos : pos < tbl.length) (x : FSlot K V) :
    fslotAt (tbl.set pos x) pos = x := by
  unfold fslotAt
  rw [List.getD_eq_get?, List.get?_set_eq]
  rw [List.get?_eq_get hpos]
  rfl

theorem fslotAt_set_ne {tbl : List (FSlot K V)} {pos q : Nat}
    (hne : pos ≠ q) (x : FSlot K V) :
    fslotAt (tbl.set pos x) q = fslotAt tbl q := by
  unfold fslotAt
  rw [List.getD_eq_get?, List.getD_eq_get?, List.get?_set_ne _ _ hne]

/-- Decomposition of `occupiedKeys` under a single-slot write. -/
theorem occupiedKeys_set (tbl : List (FSlot K V)) (pos : Nat) (x : FSlot K V)
    (hpos : pos < tbl.length) :
    ∃ A B, occupiedKeys tbl = A ++ keyList (fslotAt tbl pos) ++ B ∧
      occupiedKeys (tbl.set pos x) = A ++ keyList x ++ B := by
  induction tbl generalizing pos with
  | nil => exact absurd hpos (by simp)
  | cons s rest ih =>
    cases pos with
    | zero =>
      refine ⟨[], occupiedKeys rest, ?_, ?_⟩
      · have h0 : fslotAt (s :: rest) 0 = s := rfl
        rw [h0, occupiedKeys_cons, List.nil_append]
      · have h0 : (s :: rest).set 0 x = x :: rest := rfl
        rw [h0, occupiedKeys_cons, List.nil_append]
    | succ p =>
      have hp : p < rest.length := by simpa using hpos
      obtain ⟨A, B, h1, h2⟩ := ih p hp
      refine ⟨keyList s ++ A, B, ?_, ?_⟩
      · have hfs : fslotAt (s :: rest) (p + 1) = fslotAt rest p := rfl
        rw [hfs, occupiedKeys_cons, h1]
        simp [List.append_assoc]
      · have hset : (s :: rest).set (p + 1) x = s :: rest.set p x := rfl
        rw [hset, occupiedKeys_cons, h2]
        simp [List.append_assoc]

/-- Decomposition of `occEntries` under a single-slot write. -/
theorem occEntries_set (tbl : List (FSlot K V)) (pos : Nat) (x : FSlot K V)
    (hpos : pos < tbl.length) :
    ∃ A B, occEntries tbl = A ++ entryList (fslotAt tbl pos) ++ B ∧
      occEntries (tbl.set pos x) = A ++ entryList x ++ B := by
  induction tbl generalizing pos with
  | nil => exact absurd hpos (by simp)
  | cons s rest ih =>
    cases pos with
    | zero =>
      refine ⟨[], occEntries rest, ?_, ?_⟩
      · have h0 : fslotAt (s :: rest) 0 = s := rfl
        rw [h0, occEntries_cons, List.nil_append]
      · have h0 : (s :: rest).set 0 x = x :: rest := rfl
        rw [h0, occEntries_cons, List.nil_append]
    | succ p =>
      have hp : p < rest.length := by simpa using hpos
      obtain ⟨A, B, h1, h2⟩ := ih p hp
      refine ⟨entryList s ++ A, B, ?_, ?_⟩
      · have hfs : fslotAt (s :: rest) (p + 1) = fslotAt rest p := rfl
        rw [hfs, occEntries_cons, h1]
        simp [List.append_assoc]
      · have hset : (s :: rest).set (p + 1) x = s :: rest.set p x := rfl
        rw [hset, occEntries_cons, h2]
        simp [List.append_assoc]

theorem fslotAt_eq_getElem {tbl : List (FSlot K V)} {pos : Nat}
    (hpos : pos < tbl.length) : fslotAt tbl pos = tbl[pos] := by
  unfold fslotAt
  rw [List.getD_eq_getElem?_getD, List.getElem?_eq_getElem hpos]
  rfl

theorem countOcc_set (tbl : List (FSlot K V)) (pos : Nat) (x : FSlot K V)
    (hpos : pos < tbl.length) :
    countOcc (tbl.set pos x) =
      countOcc tbl - (if isOccB (fslotAt tbl pos) then 1 else 0) +
        (if isOccB x then 1 else 0) := by
  unfold countOcc
  rw [List.countP_set _ _ _ _ hpos, fslotAt_eq_getElem hpos]

theorem countTomb_set (tbl : List (FSlot K V)) (pos : Nat) (x : FSlot K V)
    (hpos : pos < tbl.length) :
    countTomb (tbl.set pos x) =
      countTomb tbl - (if isTombB (fslotAt tbl pos) then 1 else 0) +
        (if isTombB x then 1 else 0) := by
  unfold countTomb
  rw [List.countP_set _ _ _ _ hpos, fslotAt_eq_getElem hpos]

theorem mem_occupiedKeys {tbl : List (FSlot K V)} {k : K} :
    k ∈ occupiedKeys tbl ↔
      ∃ pos h v, tbl.get? pos = some (.occupied h k v) := by
  unfold occupiedKeys
  rw [List.mem_filterMap]
  constructor
  · rintro ⟨s, hmem, hs⟩
    obtain ⟨pos, hpos⟩ := List.mem_iff_get?.mp hmem
    cases s with
    | occupied h k0 v =>
      simp only [Option.some_inj] at hs
      subst hs
      exact ⟨pos, h, v, hpos⟩
    | empty => simp at hs
    | tombstone => simp at hs
  · rintro ⟨pos, h, v, hpos⟩
    exact ⟨.occupied h k v, List.get?_mem hpos, rfl⟩

theorem mem_occEntries {tbl : List (FSlot K V)} {h : Nat} {k : K} {v : V} :
    (h, k, v) ∈ occEntries tbl ↔
      ∃ pos, tbl.get? pos = some (.occupied h k v) := by
  unfold occEntries
  rw [List.mem_filterMap]
  constructor
  · rintro ⟨s, hmem, hs⟩
    obtain ⟨pos, hpos⟩ := List.mem_iff_get?.mp hmem
    cases s with
    | occupied h0 k0 v0 =>
      simp only [Option.some_inj, Prod.mk.injEq] at hs
      obtain ⟨rfl, rfl, rfl⟩ := hs
      exact ⟨pos, hpos⟩
    | empty => simp at hs
    | tombstone => simp at hs
  · rintro ⟨pos, hpos⟩
    exact ⟨.occupied h k v, List.get?_mem hpos, rfl⟩

/-- Distinct occupied slots of a key-nodup table hold distinct keys. -/
theorem nodup_key_inj {tbl : List (FSlot K V)}
    (hnd : (occupiedKeys tbl).Nodup) {p q h1 h2 : Nat} {k : K} {v1 v2 : V}
    (hp : tbl.get? p = some (.occupied h1 k v1))
    (hq : tbl.get? q = some (.occupied h2 k v2)) : p = q := by
  induction tbl generalizing p q with
  | nil => simp at hp
  | cons s rest ih =>
    rw [occupiedKeys_cons] at hnd
    cases p with
    | zero =>
      cases q with
      | zero => rfl
      | succ q0 =>
        exfalso
        simp only [List.get?] at hp hq
        simp only [Option.some_inj] at hp
        subst hp
        have hk : k ∈ occupiedKeys rest :=
          mem_occupiedKeys.mpr ⟨q0, h2, v2, hq⟩
        simp [keyList, List.nodup_cons] at hnd
        exact hnd.1 hk
    | succ p0 =>
      cases q with
      | zero =>
        exfalso
        simp only [List.get?] at hp hq
        simp only [Option.some_inj] at hq
        subst hq
        have hk : k ∈ occupiedKeys rest :=
          mem_occupiedKeys.mpr ⟨p0, h1, v1, hp⟩
        simp [keyList, List.nodup_cons] at hnd
        exact hnd.1 hk
      | succ q0 =>
        simp only [List.get?] at hp hq
        have := ih (hnd.of_append_right) hp hq
        omega

/-- Probe-chain certificate: the slot at `pos` is reachable from the home
slot of `hash` without crossing an empty slot. -/
def ChainOK (tbl : List (FSlot K V)) (cap hash pos : Nat) : Prop :=
  ∃ t, t < cap ∧ pos = probe cap (hash &&& (cap - 1)) t ∧
    ∀ j, j < t → fslotAt tbl (probe cap (hash &&& (cap - 1)) j) ≠ .empty

theorem ChainOK.mono {tbl tbl2 : List (FSlot K V)} {cap hash pos : Nat}
    (hne : ∀ p, fslotAt tbl p ≠ .empty → fslotAt tbl2 p ≠ .empty)
    (h : ChainOK tbl cap hash pos) : ChainOK tbl2 cap hash pos := by
  obtain ⟨t, ht, hpos, hchain⟩ := h
  exact ⟨t, ht, hpos, fun j hj => hne _ (hchain j hj)⟩

/-! ### Characterization of the probing loops (flat backend) -/

/-- Position visited at probe step `i` when inserting / searching `hash`. -/
def stepPos (cap hash i : Nat) : Nat := probe cap (hash &&& (cap - 1)) i

/-- Slot seen at probe step `i`. -/
def stepSlot (tbl : List (FSlot K V)) (cap hash i : Nat) : FSlot K V :=
  fslotAt tbl (stepPos cap hash i)

/-- The slot at step `i` holds `key` under the searched hash. -/
def HitAt (tbl : List (FSlot K V)) (cap hash : Nat) (key : K) (i : Nat) :
    Prop :=
  ∃ v0, stepSlot tbl cap hash i = .occupied hash key v0

theorem find_slot_go_sound {tbl : List (FSlot K V)} {cap hash : Nat}
    {key : K} :
    ∀ fuel i,
      find_slot_go tbl cap (hash &&& (cap - 1)) hash key i fuel ≠ cap →
      ∃ t, i ≤ t ∧ t < i + fuel ∧
        find_slot_go tbl cap (hash &&& (cap - 1)) hash key i fuel =
          stepPos cap hash t ∧ HitAt tbl cap hash key t := by
  intro fuel
  induction fuel with
  | zero =>
    intro i h
    exact absurd rfl h
  | succ fuel ih =>
    intro i h
    cases hslot : fslotAt tbl (probe cap (hash &&& (cap - 1)) i) with
    | empty =>
      simp only [find_slot_go, hslot] at h
      exact absurd rfl h
    | tombstone =>
      simp only [find_slot_go, hslot] at h ⊢
      obtain ⟨t, ht1, ht2, ht3, ht4⟩ := ih (i + 1) h
      exact ⟨t, by omega, by omega, ht3, ht4⟩
    | occupied h0 k0 v0 =>
      simp only [find_slot_go, hslot] at h ⊢
      by_cases hcond : h0 = hash ∧ k0 = key
      · rw [if_pos hcond] at h ⊢
        obtain ⟨rfl, rfl⟩ := hcond
        exact ⟨i, le_refl _, by omega, rfl, ⟨v0, hslot⟩⟩
      · rw [if_neg hcond] at h ⊢
        obtain ⟨t, ht1, ht2, ht3, ht4⟩ := ih (i + 1) h
        exact ⟨t, by omega, by omega, ht3, ht4⟩

theorem find_slot_go_stop {tbl : List (FSlot K V)} {cap hash : Nat}
    {key : K} :
    ∀ fuel i t, i ≤ t → t < i + fuel →
      (∀ j, i ≤ j → j < t →
        stepSlot tbl cap hash j ≠ .empty ∧ ¬HitAt tbl cap hash key j) →
      (HitAt tbl cap hash key t →
        find_slot_go tbl cap (hash &&& (cap - 1)) hash key i fuel =
          stepPos cap hash t) ∧
      (stepSlot tbl cap hash t = .empty →
        find_slot_go tbl cap (hash &&& (cap - 1)) hash key i fuel = cap) := by
  intro fuel
  induction fuel with
  | zero =>
    intro i t h1 h2
    omega
  | succ fuel ih =>
    intro i t h1 h2 hpre
    rcases Nat.eq_or_lt_of_le h1 with rfl | hlt
    · constructor
      · rintro ⟨v0, hv0⟩
        unfold stepSlot stepPos at hv0
        simp [find_slot_go, hv0, stepPos]
      · intro hemp
        unfold stepSlot stepPos at hemp
        simp only [find_slot_go, hemp]
    · have hstep := hpre i (le_refl _) hlt
      have hrec := ih (i + 1) t hlt (by omega)
        (fun j hj1 hj2 => hpre j (by omega) hj2)
      cases hslot : fslotAt tbl (probe cap (hash &&& (cap - 1)) i) with
      | empty =>
        exact absurd hslot hstep.1
      | tombstone =>
        constructor
        · intro hhit
          simp only [find_slot_go, hslot]
          exact hrec.1 hhit
        · intro hemp
          simp only [find_slot_go, hslot]
          exact hrec.2 hemp
      | occupied h0 k0 v0 =>
        have hcond : ¬(h0 = hash ∧ k0 = key) := by
          rintro ⟨rfl, rfl⟩
          exact hstep.2 ⟨v0, hslot⟩
        constructor
        · intro hhit
          simp only [find_slot_go, hslot]
          rw [if_neg hcond]
          exact hrec.1 hhit
        · intro hemp
          simp only [find_slot_go, hslot]
          rw [if_neg hcond]
          exact hrec.2 hemp

theorem find_slot_go_exhaust {tbl : List (FSlot K V)} {cap hash : Nat}
    {key : K} :
    ∀ fuel i,
      (∀ j, i ≤ j → j < i + fuel →
        stepSlot tbl cap hash j ≠ .empty ∧ ¬HitAt tbl cap hash key j) →
      find_slot_go tbl cap (hash &&& (cap - 1)) hash key i fuel = cap := by
  intro fuel
  induction fuel with
  | zero => intro i _; rfl
  | succ fuel ih =>
    intro i hpre
    have hstep := hpre i (le_refl _) (by omega)
    cases hslot : fslotAt tbl (probe cap (hash &&& (cap - 1)) i) with
    | empty => exact absurd hslot hstep.1
    | tombstone =>
      simp only [find_slot_go, hslot]
      exact ih (i + 1) (fun j hj1 hj2 => hpre j (by omega) (by omega))
    | occupied h0 k0 v0 =>
      have hcond : ¬(h0 = hash ∧ k0 = key) := by
        rintro ⟨rfl, rfl⟩
        exact hstep.2 ⟨v0, hslot⟩
      simp only [find_slot_go, hslot]
      rw [if_neg hcond]
      exact ih (i + 1) (fun j hj1 hj2 => hpre j (by omega) (by omega))

theorem insert_loop_hit (hash : Nat) (key : K) (value : V)
    (m : FlatHashMap K V) :
    ∀ fuel i t ft, i ≤ t → t < i + fuel →
      (∀ j, i ≤ j → j < t →
        stepSlot m.table m.capacity hash j ≠ .empty ∧
          ¬HitAt m.table m.capacity hash key j) →
      HitAt m.table m.capacity hash key t →
      insert_loop hash key value i fuel ft m =
        some ({ m with
                  table := m.table.set (stepPos m.capacity hash t)
                    (.occupied hash key value) },
              value, false) := by
  intro fuel
  induction fuel with
  | zero => intro i t ft h1 h2; omega
  | succ fuel ih =>
    intro i t ft h1 h2 hpre hhit
    rcases Nat.eq_or_lt_of_le h1 with rfl | hlt
    · obtain ⟨v0, hv0⟩ := hhit
      unfold stepSlot stepPos at hv0
      simp [insert_loop, hv0, stepPos]
    · have hstep := hpre i (le_refl _) hlt
      cases hslot : fslotAt m.table (probe m.capacity (hash &&& (m.capacity - 1)) i) with
      | empty => exact absurd hslot hstep.1
      | tombstone =>
        simp only [insert_loop, hslot]
        exact ih (i + 1) t _ hlt (by omega)
          (fun j hj1 hj2 => hpre j (by omega) hj2) hhit
      | occupied h0 k0 v0 =>
        have hcond : ¬(h0 = hash ∧ k0 = key) := by
          rintro ⟨rfl, rfl⟩
          exact hstep.2 ⟨v0, hslot⟩
        simp only [insert_loop, hslot]
        rw [if_neg hcond]
        exact ih (i + 1) t _ hlt (by omega)
          (fun j hj1 hj2 => hpre j (by omega) hj2) hhit

theorem insert_loop_empty_ft (hash : Nat) (key : K) (value : V)
    (m : FlatHashMap K V) :
    ∀ fuel i t p, i ≤ t → t < i + fuel →
      (∀ j, i ≤ j → j < t →
        stepSlot m.table m.capacity hash j ≠ .empty ∧
          ¬HitAt m.table m.capacity hash key j) →
      stepSlot m.table m.capacity hash t = .empty →
      insert_loop hash key value i fuel (some p) m =
        some ({ m with
                  table := m.table.set p (.occupied hash key value)
                  size := m.size + 1
                  tombstone_count := m.tombstone_count - 1 },
              value, true) := by
  intro fuel
  induction fuel with
  | zero => intro i t p h1 h2; omega
  | succ fuel ih =>
    intro i t p h1 h2 hpre hemp
    rcases Nat.eq_or_lt_of_le h1 with rfl | hlt
    · unfold stepSlot stepPos at hemp
      simp [insert_loop, hemp, stepPos]
    · have hstep := hpre i (le_refl _) hlt
      cases hslot : fslotAt m.table (probe m.capacity (hash &&& (m.capacity - 1)) i) with
      | empty => exact absurd hslot hstep.1
      | tombstone =>
        simp only [insert_loop, hslot]
        exact ih (i + 1) t p hlt (by omega)
          (fun j hj1 hj2 => hpre j (by omega) hj2) hemp
      | occupied h0 k0 v0 =>
        have hcond : ¬(h0 = hash ∧ k0 = key) := by
          rintro ⟨rfl, rfl⟩
          exact hstep.2 ⟨v0, hslot⟩
        simp only [insert_loop, hslot]
        rw [if_neg hcond]
        exact ih (i + 1) t p hlt (by omega)
          (fun j hj1 hj2 => hpre j (by omega) hj2) hemp

theorem insert_loop_empty_noft (hash : Nat) (key : K) (value : V)
    (m : FlatHashMap K V) :
    ∀ fuel i t, i ≤ t → t < i + fuel →
      (∀ j, i ≤ j → j < t →
        stepSlot m.table m.capacity hash j ≠ .empty ∧
          stepSlot m.table m.capacity hash j ≠ .tombstone ∧
          ¬HitAt m.table m.capacity hash key j) →
      stepSlot m.table m.capacity hash t = .empty →
      insert_loop hash key value i fuel none m =
        some ({ m with
                  table := m.table.set (stepPos m.capacity hash t)
                    (.occupied hash key value)
                  size := m.size + 1 },
              value, true) := by
  intro fuel
  induction fuel with
  | zero => intro i t h1 h2; omega
  | succ fuel ih =>
    intro i t h1 h2 hpre hemp
    rcases Nat.eq_or_lt_of_le h1 with rfl | hlt
    · unfold stepSlot stepPos at hemp
      simp [insert_loop, hemp, stepPos]
    · have hstep := hpre i (le_refl _) hlt
      cases hslot : fslotAt m.table (probe m.capacity (hash &&& (m.capacity - 1)) i) with
      | empty => exact absurd hslot hstep.1
      | tombstone => exact absurd hslot hstep.2.1
      | occupied h0 k0 v0 =>
        have hcond : ¬(h0 = hash ∧ k0 = key) := by
          rintro ⟨rfl, rfl⟩
          exact hstep.2.2 ⟨v0, hslot⟩
        simp only [insert_loop, hslot]
        rw [if_neg hcond]
        exact ih (i + 1) t hlt (by omega)
          (fun j hj1 hj2 => hpre j (by omega) hj2) hemp

theorem insert_loop_empty_tomb (hash : Nat) (key : K) (value : V)
    (m : FlatHashMap K V) :
    ∀ fuel i j0 t, i ≤ j0 → j0 < t → t < i + fuel →
      (∀ j, i ≤ j → j < j0 →
        stepSlot m.table m.capacity hash j ≠ .empty ∧
          stepSlot m.table m.capacity hash j ≠ .tombstone ∧
          ¬HitAt m.table m.capacity hash key j) →
      stepSlot m.table m.capacity hash j0 = .tombstone →
      (∀ j, j0 < j → j < t →
        stepSlot m.table m.capacity hash j ≠ .empty ∧
          ¬HitAt m.table m.capacity hash key j) →
      stepSlot m.table m.capacity hash t = .empty →
      insert_loop hash key value i fuel none m =
        some ({ m with
                  table := m.table.set (stepPos m.capacity hash j0)
                    (.occupied hash key value)
                  size := m.size + 1
                  tombstone_count := m.tombstone_count - 1 },
              value, true) := by
  intro fuel
  induction fuel with
  | zero => intro i j0 t h1 h2 h3; omega
  | succ fuel ih =>
    intro i j0 t h1 h2 h3 hpre htomb hmid hemp
    rcases Nat.eq_or_lt_of_le h1 with rfl | hlt
    · unfold stepSlot stepPos at htomb
      simp only [insert_loop, htomb]
      exact insert_loop_empty_ft hash key value m fuel (i + 1) t _
        (by omega) (by omega) (fun j hj1 hj2 => hmid j (by omega) hj2) hemp
    · have hstep := hpre i (le_refl _) hlt
      cases hslot : fslotAt m.table (probe m.capacity (hash &&& (m.capacity - 1)) i) with
      | empty => exact absurd hslot hstep.1
      | tombstone => exact absurd hslot hstep.2.1
      | occupied h0 k0 v0 =>
        have hcond : ¬(h0 = hash ∧ k0 = key) := by
          rintro ⟨rfl, rfl⟩
          exact hstep.2.2 ⟨v0, hslot⟩
        simp only [insert_loop, hslot]
        rw [if_neg hcond]
        exact ih (i + 1) j0 t hlt h2 (by omega)
          (fun j hj1 hj2 => hpre j (by omega) hj2) htomb hmid hemp

theorem insert_internal_go_found (hash : Nat) (key : K) (value : V)
    (m : FlatHashMap K V) :
    ∀ fuel i t, i ≤ t → t < i + fuel →
      (∀ j, i ≤ j → j < t →
        stepSlot m.table m.capacity hash j ≠ .empty ∧
          stepSlot m.table m.capacity hash j ≠ .tombstone) →
      stepSlot m.table m.capacity hash t = .empty →
      insert_internal_go hash key value i fuel m =
        some { m with
                 table := m.table.set (stepPos m.capacity hash t)
                   (.occupied hash key value) } := by
  intro fuel
  induction fuel with
  | zero => intro i t h1 h2; omega
  | succ fuel ih =>
    intro i t h1 h2 hpre hemp
    rcases Nat.eq_or_lt_of_le h1 with rfl | hlt
    · unfold stepSlot stepPos at hemp
      simp [insert_internal_go, hemp, stepPos]
    · have hstep := hpre i (le_refl _) hlt
      cases hslot : fslotAt m.table (probe m.capacity (hash &&& (m.capacity - 1)) i) with
      | empty => exact absurd hslot hstep.1
      | tombstone => exact absurd hslot hstep.2
      | occupied h0 k0 v0 =>
        simp only [insert_internal_go, hslot]
        exact ih (i + 1) t hlt (by omega)
          (fun j hj1 hj2 => hpre j (by omega) hj2) hemp

/-! ### The flat backend invariant -/

/-- Invariant of every reachable `FlatHashMap` state. -/
structure Inv (hf : K → Nat) (m : FlatHashMap K V) : Prop where
  len : m.table.length = m.capacity
  pow2 : ∃ j, m.capacity = 2 ^ j
  size_eq : m.size = countOcc m.table
  tomb_eq : m.tombstone_count = countTomb m.table
  load : 4 * m.size ≤ 3 * m.capacity
  tombs : 4 * m.tombstone_count ≤ m.capacity ∨ m.size = 0
  nodup : (occupiedKeys m.table).Nodup
  hashes : ∀ pos h k v, m.table.get? pos = some (.occupied h k v) →
      h = make_hash (hf k)
  chains : ∀ pos h k v, m.table.get? pos = some (.occupied h k v) →
      ChainOK m.table m.capacity h pos

theorem Inv.cap_pos {hf : K → Nat} {m : FlatHashMap K V} (hInv : Inv hf m) :
    0 < m.capacity := by
  obtain ⟨j, hj⟩ := hInv.pow2
  rw [hj]
  exact Nat.pos_pow_of_pos j (by norm_num)

theorem find_eq_none_iff {hf : K → Nat} {m : FlatHashMap K V} {key : K} :
    find hf m key = none ↔
      find_slot m key (make_hash (hf key)) = m.capacity := by
  constructor
  · intro hnone
    by_contra hne
    have hne0 : find_slot m key (make_hash (hf key)) ≠ m.capacity := hne
    unfold find_slot at hne
    obtain ⟨t, _, _, ht3, v0, ht4⟩ := find_slot_go_sound m.capacity 0 hne
    have hfound : find_slot m key (make_hash (hf key)) =
        stepPos m.capacity (make_hash (hf key)) t := ht3
    unfold stepSlot at ht4
    simp only [find, hfound] at hnone
    rw [if_neg (by rw [← hfound]; exact hne0)] at hnone
    simp only [ht4] at hnone
    exact absurd hnone (by simp)
  · intro hcap
    simp only [find]
    rw [if_pos hcap]

theorem contains_eq_false_iff {hf : K → Nat} {m : FlatHashMap K V} {key : K} :
    contains hf m key = false ↔
      find_slot m key (make_hash (hf key)) = m.capacity := by
  rw [← find_eq_none_iff]
  unfold contains
  cases find hf m key <;> simp

theorem find_eq_some_iff {hf : K → Nat} {m : FlatHashMap K V}
    (hInv : Inv hf m) {key : K} {v : V} :
    find hf m key = some v ↔
      ∃ pos h, m.table.get? pos = some (.occupied h key v) := by
  constructor
  · intro hsome
    have hne0 : find_slot m key (make_hash (hf key)) ≠ m.capacity := by
      intro hcap
      rw [find_eq_none_iff.mpr hcap] at hsome
      exact absurd hsome (by simp)
    have hne : find_slot_go m.table m.capacity
        (make_hash (hf key) &&& (m.capacity - 1)) (make_hash (hf key)) key 0
        m.capacity ≠ m.capacity := hne0
    obtain ⟨t, _, _, ht3, v0, ht4⟩ := find_slot_go_sound m.capacity 0 hne
    have hfound : find_slot m key (make_hash (hf key)) =
        stepPos m.capacity (make_hash (hf key)) t := ht3
    unfold stepSlot at ht4
    simp only [find, hfound] at hsome
    rw [if_neg (by rw [← hfound]; exact hne0)] at hsome
    simp only [ht4] at hsome
    simp only [Option.some_inj] at hsome
    subst hsome
    exact ⟨stepPos m.capacity (make_hash (hf key)) t, make_hash (hf key),
      get?_of_fslotAt_occupied ht4⟩
  · rintro ⟨q, h, hq⟩
    obtain ⟨j, hj⟩ := hInv.pow2
    have hhash : h = make_hash (hf key) := hInv.hashes q h key v hq
    subst hhash
    obtain ⟨t, htcap, hq_eq, hchain⟩ := hInv.chains q _ key v hq
    have hfs : fslotAt m.table q = .occupied (make_hash (hf key)) key v :=
      fslotAt_eq_of_get? hq
    have hstop := @find_slot_go_stop K V _ m.table m.capacity
      (make_hash (hf key)) key m.capacity 0 t (by omega)
      (by omega) ?_
    · have hfound : find_slot m key (make_hash (hf key)) =
          stepPos m.capacity (make_hash (hf key)) t := by
        unfold find_slot
        refine hstop.1 ⟨v, ?_⟩
        unfold stepSlot stepPos
        rw [← hq_eq]
        exact hfs
      have hlt : stepPos m.capacity (make_hash (hf key)) t < m.capacity :=
        probe_lt j hj _ _
      simp only [find, hfound]
      rw [if_neg (by omega)]
      have hfs2 : fslotAt m.table (stepPos m.capacity (make_hash (hf key)) t) =
          .occupied (make_hash (hf key)) key v := by
        unfold stepPos
        rw [← hq_eq]
        exact hfs
      simp only [hfs2]
    · intro j2 _ hj2
      refine ⟨hchain j2 hj2, ?_⟩
      rintro ⟨v2, hv2⟩
      have hq2 := get?_of_fslotAt_occupied hv2
      have heq := nodup_key_inj hInv.nodup hq2 hq
      rw [hq_eq] at heq
      have : j2 = t := probe_inj j hj _ (by omega) htcap heq
      omega

theorem contains_iff_mem {hf : K → Nat} {m : FlatHashMap K V}
    (hInv : Inv hf m) {key : K} :
    contains hf m key = true ↔ key ∈ occupiedKeys m.table := by
  unfold contains
  rw [Option.isSome_iff_exists]
  constructor
  · rintro ⟨v, hv⟩
    obtain ⟨pos, h, hq⟩ := (find_eq_some_iff hInv).mp hv
    exact mem_occupiedKeys.mpr ⟨pos, h, v, hq⟩
  · intro hmem
    obtain ⟨pos, h, v, hq⟩ := mem_occupiedKeys.mp hmem
    exact ⟨v, (find_eq_some_iff hInv).mpr ⟨pos, h, hq⟩⟩

/-- If the probe for `key` reaches an empty slot without a hit, `key` is
nowhere in the table. -/
theorem key_not_mem_of_empty_stop {hf : K → Nat} {m : FlatHashMap K V}
    (hInv : Inv hf m) {key : K} {t : Nat}
    (hemp : stepSlot m.table m.capacity (make_hash (hf key)) t = .empty)
    (hpre : ∀ j, j < t → ¬HitAt m.table m.capacity (make_hash (hf key)) key j) :
    key ∉ occupiedKeys m.table := by
  obtain ⟨j, hj⟩ := hInv.pow2
  intro hmem
  obtain ⟨q, h, v, hq⟩ := mem_occupiedKeys.mp hmem
  have hhash : h = make_hash (hf key) := hInv.hashes q h key v hq
  subst hhash
  obtain ⟨tq, htqcap, hq_eq, hchain⟩ := hInv.chains q _ key v hq
  have hfs : fslotAt m.table q = .occupied (make_hash (hf key)) key v :=
    fslotAt_eq_of_get? hq
  rcases Nat.lt_trichotomy tq t with hlt | rfl | hgt
  · refine hpre tq hlt ⟨v, ?_⟩
    unfold stepSlot stepPos
    rw [← hq_eq]
    exact hfs
  · unfold stepSlot stepPos at hemp
    rw [← hq_eq, hfs] at hemp
    exact absurd hemp (by simp)
  · have := hchain t hgt
    unfold stepSlot stepPos at hemp
    exact this hemp

/-- A strictly under-full power-of-two table has an empty slot on every
probe sequence. -/
theorem exists_empty_step {m : FlatHashMap K V} (j : Nat)
    (hj : m.capacity = 2 ^ j) (hlen : m.table.length = m.capacity)
    (hcount : countOcc m.table + countTomb m.table < m.capacity)
    (hash : Nat) :
    ∃ t, t < m.capacity ∧
      stepSlot m.table m.capacity hash t = .empty := by
  have hparts := count_partition m.table
  have hpos : 0 < countEmptySlots m.table := by omega
  have hexmem : ∃ s ∈ m.table, isEmptyB s = true := List.countP_pos.mp hpos
  obtain ⟨s, hmem, hs⟩ := hexmem
  have hsempty : s = FSlot.empty := by
    cases s <;> simp [isEmptyB] at hs ⊢
  subst hsempty
  obtain ⟨pos, hpos_get⟩ := List.mem_iff_get?.mp hmem
  have hposlt : pos < m.capacity := by
    rcases List.get?_eq_some.mp hpos_get with ⟨hlt, _⟩
    omega
  obtain ⟨t, htcap, ht⟩ := probe_surj j hj (hash &&& (m.capacity - 1)) hposlt
  refine ⟨t, htcap, ?_⟩
  unfold stepSlot stepPos
  rw [ht]
  exact fslotAt_eq_of_get? hpos_get

/-! ### Rehash correctness (flat backend) -/

theorem get?_of_fslotAt_ne_empty {tbl : List (FSlot K V)} {p : Nat}
    (h : fslotAt tbl p ≠ .empty) : tbl.get? p = some (fslotAt tbl p) := by
  unfold fslotAt at h ⊢
  rw [List.getD_eq_get?] at h ⊢
  cases hget : tbl.get? p with
  | none =>
    rw [hget] at h
    exact absurd rfl h
  | some s => rfl

theorem no_tomb_slot {tbl : List (FSlot K V)} (h0 : countTomb tbl = 0)
    {p : Nat} : fslotAt tbl p ≠ .tombstone := by
  intro htomb
  have hne : fslotAt tbl p ≠ .empty := by
    rw [htomb]
    simp
  have hget := get?_of_fslotAt_ne_empty hne
  rw [htomb] at hget
  have hmem : FSlot.tombstone ∈ tbl := List.get?_mem hget
  have hposi : 0 < countTomb tbl :=
    List.countP_pos.mpr ⟨_, hmem, rfl⟩
  omega

theorem get?_set_self {tbl : List (FSlot K V)} {p : Nat}
    (hp : p < tbl.length) (x : FSlot K V) : (tbl.set p x).get? p = some x := by
  rw [List.get?_eq_getElem?]
  exact List.getElem?_set_eq hp

theorem get?_set_diff {tbl : List (FSlot K V)} {p q : Nat} (h : p ≠ q)
    (x : FSlot K V) : (tbl.set p x).get? q = tbl.get? q := by
  rw [List.get?_eq_getElem?, List.get?_eq_getElem?]
  exact List.getElem?_set_ne h

theorem occupiedKeys_replicate (n : Nat) :
    occupiedKeys (List.replicate n (FSlot.empty : FSlot K V)) = [] := by
  induction n with
  | zero => rfl
  | succ n ih =>
    rw [List.replicate_succ, occupiedKeys_cons, ih]
    rfl

theorem occEntries_replicate (n : Nat) :
    occEntries (List.replicate n (FSlot.empty : FSlot K V)) = [] := by
  induction n with
  | zero => rfl
  | succ n ih =>
    rw [List.replicate_succ, occEntries_cons, ih]
    rfl

theorem countOcc_replicate (n : Nat) :
    countOcc (List.replicate n (FSlot.empty : FSlot K V)) = 0 := by
  rw [← length_occupiedKeys, occupiedKeys_replicate]
  rfl

theorem countTomb_replicate (n : Nat) :
    countTomb (List.replicate n (FSlot.empty : FSlot K V)) = 0 := by
  induction n with
  | zero => rfl
  | succ n ih =>
    rw [List.replicate_succ, countTomb_cons, ih]
    rfl

theorem get?_replicate_not_occ {n pos h : Nat} {k : K} {v : V}
    (hget : (List.replicate n (FSlot.empty : FSlot K V)).get? pos =
      some (.occupied h k v)) : False := by
  have hmem := List.get?_mem hget
  have := List.eq_of_mem_replicate hmem
  simp at this

/-- Invariant of a tombstone-free table as built during `rehash`. -/
structure MidInv (hf : K → Nat) (m : FlatHashMap K V) : Prop where
  len : m.table.length = m.capacity
  pow2 : ∃ j, m.capacity = 2 ^ j
  no_tomb : countTomb m.table = 0
  nodup : (occupiedKeys m.table).Nodup
  hashes : ∀ pos h k v, m.table.get? pos = some (.occupied h k v) →
      h = make_hash (hf k)
  chains : ∀ pos h k v, m.table.get? pos = some (.occupied h k v) →
      ChainOK m.table m.capacity h pos

theorem insert_internal_spec {hf : K → Nat} {m : FlatHashMap K V}
    (hMid : MidInv hf m) (hcount : countOcc m.table < m.capacity)
    (h : Nat) (k : K) (v : V) (hh : h = make_hash (hf k))
    (hknot : k ∉ occupiedKeys m.table) :
    ∃ m2, insert_internal m h k v = some m2 ∧
      m2.capacity = m.capacity ∧ m2.size = m.size ∧
      m2.tombstone_count = m.tombstone_count ∧
      MidInv hf m2 ∧
      countOcc m2.table = countOcc m.table + 1 ∧
      (∀ k2, k2 ∈ occupiedKeys m2.table ↔
        k2 ∈ occupiedKeys m.table ∨ k2 = k) ∧
      (∀ e, e ∈ occEntries m2.table ↔
        e ∈ occEntries m.table ∨ e = (h, k, v)) := by
  obtain ⟨j, hj⟩ := hMid.pow2
  have hcnt2 : countOcc m.table + countTomb m.table < m.capacity := by
    have := hMid.no_tomb
    omega
  obtain ⟨te, hte, hempte⟩ := exists_empty_step j hj hMid.len hcnt2 h
  haveI : DecidablePred fun t => stepSlot m.table m.capacity h t = FSlot.empty :=
    fun _ => Classical.dec _
  have hex : ∃ t, stepSlot m.table m.capacity h t = FSlot.empty := ⟨te, hempte⟩
  have ht0emp : stepSlot m.table m.capacity h (Nat.find hex) = FSlot.empty :=
    Nat.find_spec hex
  have ht0min : ∀ j2, j2 < Nat.find hex →
      stepSlot m.table m.capacity h j2 ≠ FSlot.empty :=
    fun j2 hj2 => Nat.find_min hex hj2
  have ht0cap : Nat.find hex < m.capacity := by
    by_contra hge
    exact (ht0min te (by omega)) hempte
  have hplt : stepPos m.capacity h (Nat.find hex) < m.capacity :=
    probe_lt j hj _ _
  have hplen : stepPos m.capacity h (Nat.find hex) < m.table.length := by
    rw [hMid.len]
    exact hplt
  have hpre : ∀ j2, 0 ≤ j2 → j2 < Nat.find hex →
      stepSlot m.table m.capacity h j2 ≠ .empty ∧
        stepSlot m.table m.capacity h j2 ≠ .tombstone :=
    fun j2 _ hj2 => ⟨ht0min j2 hj2, no_tomb_slot hMid.no_tomb⟩
  have hres := insert_internal_go_found h k v m m.capacity 0 (Nat.find hex)
    (by omega) (by omega) hpre ht0emp
  have hfsp : fslotAt m.table (stepPos m.capacity h (Nat.find hex)) =
      FSlot.empty := ht0emp
  obtain ⟨A, B, hAB1, hAB2⟩ :=
    occupiedKeys_set m.table (stepPos m.capacity h (Nat.find hex))
      (.occupied h k v) hplen
  rw [hfsp] at hAB1
  simp only [keyList] at hAB1 hAB2
  rw [List.append_nil] at hAB1
  obtain ⟨A2, B2, hEB1, hEB2⟩ :=
    occEntries_set m.table (stepPos m.capacity h (Nat.find hex))
      (.occupied h k v) hplen
  rw [hfsp] at hEB1
  simp only [entryList] at hEB1 hEB2
  rw [List.append_nil] at hEB1
  refine ⟨_, hres, rfl, rfl, rfl, ?_, ?_, ?_, ?_⟩
  · constructor
    · simpa using hMid.len
    · exact ⟨j, hj⟩
    · rw [countTomb_set _ _ _ hplen, hfsp]
      simp [isTombB, hMid.no_tomb]
    · rw [hAB2, List.append_assoc, List.singleton_append, List.nodup_middle]
      refine List.nodup_cons.mpr ⟨?_, ?_⟩
      · rw [← hAB1]
        exact hknot
      · rw [← hAB1]
        exact hMid.nodup
    · intro pos2 h2 k2 v2 hget2
      by_cases hpq : pos2 = stepPos m.capacity h (Nat.find hex)
      · subst hpq
        rw [get?_set_self hplen] at hget2
        simp only [Option.some_inj, FSlot.occupied.injEq] at hget2
        obtain ⟨rfl, rfl, rfl⟩ := hget2
        exact hh
      · rw [get?_set_diff (fun hx => hpq hx.symm)] at hget2
        exact hMid.hashes pos2 h2 k2 v2 hget2
    · intro pos2 h2 k2 v2 hget2
      have hne_mono : ∀ q, fslotAt m.table q ≠ .empty →
          fslotAt (m.table.set (stepPos m.capacity h (Nat.find hex))
            (.occupied h k v)) q ≠ .empty := by
        intro q hq
        by_cases hqq : q = stepPos m.capacity h (Nat.find hex)
        · subst hqq
          rw [fslotAt_set_self hplen]
          simp
        · rw [fslotAt_set_ne (fun hx => hqq hx.symm)]
          exact hq
      by_cases hpq : pos2 = stepPos m.capacity h (Nat.find hex)
      · subst hpq
        rw [get?_set_self hplen] at hget2
        simp only [Option.some_inj, FSlot.occupied.injEq] at hget2
        obtain ⟨rfl, rfl, rfl⟩ := hget2
        refine ⟨Nat.find hex, ht0cap, rfl, ?_⟩
        intro j2 hj2
        have hne : probe m.capacity (h &&& (m.capacity - 1)) j2 ≠
            stepPos m.capacity h (Nat.find hex) := by
          intro hx
          have := probe_inj j hj (h &&& (m.capacity - 1)) (by omega) ht0cap hx
          omega
        rw [fslotAt_set_ne (fun hx => hne hx.symm)]
        exact ht0min j2 hj2
      · rw [get?_set_diff (fun hx => hpq hx.symm)] at hget2
        exact ChainOK.mono hne_mono (hMid.chains pos2 h2 k2 v2 hget2)
  · rw [countOcc_set _ _ _ hplen, hfsp]
    simp [isOccB]
  · intro k2
    rw [hAB2, hAB1]
    simp only [List.mem_append, List.mem_singleton]
    tauto
  · intro e
    rw [hEB2, hEB1]
    simp only [List.mem_append, List.mem_singleton]
    tauto

theorem rehash_fold_spec (hf : K → Nat) :
    ∀ (olds : List (FSlot K V)) (acc : FlatHashMap K V),
      MidInv hf acc →
      (∀ e, e ∈ occEntries olds → e.1 = make_hash (hf e.2.1)) →
      (occupiedKeys olds).Nodup →
      (∀ k, k ∈ occupiedKeys olds → k ∉ occupiedKeys acc.table) →
      countOcc acc.table + countOcc olds < acc.capacity →
      ∃ r, olds.foldl rehash_step (some acc) = some r ∧
        r.capacity = acc.capacity ∧ r.size = acc.size ∧
        r.tombstone_count = acc.tombstone_count ∧
        MidInv hf r ∧
        countOcc r.table = countOcc acc.table + countOcc olds ∧
        (∀ e, e ∈ occEntries r.table ↔
          e ∈ occEntries acc.table ∨ e ∈ occEntries olds) := by
  intro olds
  induction olds with
  | nil =>
    intro acc hMid _ _ _ _
    refine ⟨acc, rfl, rfl, rfl, rfl, hMid, ?_, ?_⟩
    · simp [countOcc]
    · intro e
      simp [occEntries]
  | cons s rest ih =>
    intro acc hMid hhashes hnodup hdisj hcount
    cases s with
    | empty =>
      have hstep : List.foldl rehash_step (some acc) (FSlot.empty :: rest) =
          List.foldl rehash_step (some acc) rest := rfl
      rw [hstep]
      have hrec := ih acc hMid
        (fun e he => hhashes e (by rw [occEntries_cons]; simpa [entryList]))
        (by rwa [occupiedKeys_cons] at hnodup)
        (fun k hk => hdisj k (by rw [occupiedKeys_cons]; simpa [keyList]))
        (by rw [countOcc_cons] at hcount; simp [keyList] at hcount; omega)
      obtain ⟨r, h1, h2, h3, h4, h5, h6, h7⟩ := hrec
      refine ⟨r, h1, h2, h3, h4, h5, ?_, ?_⟩
      · rw [h6, countOcc_cons]
        simp [keyList]
      · intro e
        rw [h7 e, occEntries_cons]
        simp [entryList]
    | tombstone =>
      have hstep : List.foldl rehash_step (some acc) (FSlot.tombstone :: rest) =
          List.foldl rehash_step (some acc) rest := rfl
      rw [hstep]
      have hrec := ih acc hMid
        (fun e he => hhashes e (by rw [occEntries_cons]; simpa [entryList]))
        (by rwa [occupiedKeys_cons] at hnodup)
        (fun k hk => hdisj k (by rw [occupiedKeys_cons]; simpa [keyList]))
        (by rw [countOcc_cons] at hcount; simp [keyList] at hcount; omega)
      obtain ⟨r, h1, h2, h3, h4, h5, h6, h7⟩ := hrec
      refine ⟨r, h1, h2, h3, h4, h5, ?_, ?_⟩
      · rw [h6, countOcc_cons]
        simp [keyList]
      · intro e
        rw [h7 e, occEntries_cons]
        simp [entryList]
    | occupied h k v =>
      have hkmem : k ∈ occupiedKeys (FSlot.occupied h k v :: rest) := by
        rw [occupiedKeys_cons]
        simp [keyList]
      have hcnt_cons : countOcc (FSlot.occupied h k v :: rest) =
          1 + countOcc rest := by
        rw [countOcc_cons]
        rfl
      have hspec := insert_internal_spec hMid
        (by rw [hcnt_cons] at hcount; omega) h k v
        (hhashes (h, k, v) (by rw [occEntries_cons]; simp [entryList]))
        (hdisj k hkmem)
      obtain ⟨m2, hm2, hc2, hs2, ht2, hMid2, hcnt2, hkeys2, hent2⟩ := hspec
      have hstep : List.foldl rehash_step (some acc)
          (FSlot.occupied h k v :: rest) =
          List.foldl rehash_step (insert_internal acc h k v) rest := rfl
      rw [hstep, hm2]
      rw [occupiedKeys_cons] at hnodup hdisj
      simp only [keyList, List.singleton_append, List.nodup_cons] at hnodup
      have hrec := ih m2 hMid2
        (fun e he => hhashes e (by rw [occEntries_cons]; simp [entryList]; tauto))
        hnodup.2
        (fun k2 hk2 => by
          rw [hkeys2 k2]
          push_neg
          constructor
          · exact hdisj k2 (by simp [keyList]; tauto)
          · intro hk2k
            subst hk2k
            exact absurd hk2 hnodup.1)
        (by rw [hc2, hcnt2]; rw [hcnt_cons] at hcount; omega)
      obtain ⟨r, h1, h2, h3, h4, h5, h6, h7⟩ := hrec
      refine ⟨r, h1, by rw [h2, hc2], by rw [h3, hs2], by rw [h4, ht2], h5,
        ?_, ?_⟩
      · rw [h6, hcnt2, hcnt_cons]
        omega
      · intro e
        rw [h7 e, hent2 e, occEntries_cons]
        simp only [entryList, List.singleton_append, List.mem_cons]
        tauto

theorem rehash_spec {hf : K → Nat} {m : FlatHashMap K V} {C : Nat} (j : Nat)
    (hj : C = 2 ^ j)
    (hhashes : ∀ e, e ∈ occEntries m.table → e.1 = make_hash (hf e.2.1))
    (hnodup : (occupiedKeys m.table).Nodup)
    (hcount : countOcc m.table < C) :
    ∃ r, rehash m C = some r ∧ r.capacity = C ∧ r.size = m.size ∧
      r.tombstone_count = 0 ∧ MidInv hf r ∧
      countOcc r.table = countOcc m.table ∧
      (∀ e, e ∈ occEntries r.table ↔ e ∈ occEntries m.table) := by
  have hMidFresh : MidInv hf
      ({ table := List.replicate C .empty, size := m.size, capacity := C,
         tombstone_count := 0 } : FlatHashMap K V) := by
    constructor
    · simp
    · exact ⟨j, hj⟩
    · exact countTomb_replicate C
    · rw [occupiedKeys_replicate]
      exact List.nodup_nil
    · intro pos h2 k2 v2 hget2
      exact absurd hget2 (fun hx => get?_replicate_not_occ hx)
    · intro pos h2 k2 v2 hget2
      exact absurd hget2 (fun hx => get?_replicate_not_occ hx)
  have hfold := rehash_fold_spec hf m.table _ hMidFresh hhashes hnodup
    (fun k hk => by
      simp only [occupiedKeys_replicate]
      exact List.not_mem_nil k)
    (by
      simp only [countOcc_replicate]
      simpa using hcount)
  obtain ⟨r, h1, h2, h3, h4, h5, h6, h7⟩ := hfold
  refine ⟨r, h1, h2, h3, h4, h5, ?_, ?_⟩
  · rw [h6, countOcc_replicate]
    omega
  · intro e
    rw [h7 e, occEntries_replicate]
    simp

/-! ### Glue lemmas for the operation specifications -/

theorem option_eq_of_some_iff {α : Type} {a b : Option α}
    (h : ∀ v, a = some v ↔ b = some v) : a = b := by
  cases a with
  | none =>
    cases b with
    | none => rfl
    | some v => exact ((h v).mpr rfl)
  | some v => exact ((h v).mp rfl).symm

theorem tomb_slot_pos {tbl : List (FSlot K V)} {p : Nat}
    (h : fslotAt tbl p = .tombstone) : 1 ≤ countTomb tbl := by
  have hne : fslotAt tbl p ≠ .empty := by
    rw [h]
    simp
  have hget := get?_of_fslotAt_ne_empty hne
  rw [h] at hget
  exact List.countP_pos.mpr ⟨_, List.get?_mem hget, rfl⟩

theorem occ_slot_pos {tbl : List (FSlot K V)} {p h0 : Nat} {k : K} {v : V}
    (h : tbl.get? p = some (.occupied h0 k v)) : 1 ≤ countOcc tbl :=
  List.countP_pos.mpr ⟨_, List.get?_mem h, rfl⟩

theorem Inv.hashes_entries {hf : K → Nat} {m : FlatHashMap K V}
    (hInv : Inv hf m) :
    ∀ e, e ∈ occEntries m.table → e.1 = make_hash (hf e.2.1) := by
  rintro ⟨h, k, v⟩ he
  obtain ⟨pos, hpos⟩ := mem_occEntries.mp he
  exact hInv.hashes pos h k v hpos

theorem Inv_of_MidInv {hf : K → Nat} {r : FlatHashMap K V} (hMid : MidInv hf r)
    (hsize : r.size = countOcc r.table) (hts : r.tombstone_count = 0)
    (hload : 4 * r.size ≤ 3 * r.capacity) : Inv hf r := by
  refine ⟨hMid.len, hMid.pow2, hsize, ?_, hload, ?_, hMid.nodup, hMid.hashes,
    hMid.chains⟩
  · rw [hts, hMid.no_tomb]
  · left
    omega

theorem find_congr_of_entries {hf : K → Nat} {m r : FlatHashMap K V}
    (hm : Inv hf m) (hr : Inv hf r)
    (hent : ∀ e, e ∈ occEntries r.table ↔ e ∈ occEntries m.table) (key : K) :
    find hf r key = find hf m key := by
  apply option_eq_of_some_iff
  intro v
  rw [find_eq_some_iff hr, find_eq_some_iff hm]
  constructor
  · rintro ⟨pos, h, hpos⟩
    have hmem : (h, key, v) ∈ occEntries m.table :=
      (hent _).mp (mem_occEntries.mpr ⟨pos, hpos⟩)
    obtain ⟨pos2, hpos2⟩ := mem_occEntries.mp hmem
    exact ⟨pos2, h, hpos2⟩
  · rintro ⟨pos, h, hpos⟩
    have hmem : (h, key, v) ∈ occEntries r.table :=
      (hent _).mpr (mem_occEntries.mpr ⟨pos, hpos⟩)
    obtain ⟨pos2, hpos2⟩ := mem_occEntries.mp hmem
    exact ⟨pos2, h, hpos2⟩

/-- `rehash` from an invariant state: success, invariant restored, contents
preserved. -/
theorem rehash_Inv {hf : K → Nat} {m : FlatHashMap K V} (hInv : Inv hf m)
    {C : Nat} (j : Nat) (hj : C = 2 ^ j) (hcount : countOcc m.table < C)
    (hload : 4 * m.size ≤ 3 * C) :
    ∃ r, rehash m C = some r ∧ Inv hf r ∧ r.capacity = C ∧ r.size = m.size ∧
      r.tombstone_count = 0 ∧ countTomb r.table = 0 ∧
      countOcc r.table = countOcc m.table ∧
      (∀ key, find hf r key = find hf m key) ∧
      (∀ key, contains hf r key = contains hf m key) := by
  obtain ⟨r, h1, h2, h3, h4, hMid, h6, h7⟩ :=
    rehash_spec j hj hInv.hashes_entries hInv.nodup hcount
  have hrInv : Inv hf r := Inv_of_MidInv hMid
    (by rw [h3, hInv.size_eq, ← h6]) h4 (by rw [h3, h2]; exact hload)
  have hfind : ∀ key, find hf r key = find hf m key :=
    fun key => find_congr_of_entries hInv hrInv h7 key
  exact ⟨r, h1, hrInv, h2, h3, h4, hMid.no_tomb, h6, hfind,
    fun key => by unfold contains; rw [hfind key]⟩

/-- `find` agrees on all keys other than `key` after a single-slot write
that only involves `key`. -/
theorem find_pres_set {hf : K → Nat} {m1 m2 : FlatHashMap K V}
    (h1 : Inv hf m1) (h2 : Inv hf m2) {p : Nat} {x : FSlot K V} {key : K}
    (hp : p < m1.table.length) (htbl : m2.table = m1.table.set p x)
    (hxnew : ∀ h k2 v, x = .occupied h k2 v → k2 = key)
    (holdnew : ∀ h k2 v, m1.table.get? p = some (.occupied h k2 v) →
      k2 = key) :
    ∀ k2, k2 ≠ key → find hf m2 k2 = find hf m1 k2 := by
  intro k2 hk2
  apply option_eq_of_some_iff
  intro v
  rw [find_eq_some_iff h2, find_eq_some_iff h1]
  constructor
  · rintro ⟨pos, h, hpos⟩
    rw [htbl] at hpos
    by_cases hpp : pos = p
    · subst hpp
      rw [get?_set_self hp] at hpos
      simp only [Option.some_inj] at hpos
      exact absurd (hxnew h k2 v hpos) hk2
    · rw [get?_set_diff (fun hx => hpp hx.symm)] at hpos
      exact ⟨pos, h, hpos⟩
  · rintro ⟨pos, h, hpos⟩
    by_cases hpp : pos = p
    · subst hpp
      exact absurd (holdnew h k2 v hpos) hk2
    · refine ⟨pos, h, ?_⟩
      rw [htbl, get?_set_diff (fun hx => hpp hx.symm)]
      exact hpos

/-- Invariant after inserting a fresh key into an empty or tombstone slot
reached at probe step `tp`. -/
theorem Inv_insert_new {hf : K → Nat} {m1 : FlatHashMap K V} (hInv1 : Inv hf m1)
    (key : K) (value : V) (j : Nat) (hj : m1.capacity = 2 ^ j)
    (hload1 : 4 * (m1.size + 1) ≤ 3 * m1.capacity)
    (hts1 : 4 * m1.tombstone_count ≤ m1.capacity)
    (tp : Nat) (htp : tp < m1.capacity)
    (hchain_pre : ∀ j2, j2 < tp →
      stepSlot m1.table m1.capacity (make_hash (hf key)) j2 ≠ .empty)
    (hnotmem : key ∉ occupiedKeys m1.table)
    (ts2 : Nat)
    (hcase :
      (fslotAt m1.table (stepPos m1.capacity (make_hash (hf key)) tp) =
          .empty ∧ ts2 = m1.tombstone_count) ∨
        (fslotAt m1.table (stepPos m1.capacity (make_hash (hf key)) tp) =
          .tombstone ∧ ts2 = m1.tombstone_count - 1)) :
    Inv hf
      { m1 with
          table := m1.table.set (stepPos m1.capacity (make_hash (hf key)) tp)
            (.occupied (make_hash (hf key)) key value)
          size := m1.size + 1
          tombstone_count := ts2 } := by
  have hplen : stepPos m1.capacity (make_hash (hf key)) tp <
      m1.table.length := by
    rw [hInv1.len]
    exact probe_lt j hj _ _
  have hnocc : isOccB
      (fslotAt m1.table (stepPos m1.capacity (make_hash (hf key)) tp)) =
      false := by
    rcases hcase with ⟨he, _⟩ | ⟨ht, _⟩
    · rw [he]; rfl
    · rw [ht]; rfl
  have hkeyList : keyList
      (fslotAt m1.table (stepPos m1.capacity (make_hash (hf key)) tp)) =
      ([] : List K) := by
    rcases hcase with ⟨he, _⟩ | ⟨ht, _⟩
    · rw [he]; rfl
    · rw [ht]; rfl
  obtain ⟨A, B, hAB1, hAB2⟩ := occupiedKeys_set m1.table
    (stepPos m1.capacity (make_hash (hf key)) tp)
    (.occupied (make_hash (hf key)) key value) hplen
  rw [hkeyList] at hAB1
  rw [List.append_nil] at hAB1
  simp only [keyList] at hAB2
  have hne_mono : ∀ q, fslotAt m1.table q ≠ .empty →
      fslotAt (m1.table.set (stepPos m1.capacity (make_hash (hf key)) tp)
        (.occupied (make_hash (hf key)) key value)) q ≠ .empty := by
    intro q hq
    by_cases hqq : q = stepPos m1.capacity (make_hash (hf key)) tp
    · subst hqq
      rw [fslotAt_set_self hplen]
      simp
    · rw [fslotAt_set_ne (fun hx => hqq hx.symm)]
      exact hq
  constructor
  · simpa using hInv1.len
  · exact ⟨j, hj⟩
  · show m1.size + 1 = countOcc (m1.table.set _ _)
    rw [countOcc_set _ _ _ hplen, hnocc]
    norm_num [isOccB]
    have := hInv1.size_eq
    omega
  · show ts2 = countTomb (m1.table.set _ _)
    rw [countTomb_set _ _ _ hplen]
    rcases hcase with ⟨he, hts2⟩ | ⟨ht, hts2⟩
    · rw [he, hts2]
      norm_num [isTombB]
      exact hInv1.tomb_eq
    · rw [ht, hts2]
      norm_num [isTombB]
      have h1 := hInv1.tomb_eq
      have h2 := tomb_slot_pos ht
      omega
  · exact hload1
  · left
    show 4 * ts2 ≤ m1.capacity
    rcases hcase with ⟨_, hts2⟩ | ⟨_, hts2⟩ <;> omega
  · show (occupiedKeys (m1.table.set _ _)).Nodup
    rw [hAB2, List.append_assoc, List.singleton_append, List.nodup_middle]
    refine List.nodup_cons.mpr ⟨?_, ?_⟩
    · rw [← hAB1]
      exact hnotmem
    · rw [← hAB1]
      exact hInv1.nodup
  · intro pos h2 k2 v2 hget2
    simp only at hget2
    by_cases hpp : pos = stepPos m1.capacity (make_hash (hf key)) tp
    · subst hpp
      rw [get?_set_self hplen] at hget2
      simp only [Option.some_inj, FSlot.occupied.injEq] at hget2
      obtain ⟨rfl, rfl, rfl⟩ := hget2
      rfl
    · rw [get?_set_diff (fun hx => hpp hx.symm)] at hget2
      exact hInv1.hashes pos h2 k2 v2 hget2
  · intro pos h2 k2 v2 hget2
    simp only at hget2
    by_cases hpp : pos = stepPos m1.capacity (make_hash (hf key)) tp
    · subst hpp
      rw [get?_set_self hplen] at hget2
      simp only [Option.some_inj, FSlot.occupied.injEq] at hget2
      obtain ⟨rfl, rfl, rfl⟩ := hget2
      refine ⟨tp, htp, rfl, ?_⟩
      intro j2 hj2
      have hne : probe m1.capacity (make_hash (hf key) &&& (m1.capacity - 1))
          j2 ≠ stepPos m1.capacity (make_hash (hf key)) tp := by
        intro hx
        have := probe_inj j hj (make_hash (hf key) &&& (m1.capacity - 1))
          (by omega) htp hx
        omega
      show fslotAt (m1.table.set _ _) _ ≠ FSlot.empty
      rw [fslotAt_set_ne (fun hx => hne hx.symm)]
      exact hchain_pre j2 hj2
    · rw [get?_set_diff (fun hx => hpp hx.symm)] at hget2
      exact ChainOK.mono hne_mono (hInv1.chains pos h2 k2 v2 hget2)

/-- Full postcondition of the insert probing loop from an invariant state
with an empty slot available and the load headroom established by the
pre-check. -/
theorem insert_post {hf : K → Nat} {m1 : FlatHashMap K V} (hInv1 : Inv hf m1)
    (key : K) (value : V)
    (hroom : countOcc m1.table + countTomb m1.table < m1.capacity)
    (hload1 : 4 * (m1.size + 1) ≤ 3 * m1.capacity)
    (hts1 : 4 * m1.tombstone_count ≤ m1.capacity) :
    ∃ m2 ins,
      insert_loop (make_hash (hf key)) key value 0 m1.capacity none m1 =
        some (m2, value, ins) ∧
      Inv hf m2 ∧ ins = !(contains hf m1 key) ∧
      find hf m2 key = some value ∧
      (∀ k2, k2 ≠ key → find hf m2 k2 = find hf m1 k2) ∧
      m2.size = (if contains hf m1 key then m1.size else m1.size + 1) ∧
      m2.capacity = m1.capacity ∧
      m2.tombstone_count ≤ m1.tombstone_count := by
  obtain ⟨j, hj⟩ := hInv1.pow2
  obtain ⟨te, hte, hempte⟩ := exists_empty_step j hj hInv1.len hroom
    (make_hash (hf key))
  haveI : DecidablePred fun t =>
      stepSlot m1.table m1.capacity (make_hash (hf key)) t = FSlot.empty ∨
        HitAt m1.table m1.capacity (make_hash (hf key)) key t :=
    fun _ => Classical.dec _
  have hex : ∃ t,
      stepSlot m1.table m1.capacity (make_hash (hf key)) t = FSlot.empty ∨
        HitAt m1.table m1.capacity (make_hash (hf key)) key t :=
    ⟨te, Or.inl hempte⟩
  have hmin : ∀ j2, j2 < Nat.find hex →
      stepSlot m1.table m1.capacity (make_hash (hf key)) j2 ≠ FSlot.empty ∧
        ¬HitAt m1.table m1.capacity (make_hash (hf key)) key j2 := by
    intro j2 hj2
    have := Nat.find_min hex hj2
    push_neg at this
    exact this
  have htcap : Nat.find hex < m1.capacity := by
    by_contra hge
    exact ((hmin te (by omega)).1) hempte
  rcases Nat.find_spec hex with hempt0 | hhit0
  · -- the probe reaches an empty slot first: a genuine insert
    have hnotmem : key ∉ occupiedKeys m1.table :=
      key_not_mem_of_empty_stop hInv1 hempt0 (fun j2 hj2 => (hmin j2 hj2).2)
    have hcont : contains hf m1 key = false := by
      cases hc : contains hf m1 key
      · rfl
      · exact absurd ((contains_iff_mem hInv1).mp hc) hnotmem
    have holdnew_of_empty : ∀ (tp : Nat),
        fslotAt m1.table (stepPos m1.capacity (make_hash (hf key)) tp) ≠
          FSlot.empty ∨
        fslotAt m1.table (stepPos m1.capacity (make_hash (hf key)) tp) =
          FSlot.empty := fun tp => em _ |>.symm.imp id id
    by_cases htex : ∃ jt, jt < Nat.find hex ∧
        stepSlot m1.table m1.capacity (make_hash (hf key)) jt = FSlot.tombstone
    · -- a tombstone is reused
      haveI : DecidablePred fun jt => jt < Nat.find hex ∧
          stepSlot m1.table m1.capacity (make_hash (hf key)) jt =
            FSlot.tombstone := fun _ => Classical.dec _
      have hjt := Nat.find_spec htex
      have hjtmin : ∀ x, x < Nat.find htex →
          ¬(x < Nat.find hex ∧
            stepSlot m1.table m1.capacity (make_hash (hf key)) x =
              FSlot.tombstone) := fun x hx => Nat.find_min htex hx
      have hres := insert_loop_empty_tomb (make_hash (hf key)) key value m1
        m1.capacity 0 (Nat.find htex) (Nat.find hex) (by omega) hjt.1
        (by omega)
        (fun j2 _ hj2 => ⟨(hmin j2 (by omega)).1,
          fun hx => (hjtmin j2 hj2) ⟨by omega, hx⟩,
          (hmin j2 (by omega)).2⟩)
        hjt.2
        (fun j2 hj2a hj2b => ⟨(hmin j2 hj2b).1, (hmin j2 hj2b).2⟩)
        hempt0
      have hInv2 := Inv_insert_new hInv1 key value j hj hload1 hts1
        (Nat.find htex) (by omega)
        (fun j2 hj2 => (hmin j2 (by omega)).1) hnotmem
        (m1.tombstone_count - 1) (Or.inr ⟨hjt.2, rfl⟩)
      have hplen : stepPos m1.capacity (make_hash (hf key)) (Nat.find htex) <
          m1.table.length := by
        rw [hInv1.len]
        exact probe_lt j hj _ _
      refine ⟨_, true, hres, hInv2, by simp [hcont], ?_, ?_, by simp [hcont],
        rfl, ?_⟩
      · refine (find_eq_some_iff hInv2).mpr
          ⟨stepPos m1.capacity (make_hash (hf key)) (Nat.find htex),
            make_hash (hf key), ?_⟩
        show (m1.table.set _ _).get? _ = _
        rw [get?_set_self hplen]
      · refine find_pres_set hInv1 hInv2 hplen rfl ?_ ?_
        · intro h k2 v hx
          simp only [FSlot.occupied.injEq] at hx
          exact hx.2.1.symm
        · intro h k2 v hgp
          have hocc := fslotAt_eq_of_get? hgp
          have hjt2 : fslotAt m1.table
              (stepPos m1.capacity (make_hash (hf key)) (Nat.find htex)) =
              FSlot.tombstone := hjt.2
          rw [hocc] at hjt2
          exact absurd hjt2 (by simp)
      · show m1.tombstone_count - 1 ≤ m1.tombstone_count
        omega
    · -- no tombstone seen: insert at the empty slot
      push_neg at htex
      have hres := insert_loop_empty_noft (make_hash (hf key)) key value m1
        m1.capacity 0 (Nat.find hex) (by omega) (by omega)
        (fun j2 _ hj2 => ⟨(hmin j2 hj2).1, htex j2 hj2, (hmin j2 hj2).2⟩)
        hempt0
      have hInv2a := Inv_insert_new hInv1 key value j hj hload1 hts1
        (Nat.find hex) htcap (fun j2 hj2 => (hmin j2 hj2).1) hnotmem
        m1.tombstone_count (Or.inl ⟨hempt0, rfl⟩)
      have hInv2 : Inv hf
          { m1 with
              table := m1.table.set
                (stepPos m1.capacity (make_hash (hf key)) (Nat.find hex))
                (.occupied (make_hash (hf key)) key value)
              size := m1.size + 1 } := hInv2a
      have hplen : stepPos m1.capacity (make_hash (hf key)) (Nat.find hex) <
          m1.table.length := by
        rw [hInv1.len]
        exact probe_lt j hj _ _
      refine ⟨_, true, hres, hInv2, by simp [hcont], ?_, ?_, by simp [hcont],
        rfl, le_refl _⟩
      · refine (find_eq_some_iff hInv2).mpr
          ⟨stepPos m1.capacity (make_hash (hf key)) (Nat.find hex),
            make_hash (hf key), ?_⟩
        show (m1.table.set _ _).get? _ = _
        rw [get?_set_self hplen]
      · refine find_pres_set hInv1 hInv2 hplen rfl ?_ ?_
        · intro h k2 v hx
          simp only [FSlot.occupied.injEq] at hx
          exact hx.2.1.symm
        · intro h k2 v hgp
          have hocc := fslotAt_eq_of_get? hgp
          have hemp2 : fslotAt m1.table
              (stepPos m1.capacity (make_hash (hf key)) (Nat.find hex)) =
              FSlot.empty := hempt0
          rw [hocc] at hemp2
          exact absurd hemp2 (by simp)
  · -- the probe hits the key first: an in-place update
    obtain ⟨v0, hv0⟩ := hhit0
    have hres := insert_loop_hit (make_hash (hf key)) key value m1 m1.capacity
      0 (Nat.find hex) none (by omega) (by omega)
      (fun j2 _ hj2 => hmin j2 hj2) ⟨v0, hv0⟩
    have hplen : stepPos m1.capacity (make_hash (hf key)) (Nat.find hex) <
        m1.table.length := by
      rw [hInv1.len]
      exact probe_lt j hj _ _
    have hget : m1.table.get?
        (stepPos m1.capacity (make_hash (hf key)) (Nat.find hex)) =
        some (.occupied (make_hash (hf key)) key v0) :=
      get?_of_fslotAt_occupied hv0
    have hcont : contains hf m1 key = true :=
      (contains_iff_mem hInv1).mpr (mem_occupiedKeys.mpr ⟨_, _, v0, hget⟩)
    have hv0f : fslotAt m1.table
        (stepPos m1.capacity (make_hash (hf key)) (Nat.find hex)) =
        FSlot.occupied (make_hash (hf key)) key v0 := hv0
    obtain ⟨A, B, hAB1, hAB2⟩ := occupiedKeys_set m1.table
      (stepPos m1.capacity (make_hash (hf key)) (Nat.find hex))
      (.occupied (make_hash (hf key)) key value) hplen
    rw [hv0f] at hAB1
    simp only [keyList] at hAB1 hAB2
    have hne_mono : ∀ q, fslotAt m1.table q ≠ .empty →
        fslotAt (m1.table.set
          (stepPos m1.capacity (make_hash (hf key)) (Nat.find hex))
          (.occupied (make_hash (hf key)) key value)) q ≠ .empty := by
      intro q hq
      by_cases hqq : q =
          stepPos m1.capacity (make_hash (hf key)) (Nat.find hex)
      · subst hqq
        rw [fslotAt_set_self hplen]
        simp
      · rw [fslotAt_set_ne (fun hx => hqq hx.symm)]
        exact hq
    have hInv2 : Inv hf
        { m1 with
            table := m1.table.set
              (stepPos m1.capacity (make_hash (hf key)) (Nat.find hex))
              (.occupied (make_hash (hf key)) key value) } := by
      constructor
      · simpa using hInv1.len
      · exact ⟨j, hj⟩
      · show m1.size = countOcc (m1.table.set _ _)
        rw [countOcc_set _ _ _ hplen, hv0f]
        norm_num [isOccB]
        have h1 := hInv1.size_eq
        have h2 := occ_slot_pos hget
        omega
      · show m1.tombstone_count = countTomb (m1.table.set _ _)
        rw [countTomb_set _ _ _ hplen, hv0f]
        norm_num [isTombB]
        exact hInv1.tomb_eq
      · exact hInv1.load
      · exact hInv1.tombs
      · show (occupiedKeys (m1.table.set _ _)).Nodup
        rw [hAB2, ← hAB1]
        exact hInv1.nodup
      · intro pos h2 k2 v2 hget2
        simp only at hget2
        by_cases hpp : pos =
            stepPos m1.capacity (make_hash (hf key)) (Nat.find hex)
        · subst hpp
          rw [get?_set_self hplen] at hget2
          simp only [Option.some_inj, FSlot.occupied.injEq] at hget2
          obtain ⟨rfl, rfl, rfl⟩ := hget2
          rfl
        · rw [get?_set_diff (fun hx => hpp hx.symm)] at hget2
          exact hInv1.hashes pos h2 k2 v2 hget2
      · intro pos h2 k2 v2 hget2
        simp only at hget2
        by_cases hpp : pos =
            stepPos m1.capacity (make_hash (hf key)) (Nat.find hex)
        · subst hpp
          rw [get?_set_self hplen] at hget2
          simp only [Option.some_inj, FSlot.occupied.injEq] at hget2
          obtain ⟨rfl, rfl, rfl⟩ := hget2
          exact ChainOK.mono hne_mono
            (hInv1.chains _ _ key v0 hget)
        · rw [get?_set_diff (fun hx => hpp hx.symm)] at hget2
          exact ChainOK.mono hne_mono (hInv1.chains pos h2 k2 v2 hget2)
    refine ⟨_, false, hres, hInv2, by simp [hcont], ?_, ?_, by simp [hcont],
      rfl, le_refl _⟩
    · refine (find_eq_some_iff hInv2).mpr
        ⟨stepPos m1.capacity (make_hash (hf key)) (Nat.find hex),
          make_hash (hf key), ?_⟩
      show (m1.table.set _ _).get? _ = _
      rw [get?_set_self hplen]
    · refine find_pres_set hInv1 hInv2 hplen rfl ?_ ?_
      · intro h k2 v hx
        simp only [FSlot.occupied.injEq] at hx
        exact hx.2.1.symm
      · intro h k2 v hgp
        rw [hget] at hgp
        simp only [Option.some_inj, FSlot.occupied.injEq] at hgp
        exact hgp.2.1.symm

/-- Master specification of `FlatHashMap::insert` from an invariant state. -/
theorem insert_spec {hf : K → Nat} {m : FlatHashMap K V} (hInv : Inv hf m)
    (key : K) (value : V) :
    ∃ m2 ins, insert hf m key value = some (m2, value, ins) ∧ Inv hf m2 ∧
      ins = !(contains hf m key) ∧
      find hf m2 key = some value ∧
      (∀ k2, k2 ≠ key → find hf m2 k2 = find hf m k2) ∧
      m2.size = (if contains hf m key then m.size else m.size + 1) ∧
      m2.capacity = (if 4 * (m.size + 1) > 3 * m.capacity ∨
          4 * m.tombstone_count > m.capacity then m.capacity * 2
        else m.capacity) ∧
      4 * m2.tombstone_count ≤ m2.capacity ∧
      4 * m2.size ≤ 3 * m2.capacity := by
  obtain ⟨j, hj⟩ := hInv.pow2
  have hcap_pos : 0 < m.capacity := hInv.cap_pos
  by_cases hpc : 4 * (m.size + 1) > 3 * m.capacity ∨
      4 * m.tombstone_count > m.capacity
  · have hcount : countOcc m.table < m.capacity * 2 := by
      have h1 := countOcc_le_length m.table
      have h2 := hInv.len
      omega
    have hload : 4 * m.size ≤ 3 * (m.capacity * 2) := by
      have := hInv.load
      omega
    have hcap2 : m.capacity * 2 = 2 ^ (j + 1) := by
      rw [hj]
      ring
    obtain ⟨m1, hre, hInv1, hc1, hs1, ht1, hctomb1, hco1, hfind1, hcont1⟩ :=
      rehash_Inv hInv (j + 1) hcap2 hcount hload
    have hload1 : 4 * (m1.size + 1) ≤ 3 * m1.capacity := by
      rw [hs1, hc1]
      have h1 := hInv.load
      omega
    have hroom : countOcc m1.table + countTomb m1.table < m1.capacity := by
      rw [hctomb1, hco1, hc1]
      have h1 := countOcc_le_length m.table
      have h2 := hInv.len
      omega
    have hts1 : 4 * m1.tombstone_count ≤ m1.capacity := by
      rw [ht1]
      omega
    obtain ⟨m2, ins, hloop, hInv2, hins, hfk, hfp, hsz, hcp, htsle⟩ :=
      insert_post hInv1 key value hroom hload1 hts1
    have hrun : insert hf m key value =
        insert_loop (make_hash (hf key)) key value 0 m1.capacity none m1 := by
      simp only [insert]
      rw [if_pos hpc, hre]
      rfl
    refine ⟨m2, ins, by rw [hrun]; exact hloop, hInv2, ?_, hfk, ?_, ?_, ?_,
      ?_, ?_⟩
    · rw [hins, hcont1]
    · intro k2 hk2
      rw [hfp k2 hk2, hfind1]
    · rw [hsz, hcont1, hs1]
    · rw [hcp, hc1, if_pos hpc]
    · have hts0 : m2.tombstone_count = 0 := by
        rw [ht1] at htsle
        omega
      rw [hts0]
      omega
    · have hszle : m2.size ≤ m1.size + 1 := by
        rw [hsz]
        split <;> omega
      rw [hcp]
      omega
  · have hpc2 := hpc
    push_neg at hpc2
    have hroom : countOcc m.table + countTomb m.table < m.capacity := by
      have h1 := hInv.size_eq
      have h2 := hInv.tomb_eq
      omega
    have hload1 : 4 * (m.size + 1) ≤ 3 * m.capacity := by omega
    have hts1 : 4 * m.tombstone_count ≤ m.capacity := by omega
    obtain ⟨m2, ins, hloop, hInv2, hins, hfk, hfp, hsz, hcp, htsle⟩ :=
      insert_post hInv key value hroom hload1 hts1
    have hrun : insert hf m key value =
        insert_loop (make_hash (hf key)) key value 0 m.capacity none m := by
      simp only [insert]
      rw [if_neg hpc]
      rfl
    refine ⟨m2, ins, by rw [hrun]; exact hloop, hInv2, hins, hfk, hfp, hsz,
      ?_, ?_, ?_⟩
    · rw [hcp, if_neg hpc]
    · rw [hcp]
      omega
    · have hszle : m2.size ≤ m.size + 1 := by
        rw [hsz]
        split <;> omega
      rw [hcp]
      omega

theorem find_eq_none_of_contains_false {hf : K → Nat} {m : FlatHashMap K V}
    {key : K} (h : contains hf m key = false) : find hf m key = none := by
  unfold contains at h
  cases hfind : find hf m key
  · rfl
  · rw [hfind] at h
    exact absurd h (by simp)

/-- Master specification of `FlatHashMap::erase` from an invariant state. -/
theorem erase_spec {hf : K → Nat} {m : FlatHashMap K V} (hInv : Inv hf m)
    (key : K) :
    ∃ m2 b, erase hf m key = some (m2, b) ∧ Inv hf m2 ∧
      b = contains hf m key ∧
      find hf m2 key = none ∧
      (∀ k2, k2 ≠ key → find hf m2 k2 = find hf m k2) ∧
      m2.size = (if contains hf m key then m.size - 1 else m.size) ∧
      m2.capacity = m.capacity ∧
      (4 * m2.tombstone_count ≤ m2.capacity ∨ m2.size = 0) := by
  obtain ⟨j, hj⟩ := hInv.pow2
  have hcap_pos : 0 < m.capacity := hInv.cap_pos
  by_cases hslot : find_slot m key (make_hash (hf key)) = m.capacity
  · have hrun : erase hf m key = some (m, false) := by
      simp only [erase]
      rw [if_pos hslot]
    have hcont : contains hf m key = false := by
      unfold contains
      rw [find_eq_none_iff.mpr hslot]
      rfl
    exact ⟨m, false, hrun, hInv, by rw [hcont], find_eq_none_iff.mpr hslot,
      fun k2 _ => rfl, by simp [hcont], rfl, hInv.tombs⟩
  · have hne : find_slot_go m.table m.capacity
        (make_hash (hf key) &&& (m.capacity - 1)) (make_hash (hf key)) key 0
        m.capacity ≠ m.capacity := hslot
    obtain ⟨t0, _, ht0b, ht3, v0, ht4⟩ := find_slot_go_sound m.capacity 0 hne
    have hfound : find_slot m key (make_hash (hf key)) =
        stepPos m.capacity (make_hash (hf key)) t0 := ht3
    have hplen : stepPos m.capacity (make_hash (hf key)) t0 <
        m.table.length := by
      rw [hInv.len]
      exact probe_lt j hj _ _
    have hv0f : fslotAt m.table
        (stepPos m.capacity (make_hash (hf key)) t0) =
        FSlot.occupied (make_hash (hf key)) key v0 := ht4
    have hget : m.table.get? (stepPos m.capacity (make_hash (hf key)) t0) =
        some (.occupied (make_hash (hf key)) key v0) :=
      get?_of_fslotAt_occupied hv0f
    have hcont : contains hf m key = true :=
      (contains_iff_mem hInv).mpr (mem_occupiedKeys.mpr ⟨_, _, v0, hget⟩)
    have hne2 : stepPos m.capacity (make_hash (hf key)) t0 ≠ m.capacity := by
      rw [← hfound]
      exact hslot
    -- facts about the tombstoned table
    have hm1get : ∀ pos h2 k2 v2,
        (m.table.set (stepPos m.capacity (make_hash (hf key)) t0)
          FSlot.tombstone).get? pos = some (.occupied h2 k2 v2) →
        m.table.get? pos = some (.occupied h2 k2 v2) ∧
          pos ≠ stepPos m.capacity (make_hash (hf key)) t0 := by
      intro pos h2 k2 v2 hg
      by_cases hpp : pos = stepPos m.capacity (make_hash (hf key)) t0
      · subst hpp
        rw [get?_set_self hplen] at hg
        exact absurd hg (by simp)
      · rw [get?_set_diff (fun hx => hpp hx.symm)] at hg
        exact ⟨hg, hpp⟩
    have hm1get2 : ∀ pos h2 k2 v2, k2 ≠ key →
        m.table.get? pos = some (.occupied h2 k2 v2) →
        (m.table.set (stepPos m.capacity (make_hash (hf key)) t0)
          FSlot.tombstone).get? pos = some (.occupied h2 k2 v2) := by
      intro pos h2 k2 v2 hk2 hg
      have hpp : pos ≠ stepPos m.capacity (make_hash (hf key)) t0 := by
        intro hx
        subst hx
        rw [hget] at hg
        simp only [Option.some_inj, FSlot.occupied.injEq] at hg
        exact hk2 hg.2.1.symm
      rw [get?_set_diff (fun hx => hpp hx.symm)]
      exact hg
    obtain ⟨A, B, hAB1, hAB2⟩ := occupiedKeys_set m.table
      (stepPos m.capacity (make_hash (hf key)) t0) FSlot.tombstone hplen
    rw [hv0f] at hAB1
    simp only [keyList] at hAB1 hAB2
    rw [List.append_nil] at hAB2
    have hndA : (A ++ [key] ++ B).Nodup := by
      rw [← hAB1]
      exact hInv.nodup
    have hnd1 : (occupiedKeys (m.table.set
        (stepPos m.capacity (make_hash (hf key)) t0)
        FSlot.tombstone)).Nodup := by
      rw [hAB2]
      refine List.Nodup.sublist ?_ hndA
      rw [List.append_assoc, List.singleton_append]
      exact List.Sublist.append_left (List.sublist_cons_self key B) A
    have hkeynot1 : key ∉ occupiedKeys (m.table.set
        (stepPos m.capacity (make_hash (hf key)) t0) FSlot.tombstone) := by
      intro hmem
      obtain ⟨pos, h2, v2, hg⟩ := mem_occupiedKeys.mp hmem
      obtain ⟨hg2, hpp⟩ := hm1get pos h2 key v2 hg
      exact hpp (nodup_key_inj hInv.nodup hg2 hget)
    have hhash1 : ∀ pos h2 k2 v2,
        (m.table.set (stepPos m.capacity (make_hash (hf key)) t0)
          FSlot.tombstone).get? pos = some (.occupied h2 k2 v2) →
        h2 = make_hash (hf k2) := by
      intro pos h2 k2 v2 hg
      exact hInv.hashes pos h2 k2 v2 (hm1get pos h2 k2 v2 hg).1
    have hcocc1 : countOcc (m.table.set
        (stepPos m.capacity (make_hash (hf key)) t0) FSlot.tombstone) + 1 =
        countOcc m.table := by
      rw [countOcc_set _ _ _ hplen, hv0f]
      norm_num [isOccB]
      have := occ_slot_pos hget
      omega
    have hctomb1 : countTomb (m.table.set
        (stepPos m.capacity (make_hash (hf key)) t0) FSlot.tombstone) =
        countTomb m.table + 1 := by
      rw [countTomb_set _ _ _ hplen, hv0f]
      norm_num [isTombB]
    by_cases hcomp : 4 * (m.tombstone_count + 1) > m.capacity ∧
        m.size - 1 > 0
    · -- compaction: same-capacity rehash
      have hcountr : countOcc (m.table.set
          (stepPos m.capacity (make_hash (hf key)) t0) FSlot.tombstone) <
          m.capacity := by
        have h1 := countOcc_le_length m.table
        have h2 := hInv.len
        omega
      obtain ⟨r, hr1, hr2, hr3, hr4, hrMid, hr6, hr7⟩ :=
        @rehash_spec K V _ hf
          { m with
            table := m.table.set (stepPos m.capacity (make_hash (hf key)) t0)
              FSlot.tombstone
            tombstone_count := m.tombstone_count + 1
            size := m.size - 1 }
          m.capacity j hj
          (by
            rintro ⟨h2, k2, v2⟩ he
            obtain ⟨pos, hpos⟩ := mem_occEntries.mp he
            exact hhash1 pos h2 k2 v2 hpos)
          hnd1 hcountr
      have hrInv : Inv hf r := Inv_of_MidInv hrMid
        (by
          rw [hr3, hr6]
          show m.size - 1 = countOcc (m.table.set _ _)
          have := hInv.size_eq
          omega)
        hr4
        (by
          rw [hr3, hr2]
          show 4 * (m.size - 1) ≤ 3 * m.capacity
          have := hInv.load
          omega)
      have hrun : erase hf m key = some (r, true) := by
        simp only [erase]
        rw [hfound, if_neg hne2, if_pos hcomp, hr1]
        rfl
      have hfindr_none : find hf r key = none := by
        apply find_eq_none_of_contains_false
        cases hc : contains hf r key
        · rfl
        · exfalso
          have hmem := (contains_iff_mem hrInv).mp hc
          obtain ⟨pos, h2, v2, hg⟩ := mem_occupiedKeys.mp hmem
          have hment : (h2, key, v2) ∈ occEntries r.table :=
            mem_occEntries.mpr ⟨pos, hg⟩
          have hmem1 := (hr7 _).mp hment
          obtain ⟨pos2, hg2⟩ := mem_occEntries.mp hmem1
          obtain ⟨hg3, hpp⟩ := hm1get pos2 h2 key v2 hg2
          exact hpp (nodup_key_inj hInv.nodup hg3 hget)
      have hpres : ∀ k2, k2 ≠ key → find hf r k2 = find hf m k2 := by
        intro k2 hk2
        apply option_eq_of_some_iff
        intro v
        rw [find_eq_some_iff hrInv, find_eq_some_iff hInv]
        constructor
        · rintro ⟨pos, h2, hg⟩
          have hmem1 := (hr7 _).mp (mem_occEntries.mpr ⟨pos, hg⟩)
          obtain ⟨pos2, hg2⟩ := mem_occEntries.mp hmem1
          exact ⟨pos2, h2, (hm1get pos2 h2 k2 v hg2).1⟩
        · rintro ⟨pos, h2, hg⟩
          have hg2 := hm1get2 pos h2 k2 v hk2 hg
          have hmem1 : (h2, k2, v) ∈ occEntries (m.table.set
              (stepPos m.capacity (make_hash (hf key)) t0)
              FSlot.tombstone) := mem_occEntries.mpr ⟨pos, hg2⟩
          obtain ⟨pos2, hg3⟩ := mem_occEntries.mp ((hr7 _).mpr hmem1)
          exact ⟨pos2, h2, hg3⟩
      refine ⟨r, true, hrun, hrInv, by rw [hcont], hfindr_none, hpres, ?_,
        hr2, ?_⟩
      · rw [hcont, hr3]
        rfl
      · left
        rw [hr4]
        omega
    · -- no compaction: the tombstoned state is final
      have hInv1 : Inv hf
          { m with
              table := m.table.set
                (stepPos m.capacity (make_hash (hf key)) t0) FSlot.tombstone
              tombstone_count := m.tombstone_count + 1
              size := m.size - 1 } := by
        have hne_mono : ∀ q, fslotAt m.table q ≠ .empty →
            fslotAt (m.table.set (stepPos m.capacity (make_hash (hf key)) t0)
              FSlot.tombstone) q ≠ .empty := by
          intro q hq
          by_cases hqq : q = stepPos m.capacity (make_hash (hf key)) t0
          · subst hqq
            rw [fslotAt_set_self hplen]
            simp
          · rw [fslotAt_set_ne (fun hx => hqq hx.symm)]
            exact hq
        constructor
        · simpa using hInv.len
        · exact ⟨j, hj⟩
        · show m.size - 1 = countOcc (m.table.set _ _)
          have := hInv.size_eq
          omega
        · show m.tombstone_count + 1 = countTomb (m.table.set _ _)
          rw [hctomb1, hInv.tomb_eq]
        · show 4 * (m.size - 1) ≤ 3 * m.capacity
          have := hInv.load
          omega
        · show 4 * (m.tombstone_count + 1) ≤ m.capacity ∨ m.size - 1 = 0
          push_neg at hcomp
          omega
        · exact hnd1
        · intro pos h2 k2 v2 hg
          exact hhash1 pos h2 k2 v2 hg
        · intro pos h2 k2 v2 hg
          exact ChainOK.mono hne_mono
            (hInv.chains pos h2 k2 v2 (hm1get pos h2 k2 v2 hg).1)
      have hrun : erase hf m key = some
          ({ m with
              table := m.table.set
                (stepPos m.capacity (make_hash (hf key)) t0) FSlot.tombstone
              tombstone_count := m.tombstone_count + 1
              size := m.size - 1 }, true) := by
        simp only [erase]
        rw [hfound, if_neg hne2, if_neg hcomp]
      have hfind1_none : find hf
          { m with
              table := m.table.set
                (stepPos m.capacity (make_hash (hf key)) t0) FSlot.tombstone
              tombstone_count := m.tombstone_count + 1
              size := m.size - 1 } key = none := by
        apply find_eq_none_of_contains_false
        cases hc : contains hf
            { m with
              table := m.table.set
                (stepPos m.capacity (make_hash (hf key)) t0) FSlot.tombstone
              tombstone_count := m.tombstone_count + 1
              size := m.size - 1 } key
        · rfl
        · exact absurd ((contains_iff_mem hInv1).mp hc) hkeynot1
      refine ⟨_, true, hrun, hInv1, by rw [hcont], hfind1_none, ?_, ?_, rfl,
        ?_⟩
      · refine find_pres_set hInv hInv1 hplen rfl ?_ ?_
        · intro h2 k2 v2 hx
          exact absurd hx (by simp)
        · intro h2 k2 v2 hgp
          rw [hget] at hgp
          simp only [Option.some_inj, FSlot.occupied.injEq] at hgp
          exact hgp.2.1.symm
      · rw [hcont]
        rfl
      · show 4 * (m.tombstone_count + 1) ≤ m.capacity ∨ m.size - 1 = 0
        push_neg at hcomp
        omega

theorem occupiedKeys_map_empty (tbl : List (FSlot K V)) :
    occupiedKeys (tbl.map fun _ => (FSlot.empty : FSlot K V)) = [] := by
  induction tbl with
  | nil => rfl
  | cons s rest ih =>
    rw [List.map_cons, occupiedKeys_cons, ih]
    rfl

theorem countTomb_map_empty (tbl : List (FSlot K V)) :
    countTomb (tbl.map fun _ => (FSlot.empty : FSlot K V)) = 0 := by
  induction tbl with
  | nil => rfl
  | cons s rest ih =>
    rw [List.map_cons, countTomb_cons, ih]
    rfl

theorem get?_map_empty_not_occ {tbl : List (FSlot K V)} {pos h2 : Nat}
    {k2 : K} {v2 : V}
    (hg : (tbl.map fun _ => (FSlot.empty : FSlot K V)).get? pos =
      some (.occupied h2 k2 v2)) : False := by
  rw [List.get?_map] at hg
  cases hx : tbl.get? pos with
  | none =>
    rw [hx] at hg
    exact absurd hg (by simp)
  | some s =>
    rw [hx] at hg
    simp at hg

/-- `clear` restores the invariant with an all-empty table of the same
capacity. -/
theorem clear_spec {hf : K → Nat} {m : FlatHashMap K V} (hInv : Inv hf m) :
    Inv hf (clear m) ∧ (∀ key, find hf (clear m) key = none) ∧
      (clear m).size = 0 ∧ (clear m).capacity = m.capacity ∧
      (clear m).tombstone_count = 0 := by
  have hInvc : Inv hf (clear m) := by
    constructor
    · show (m.table.map _).length = m.capacity
      rw [List.length_map]
      exact hInv.len
    · exact hInv.pow2
    · show 0 = countOcc (m.table.map fun _ => FSlot.empty)
      rw [← length_occupiedKeys, occupiedKeys_map_empty]
      rfl
    · show 0 = countTomb (m.table.map fun _ => FSlot.empty)
      rw [countTomb_map_empty]
    · show 4 * 0 ≤ 3 * m.capacity
      omega
    · right
      rfl
    · show (occupiedKeys (m.table.map fun _ => FSlot.empty)).Nodup
      rw [occupiedKeys_map_empty]
      exact List.nodup_nil
    · intro pos h2 k2 v2 hg
      exact absurd hg (fun hx => get?_map_empty_not_occ hx)
    · intro pos h2 k2 v2 hg
      exact absurd hg (fun hx => get?_map_empty_not_occ hx)
  refine ⟨hInvc, ?_, rfl, rfl, rfl⟩
  intro key
  apply find_eq_none_of_contains_false
  cases hc : contains hf (clear m) key
  · rfl
  · exfalso
    have := (contains_iff_mem hInvc).mp hc
    rw [show (clear m).table = m.table.map fun _ => FSlot.empty from rfl,
      occupiedKeys_map_empty] at this
    simp at this

theorem Inv_new (hf : K → Nat) : Inv hf (FlatHashMap.new K V) := by
  constructor
  · show (List.replicate INITIAL_CAPACITY (FSlot.empty : FSlot K V)).length =
      INITIAL_CAPACITY
    rw [List.length_replicate]
  · refine ⟨4, ?_⟩
    show INITIAL_CAPACITY = 2 ^ 4
    norm_num [INITIAL_CAPACITY]
  · show 0 = countOcc (List.replicate INITIAL_CAPACITY FSlot.empty)
    rw [countOcc_replicate]
  · show 0 = countTomb (List.replicate INITIAL_CAPACITY FSlot.empty)
    rw [countTomb_replicate]
  · show 4 * 0 ≤ 3 * INITIAL_CAPACITY
    norm_num
  · left
    show 4 * 0 ≤ INITIAL_CAPACITY
    norm_num
  · show (occupiedKeys (List.replicate INITIAL_CAPACITY
      (FSlot.empty : FSlot K V))).Nodup
    rw [occupiedKeys_replicate]
    exact List.nodup_nil
  · intro pos h2 k2 v2 hg
    exact absurd hg (fun hx => get?_replicate_not_occ hx)
  · intro pos h2 k2 v2 hg
    exact absurd hg (fun hx => get?_replicate_not_occ hx)

theorem Inv_newSized (hf : K → Nat) {n : Nat} (hn : n ≤ 2 ^ 50) :
    Inv hf (FlatHashMap.newSized K V n) := by
  have hlim : (4 * n) / 3 ≤ 2 ^ 62 := by
    have h1 : (4 * n) / 3 ≤ 4 * n := Nat.div_le_self _ _
    have h2 : (4 : Nat) * 2 ^ 50 ≤ 2 ^ 62 := by norm_num
    omega
  obtain ⟨j, hj⟩ := next_power_of_2_isPow2 hlim
  constructor
  · show (List.replicate (next_power_of_2 ((4 * n) / 3))
      (FSlot.empty : FSlot K V)).length = next_power_of_2 ((4 * n) / 3)
    rw [List.length_replicate]
  · exact ⟨j, hj⟩
  · show 0 = countOcc (List.replicate (next_power_of_2 ((4 * n) / 3))
      FSlot.empty)
    rw [countOcc_replicate]
  · show 0 = countTomb (List.replicate (next_power_of_2 ((4 * n) / 3))
      FSlot.empty)
    rw [countTomb_replicate]
  · show 4 * 0 ≤ 3 * next_power_of_2 ((4 * n) / 3)
    omega
  · left
    show 4 * 0 ≤ next_power_of_2 ((4 * n) / 3)
    omega
  · show (occupiedKeys (List.replicate (next_power_of_2 ((4 * n) / 3))
      (FSlot.empty : FSlot K V))).Nodup
    rw [occupiedKeys_replicate]
    exact List.nodup_nil
  · intro pos h2 k2 v2 hg
    exact absurd hg (fun hx => get?_replicate_not_occ hx)
  · intro pos h2 k2 v2 hg
    exact absurd hg (fun hx => get?_replicate_not_occ hx)

theorem bracket_spec {hf : K → Nat} {m : FlatHashMap K V} (hInv : Inv hf m)
    (d : V) (key : K) :
    ∃ m2 v2, bracket hf d m key = some (m2, v2) ∧ Inv hf m2 := by
  by_cases hslot : find_slot m key (make_hash (hf key)) = m.capacity
  · obtain ⟨m2, ins, hi, hInv2, _⟩ := insert_spec hInv key d
    refine ⟨m2, d, ?_, hInv2⟩
    simp only [bracket]
    rw [if_neg (fun hc => hc hslot), hi]
    rfl
  · have hne : find_slot_go m.table m.capacity
        (make_hash (hf key) &&& (m.capacity - 1)) (make_hash (hf key)) key 0
        m.capacity ≠ m.capacity := hslot
    obtain ⟨t0, _, _, ht3, v0, ht4⟩ := find_slot_go_sound m.capacity 0 hne
    have hfound : find_slot m key (make_hash (hf key)) =
        stepPos m.capacity (make_hash (hf key)) t0 := ht3
    have hne2 : stepPos m.capacity (make_hash (hf key)) t0 ≠ m.capacity := by
      rw [← hfound]
      exact hslot
    have hv0f : fslotAt m.table
        (stepPos m.capacity (make_hash (hf key)) t0) =
        FSlot.occupied (make_hash (hf key)) key v0 := ht4
    refine ⟨m, v0, ?_, hInv⟩
    simp only [bracket]
    rw [hfound, if_pos hne2]
    simp only [hv0f]

/-- Every reachable flat map satisfies the invariant. -/
theorem Reach_Inv {hf : K → Nat} {d : V} {m : FlatHashMap K V}
    (h : Reach hf d m) : Inv hf m := by
  induction h with
  | new => exact Inv_new hf
  | newSized n hn => exact Inv_newSized hf hn
  | insert hre heq ih =>
    obtain ⟨m2, ins, hi, hInv2, _⟩ := insert_spec ih _ _
    rw [hi] at heq
    simp only [Option.some_inj, Prod.mk.injEq] at heq
    exact heq.1 ▸ hInv2
  | erase hre heq ih =>
    obtain ⟨m2, b2, hi, hInv2, _⟩ := erase_spec ih _
    rw [hi] at heq
    simp only [Option.some_inj, Prod.mk.injEq] at heq
    exact heq.1 ▸ hInv2
  | clear hre ih => exact (clear_spec ih).1
  | bracket hre heq ih =>
    obtain ⟨m2, v2, hi, hInv2⟩ := bracket_spec ih d _
    rw [hi] at heq
    simp only [Option.some_inj, Prod.mk.injEq] at heq
    exact heq.1 ▸ hInv2

end FlatHashMap

/-! ### Backend correspondence: flat vs node -/

/-- Relation between a flat slot and a node slot over the node backing
store: same state; occupied slots carry the same hash and the entry holds
the same key/value pair. -/
def SlotRel {K V : Type} (entries : List (K × V)) :
    FSlot K V → NSlot → Prop
  | .empty, .empty => True
  | .tombstone, .tombstone => True
  | .occupied h k v, .occupied h2 eid =>
      h2 = h ∧ entries.get? eid = some (k, v)
  | _, _ => False

/-- Correspondence between whole backend states. -/
structure Rel {K V : Type} (f : FlatHashMap K V) (n : NodeHashMap K V) :
    Prop where
  size : n.size = f.size
  capacity : n.capacity = f.capacity
  tomb : n.tombstone_count = f.tombstone_count
  slots : List.Forall₂ (SlotRel n.entries) f.table n.table

section RelLemmas

variable {K V : Type} [DecidableEq K]

theorem SlotRel_empty_right {entries : List (K × V)} {ns : NSlot}
    (h : SlotRel entries .empty ns) : ns = .empty := by
  cases ns <;> simp [SlotRel] at h <;> rfl

theorem SlotRel_tomb_right {entries : List (K × V)} {ns : NSlot}
    (h : SlotRel entries .tombstone ns) : ns = .tombstone := by
  cases ns <;> simp [SlotRel] at h <;> rfl

theorem SlotRel_occ_right {entries : List (K × V)} {h0 : Nat} {k : K} {v : V}
    {ns : NSlot} (h : SlotRel entries (.occupied h0 k v) ns) :
    ∃ eid, ns = .occupied h0 eid ∧ entries.get? eid = some (k, v) := by
  cases ns with
  | empty => simp [SlotRel] at h
  | tombstone => simp [SlotRel] at h
  | occupied h2 eid =>
    obtain ⟨rfl, h2⟩ := h
    exact ⟨eid, rfl, h2⟩

theorem fslotAt_eq_get {tbl : List (FSlot K V)} {p : Nat}
    (hp : p < tbl.length) : fslotAt tbl p = tbl.get ⟨p, hp⟩ := by
  unfold fslotAt
  rw [List.getD_eq_get?, List.get?_eq_get hp]
  rfl

theorem nslotAt_eq_get {tbl : List NSlot} {p : Nat} (hp : p < tbl.length) :
    nslotAt tbl p = tbl.get ⟨p, hp⟩ := by
  unfold nslotAt
  rw [List.getD_eq_get?, List.get?_eq_get hp]
  rfl

theorem fslotAt_default {tbl : List (FSlot K V)} {p : Nat}
    (hp : ¬p < tbl.length) : fslotAt tbl p = .empty := by
  unfold fslotAt
  rw [List.getD_eq_get?, List.get?_eq_none.mpr (by omega)]
  rfl

theorem nslotAt_default {tbl : List NSlot} {p : Nat}
    (hp : ¬p < tbl.length) : nslotAt tbl p = .empty := by
  unfold nslotAt
  rw [List.getD_eq_get?, List.get?_eq_none.mpr (by omega)]
  rfl

/-- Pointwise slot relation from the table relation. -/
theorem slotRel_at {entries : List (K × V)} {ftbl : List (FSlot K V)}
    {ntbl : List NSlot} (hrel : List.Forall₂ (SlotRel entries) ftbl ntbl)
    (p : Nat) : SlotRel entries (fslotAt ftbl p) (nslotAt ntbl p) := by
  have hlen := hrel.length_eq
  by_cases hp : p < ftbl.length
  · obtain ⟨-, hget⟩ := List.forall₂_iff_get.mp hrel
    rw [fslotAt_eq_get hp, nslotAt_eq_get (by omega)]
    exact hget p hp (by omega)
  · rw [fslotAt_default hp, nslotAt_default (by omega)]
    trivial

theorem forall₂_set {α β : Type} {R : α → β → Prop} :
    ∀ {l1 : List α} {l2 : List β}, List.Forall₂ R l1 l2 →
      ∀ {a b}, R a b → ∀ p, List.Forall₂ R (l1.set p a) (l2.set p b) := by
  intro l1 l2 h
  induction h with
  | nil =>
    intro a b _ p
    simp [List.set]
  | cons hxy hrest ih =>
    intro a b hab p
    cases p with
    | zero => exact List.Forall₂.cons hab hrest
    | succ p => exact List.Forall₂.cons hxy (ih hab p)

theorem SlotRel_extend {entries : List (K × V)} {e : K × V} {fs : FSlot K V}
    {ns : NSlot} (h : SlotRel entries fs ns) :
    SlotRel (entries ++ [e]) fs ns := by
  cases fs with
  | empty => rw [SlotRel_empty_right h]; trivial
  | tombstone => rw [SlotRel_tomb_right h]; trivial
  | occupied h0 k v =>
    obtain ⟨eid, rfl, hget⟩ := SlotRel_occ_right h
    refine ⟨rfl, ?_⟩
    rcases List.get?_eq_some.mp hget with ⟨hlt, -⟩
    rw [List.get?_append hlt]
    exact hget

/-- The two `find_slot` loops take the same branches on related tables. -/
theorem find_slot_go_rel {entries : List (K × V)} {ftbl : List (FSlot K V)}
    {ntbl : List NSlot} (hrel : List.Forall₂ (SlotRel entries) ftbl ntbl)
    (cap index hash : Nat) (key : K) :
    ∀ fuel i,
      NodeHashMap.find_slot_go ntbl entries cap index hash key i fuel =
        FlatHashMap.find_slot_go ftbl cap index hash key i fuel := by
  intro fuel
  induction fuel with
  | zero => intro i; rfl
  | succ fuel ih =>
    intro i
    have hsr := slotRel_at hrel (probe cap index i)
    cases hfs : fslotAt ftbl (probe cap index i) with
    | empty =>
      rw [hfs] at hsr
      have hns := SlotRel_empty_right hsr
      simp only [NodeHashMap.find_slot_go, FlatHashMap.find_slot_go, hfs, hns]
    | tombstone =>
      rw [hfs] at hsr
      have hns := SlotRel_tomb_right hsr
      simp only [NodeHashMap.find_slot_go, FlatHashMap.find_slot_go, hfs, hns]
      exact ih (i + 1)
    | occupied h0 k0 v0 =>
      rw [hfs] at hsr
      obtain ⟨eid, hns, hget⟩ := SlotRel_occ_right hsr
      simp only [NodeHashMap.find_slot_go, FlatHashMap.find_slot_go, hfs, hns]
      have hkeyiff : NodeHashMap.entry_key_eq entries eid key ↔ k0 = key := by
        unfold NodeHashMap.entry_key_eq
        rw [hget]
      by_cases hcond : h0 = hash ∧ k0 = key
      · rw [if_pos hcond, if_pos ⟨hcond.1, hkeyiff.mpr hcond.2⟩]
      · rw [if_neg hcond, if_neg (fun hx => hcond ⟨hx.1, hkeyiff.mp hx.2⟩)]
        exact ih (i + 1)

theorem find_slot_rel {f : FlatHashMap K V} {n : NodeHashMap K V}
    (hR : Rel f n) (key : K) (hash : Nat) :
    NodeHashMap.find_slot n key hash = FlatHashMap.find_slot f key hash := by
  unfold NodeHashMap.find_slot FlatHashMap.find_slot
  rw [hR.capacity]
  exact find_slot_go_rel hR.slots f.capacity _ hash key f.capacity 0

/-- `find` agrees on related states. -/
theorem find_rel {hf : K → Nat} {f : FlatHashMap K V} {n : NodeHashMap K V}
    (hR : Rel f n) (key : K) :
    NodeHashMap.find hf n key = FlatHashMap.find hf f key := by
  simp only [NodeHashMap.find, FlatHashMap.find]
  rw [find_slot_rel hR, hR.capacity]
  by_cases hcap : FlatHashMap.find_slot f key (make_hash (hf key)) =
      f.capacity
  · rw [if_pos hcap, if_pos hcap]
  · rw [if_neg hcap, if_neg hcap]
    have hsr := slotRel_at hR.slots
      (FlatHashMap.find_slot f key (make_hash (hf key)))
    cases hfs : fslotAt f.table
        (FlatHashMap.find_slot f key (make_hash (hf key))) with
    | empty =>
      rw [hfs] at hsr
      rw [SlotRel_empty_right hsr]
    | tombstone =>
      rw [hfs] at hsr
      rw [SlotRel_tomb_right hsr]
    | occupied h0 k0 v0 =>
      rw [hfs] at hsr
      obtain ⟨eid, hns, hget⟩ := SlotRel_occ_right hsr
      rw [hns]
      show Option.map Prod.snd (n.entries.get? eid) = some v0
      rw [hget]
      rfl

theorem contains_rel {hf : K → Nat} {f : FlatHashMap K V}
    {n : NodeHashMap K V} (hR : Rel f n) (key : K) :
    NodeHashMap.contains hf n key = FlatHashMap.contains hf f key := by
  unfold NodeHashMap.contains FlatHashMap.contains
  rw [find_rel hR]

end RelLemmas

/-! ### Lockstep simulation of the mutating operations -/

section Lockstep

variable {K V : Type} [DecidableEq K]

theorem get?_set_self_gen {α : Type} {l : List α} {p : Nat}
    (hp : p < l.length) (a : α) : (l.set p a).get? p = some a := by
  rw [List.get?_set_eq, List.get?_eq_get hp]
  rfl

theorem get?_set_other {α : Type} {l : List α} {p q : Nat} (h : p ≠ q)
    (a : α) : (l.set p a).get? q = l.get? q :=
  List.get?_set_ne _ _ h

theorem slotRel_empty_empty (entries : List (K × V)) :
    SlotRel entries (FSlot.empty : FSlot K V) NSlot.empty := True.intro

theorem SlotRel_occ_intro {entries : List (K × V)} {h0 : Nat} {k : K} {v : V}
    {eid : Nat} (hget : entries.get? eid = some (k, v)) :
    SlotRel entries (.occupied h0 k v) (.occupied h0 eid) := ⟨rfl, hget⟩

/-- Extending the backing store does not disturb the slot relation. -/
theorem forall₂_extend_entries {entries : List (K × V)} {e : K × V}
    {l1 : List (FSlot K V)} {l2 : List NSlot}
    (h : List.Forall₂ (SlotRel entries) l1 l2) :
    List.Forall₂ (SlotRel (entries ++ [e])) l1 l2 := by
  refine List.Forall₂.imp ?_ h
  intro a b hx
  exact SlotRel_extend hx

theorem forall₂_replicate_rel {α β : Type} {R : α → β → Prop} {a : α}
    {b : β} (h : R a b) :
    ∀ nrep, List.Forall₂ R (List.replicate nrep a) (List.replicate nrep b)
  | 0 => List.Forall₂.nil
  | nrep + 1 => List.Forall₂.cons h (forall₂_replicate_rel h nrep)

theorem frehash_step_none (s : FSlot K V) :
    FlatHashMap.rehash_step (none : Option (FlatHashMap K V)) s = none := by
  cases s <;> rfl

theorem nrehash_step_none (s : NSlot) :
    NodeHashMap.rehash_step (none : Option (NodeHashMap K V)) s = none := by
  cases s <;> rfl

theorem frehash_foldl_none : ∀ l : List (FSlot K V),
    l.foldl FlatHashMap.rehash_step none = none
  | [] => rfl
  | s :: l => by
    rw [List.foldl_cons, frehash_step_none]
    exact frehash_foldl_none l

theorem nrehash_foldl_none : ∀ l : List NSlot,
    l.foldl NodeHashMap.rehash_step (none : Option (NodeHashMap K V)) = none
  | [] => rfl
  | s :: l => by
    rw [List.foldl_cons, nrehash_step_none]
    exact nrehash_foldl_none l

/-- The two `insert_internal` loops move in lockstep on related states. -/
theorem insert_internal_go_rel {f : FlatHashMap K V} {n : NodeHashMap K V}
    (hR : Rel f n) (hash eid : Nat) (key : K) (value : V)
    (hget : n.entries.get? eid = some (key, value)) :
    ∀ fuel i,
      (FlatHashMap.insert_internal_go hash key value i fuel f = none ∧
        NodeHashMap.insert_internal_go hash eid i fuel n = none) ∨
      ∃ f2 n2,
        FlatHashMap.insert_internal_go hash key value i fuel f = some f2 ∧
        NodeHashMap.insert_internal_go hash eid i fuel n = some n2 ∧
        Rel f2 n2 ∧ n2.entries = n.entries := by
  intro fuel
  induction fuel with
  | zero => intro i; exact Or.inl ⟨rfl, rfl⟩
  | succ fuel ih =>
    intro i
    have hcap := hR.capacity
    have hsr := slotRel_at hR.slots
      (probe f.capacity (hash &&& (f.capacity - 1)) i)
    cases hfs : fslotAt f.table
        (probe f.capacity (hash &&& (f.capacity - 1)) i) with
    | empty =>
      rw [hfs] at hsr
      have hns := SlotRel_empty_right hsr
      refine Or.inr ⟨{ f with
          table := f.table.set
            (probe f.capacity (hash &&& (f.capacity - 1)) i)
            (.occupied hash key value) },
        { n with
          table := n.table.set
            (probe f.capacity (hash &&& (f.capacity - 1)) i)
            (.occupied hash eid) }, ?_, ?_, ?_, rfl⟩
      · simp [FlatHashMap.insert_internal_go, hfs]
      · simp [NodeHashMap.insert_internal_go, hcap, hns]
      · exact ⟨hR.size, hR.capacity, hR.tomb,
          forall₂_set hR.slots (SlotRel_occ_intro hget) _⟩
    | tombstone =>
      rw [hfs] at hsr
      have hns := SlotRel_tomb_right hsr
      refine Or.inr ⟨{ f with
          table := f.table.set
            (probe f.capacity (hash &&& (f.capacity - 1)) i)
            (.occupied hash key value)
          tombstone_count := f.tombstone_count - 1 },
        { n with
          table := n.table.set
            (probe f.capacity (hash &&& (f.capacity - 1)) i)
            (.occupied hash eid)
          tombstone_count := n.tombstone_count - 1 }, ?_, ?_, ?_, rfl⟩
      · simp [FlatHashMap.insert_internal_go, hfs]
      · simp [NodeHashMap.insert_internal_go, hcap, hns]
      · exact ⟨hR.size, hR.capacity, by rw [hR.tomb],
          forall₂_set hR.slots (SlotRel_occ_intro hget) _⟩
    | occupied h0 k0 v0 =>
      rw [hfs] at hsr
      obtain ⟨eid0, hns, hget0⟩ := SlotRel_occ_right hsr
      have hfe : FlatHashMap.insert_internal_go hash key value i (fuel + 1) f =
          FlatHashMap.insert_internal_go hash key value (i + 1) fuel f := by
        simp [FlatHashMap.insert_internal_go, hfs]
      have hne : NodeHashMap.insert_internal_go hash eid i (fuel + 1) n =
          NodeHashMap.insert_internal_go hash eid (i + 1) fuel n := by
        simp [NodeHashMap.insert_internal_go, hcap, hns]
      rw [hfe, hne]
      exact ih (i + 1)

theorem insert_internal_rel {f : FlatHashMap K V} {n : NodeHashMap K V}
    (hR : Rel f n) (hash eid : Nat) (key : K) (value : V)
    (hget : n.entries.get? eid = some (key, value)) :
    (FlatHashMap.insert_internal f hash key value = none ∧
      NodeHashMap.insert_internal n hash eid = none) ∨
    ∃ f2 n2,
      FlatHashMap.insert_internal f hash key value = some f2 ∧
      NodeHashMap.insert_internal n hash eid = some n2 ∧
      Rel f2 n2 ∧ n2.entries = n.entries := by
  have h := insert_internal_go_rel hR hash eid key value hget f.capacity 0
  unfold FlatHashMap.insert_internal NodeHashMap.insert_internal
  rw [hR.capacity]
  exact h

/-- The rehash reinsertion folds move in lockstep. -/
theorem rehash_fold_rel {entries : List (K × V)} :
    ∀ {oldf : List (FSlot K V)} {oldn : List NSlot},
      List.Forall₂ (SlotRel entries) oldf oldn →
      ∀ {f : FlatHashMap K V} {n : NodeHashMap K V}, Rel f n →
        n.entries = entries →
        (oldf.foldl FlatHashMap.rehash_step (some f) = none ∧
          oldn.foldl NodeHashMap.rehash_step (some n) = none) ∨
        ∃ f2 n2,
          oldf.foldl FlatHashMap.rehash_step (some f) = some f2 ∧
          oldn.foldl NodeHashMap.rehash_step (some n) = some n2 ∧
          Rel f2 n2 ∧ n2.entries = entries := by
  intro oldf oldn hrel
  induction hrel with
  | nil =>
    intro f n hR hent
    exact Or.inr ⟨f, n, rfl, rfl, hR, hent⟩
  | @cons a b l1 l2 hab hrest ih =>
    intro f n hR hent
    rw [List.foldl_cons, List.foldl_cons]
    cases a with
    | empty =>
      have hb := SlotRel_empty_right hab
      subst hb
      exact ih hR hent
    | tombstone =>
      have hb := SlotRel_tomb_right hab
      subst hb
      exact ih hR hent
    | occupied h0 k0 v0 =>
      obtain ⟨eid, hb, hget0⟩ := SlotRel_occ_right hab
      subst hb
      have hget : n.entries.get? eid = some (k0, v0) := by
        rw [hent]
        exact hget0
      have hstepf : FlatHashMap.rehash_step (some f) (.occupied h0 k0 v0) =
          FlatHashMap.insert_internal f h0 k0 v0 := rfl
      have hstepn : NodeHashMap.rehash_step (some n) (.occupied h0 eid) =
          NodeHashMap.insert_internal n h0 eid := rfl
      rw [hstepf, hstepn]
      rcases insert_internal_rel hR h0 eid k0 v0 hget with
        ⟨h1, h2⟩ | ⟨f1, n1, h1, h2, hR1, hent1⟩
      · rw [h1, h2]
        exact Or.inl ⟨frehash_foldl_none l1, nrehash_foldl_none l2⟩
      · rw [h1, h2]
        exact ih hR1 (by rw [hent1, hent])

/-- `rehash` itself moves in lockstep: same success/failure, related
results, backing store untouched. -/
theorem rehash_rel {f : FlatHashMap K V} {n : NodeHashMap K V}
    (hR : Rel f n) (C : Nat) :
    (FlatHashMap.rehash f C = none ∧ NodeHashMap.rehash n C = none) ∨
    ∃ f2 n2, FlatHashMap.rehash f C = some f2 ∧
      NodeHashMap.rehash n C = some n2 ∧ Rel f2 n2 ∧
      n2.entries = n.entries := by
  have hfreshR : Rel
      ({ table := List.replicate C .empty
         size := f.size
         capacity := C
         tombstone_count := 0 } : FlatHashMap K V)
      { n with
          table := List.replicate C .empty
          capacity := C
          tombstone_count := 0 } :=
    ⟨hR.size, rfl, rfl, forall₂_replicate_rel (slotRel_empty_empty _) C⟩
  simp only [FlatHashMap.rehash, NodeHashMap.rehash]
  exact rehash_fold_rel hR.slots hfreshR rfl

/-- The main insert probing loops move in lockstep on related states whose
flat side has no duplicate keys. -/
theorem insert_loop_rel {f : FlatHashMap K V} {n : NodeHashMap K V}
    (hR : Rel f n) (hnd : (FlatHashMap.occupiedKeys f.table).Nodup)
    (hash : Nat) (key : K) (value : V) :
    ∀ fuel i ft,
      (FlatHashMap.insert_loop hash key value i fuel ft f = none ∧
        NodeHashMap.insert_loop hash key value i fuel ft n = none) ∨
      ∃ f2 n2 b2,
        FlatHashMap.insert_loop hash key value i fuel ft f =
          some (f2, value, b2) ∧
        NodeHashMap.insert_loop hash key value i fuel ft n =
          some (n2, value, b2) ∧
        Rel f2 n2 := by
  intro fuel
  induction fuel with
  | zero => intro i ft; exact Or.inl ⟨rfl, rfl⟩
  | succ fuel ih =>
    intro i ft
    have hcap := hR.capacity
    have hsr := slotRel_at hR.slots
      (probe f.capacity (hash &&& (f.capacity - 1)) i)
    cases hfs : fslotAt f.table
        (probe f.capacity (hash &&& (f.capacity - 1)) i) with
    | empty =>
      rw [hfs] at hsr
      have hns := SlotRel_empty_right hsr
      refine Or.inr ⟨{ f with
          table := f.table.set
            (ft.getD (probe f.capacity (hash &&& (f.capacity - 1)) i))
            (.occupied hash key value)
          size := f.size + 1
          tombstone_count := if ft.isSome then f.tombstone_count - 1
            else f.tombstone_count },
        { n with
          table := n.table.set
            (ft.getD (probe f.capacity (hash &&& (f.capacity - 1)) i))
            (.occupied hash n.entries.length)
          entries := n.entries ++ [(key, value)]
          size := n.size + 1
          tombstone_count := if ft.isSome then n.tombstone_count - 1
            else n.tombstone_count }, true, ?_, ?_, ?_⟩
      · simp [FlatHashMap.insert_loop, hfs]
      · simp [NodeHashMap.insert_loop, hcap, hns]
      · exact ⟨by rw [hR.size], hR.capacity, by rw [hR.tomb],
          forall₂_set (forall₂_extend_entries hR.slots)
            (SlotRel_occ_intro (List.get?_concat_length _ _)) _⟩
    | tombstone =>
      rw [hfs] at hsr
      have hns := SlotRel_tomb_right hsr
      have hfe : FlatHashMap.insert_loop hash key value i (fuel + 1) ft f =
          FlatHashMap.insert_loop hash key value (i + 1) fuel
            (if ft.isNone then
              some (probe f.capacity (hash &&& (f.capacity - 1)) i)
            else ft) f := by
        simp [FlatHashMap.insert_loop, hfs]
      have hne : NodeHashMap.insert_loop hash key value i (fuel + 1) ft n =
          NodeHashMap.insert_loop hash key value (i + 1) fuel
            (if ft.isNone then
              some (probe f.capacity (hash &&& (f.capacity - 1)) i)
            else ft) n := by
        simp [NodeHashMap.insert_loop, hcap, hns]
      rw [hfe, hne]
      exact ih (i + 1) _
    | occupied h0 k0 v0 =>
      rw [hfs] at hsr
      obtain ⟨eid, hns, hgete⟩ := SlotRel_occ_right hsr
      have hkeyiff : NodeHashMap.entry_key_eq n.entries eid key ↔ k0 = key := by
        unfold NodeHashMap.entry_key_eq
        rw [hgete]
      by_cases hcond : h0 = hash ∧ k0 = key
      · have hfe : FlatHashMap.insert_loop hash key value i (fuel + 1) ft f =
            some ({ f with
              table := f.table.set
                (probe f.capacity (hash &&& (f.capacity - 1)) i)
                (.occupied hash key value) }, value, false) := by
          simp only [FlatHashMap.insert_loop, hfs]
          rw [if_pos hcond]
        have hne : NodeHashMap.insert_loop hash key value i (fuel + 1) ft n =
            some ({ n with
              entries := NodeHashMap.set_entry_value n.entries eid value },
              value, false) := by
          simp only [NodeHashMap.insert_loop, hcap, hns]
          rw [if_pos ⟨hcond.1, hkeyiff.mpr hcond.2⟩]
        refine Or.inr ⟨_, _, false, hfe, hne, ?_⟩
        have heid_lt : eid < n.entries.length :=
          (List.get?_eq_some.mp hgete).1
        have hsev : NodeHashMap.set_entry_value n.entries eid value =
            n.entries.set eid (k0, value) := by
          unfold NodeHashMap.set_entry_value
          rw [hgete]
        refine ⟨hR.size, hR.capacity, hR.tomb, ?_⟩
        show List.Forall₂ (SlotRel (NodeHashMap.set_entry_value
            n.entries eid value))
          (f.table.set (probe f.capacity (hash &&& (f.capacity - 1)) i)
            (.occupied hash key value)) n.table
        rw [hsev]
        have hlenpos : probe f.capacity (hash &&& (f.capacity - 1)) i <
            f.table.length := FlatHashMap.fslotAt_occupied_lt_length hfs
        have hlen2 := hR.slots.length_eq
        rw [List.forall₂_iff_get]
        refine ⟨by rw [List.length_set]; exact hlen2, ?_⟩
        intro q hq1 hq2
        by_cases hq : q = probe f.capacity (hash &&& (f.capacity - 1)) i
        · subst hq
          rw [← fslotAt_eq_get hq1, ← nslotAt_eq_get hq2,
            FlatHashMap.fslotAt_set_self hlenpos, hns]
          refine ⟨hcond.1, ?_⟩
          rw [get?_set_self_gen heid_lt, hcond.2]
        · have hq' : probe f.capacity (hash &&& (f.capacity - 1)) i ≠ q :=
            fun hx => hq hx.symm
          rw [← fslotAt_eq_get hq1, ← nslotAt_eq_get hq2,
            FlatHashMap.fslotAt_set_ne hq']
          have hsrq := slotRel_at hR.slots q
          cases hfq : fslotAt f.table q with
          | empty =>
            rw [hfq] at hsrq
            rw [SlotRel_empty_right hsrq]
            exact True.intro
          | tombstone =>
            rw [hfq] at hsrq
            rw [SlotRel_tomb_right hsrq]
            exact True.intro
          | occupied hq0 kq vq =>
            rw [hfq] at hsrq
            obtain ⟨eidq, hnsq, hgetq⟩ := SlotRel_occ_right hsrq
            rw [hnsq]
            have heidne : eid ≠ eidq := by
              intro he
              rw [← he, hgete] at hgetq
              simp only [Option.some_inj, Prod.mk.injEq] at hgetq
              apply hq
              exact FlatHashMap.nodup_key_inj hnd (FlatHashMap.get?_of_fslotAt_occupied
                  (by rw [hfq, hgetq.1]))
                (FlatHashMap.get?_of_fslotAt_occupied hfs)
            refine ⟨rfl, ?_⟩
            rw [get?_set_other heidne]
            exact hgetq
      · have hfe : FlatHashMap.insert_loop hash key value i (fuel + 1) ft f =
            FlatHashMap.insert_loop hash key value (i + 1) fuel ft f := by
          simp only [FlatHashMap.insert_loop, hfs]
          rw [if_neg hcond]
        have hne : NodeHashMap.insert_loop hash key value i (fuel + 1) ft n =
            NodeHashMap.insert_loop hash key value (i + 1) fuel ft n := by
          simp only [NodeHashMap.insert_loop, hcap, hns]
          rw [if_neg (fun hx => hcond ⟨hx.1, hkeyiff.mp hx.2⟩)]
        rw [hfe, hne]
        exact ih (i + 1) ft

theorem slotRel_tomb_tomb (entries : List (K × V)) :
    SlotRel entries (FSlot.tombstone : FSlot K V) NSlot.tombstone := True.intro

/-- `insert` moves in lockstep from a flat-invariant related pair. -/
theorem insert_rel {hf : K → Nat} {f : FlatHashMap K V} {n : NodeHashMap K V}
    (hInv : FlatHashMap.Inv hf f) (hR : Rel f n) (key : K) (value : V) :
    (FlatHashMap.insert hf f key value = none ∧
      NodeHashMap.insert hf n key value = none) ∨
    ∃ f2 n2 b2,
      FlatHashMap.insert hf f key value = some (f2, value, b2) ∧
      NodeHashMap.insert hf n key value = some (n2, value, b2) ∧
      Rel f2 n2 := by
  by_cases hpc : 4 * (f.size + 1) > 3 * f.capacity ∨
      4 * f.tombstone_count > f.capacity
  · obtain ⟨j, hj⟩ := hInv.pow2
    have hcount : FlatHashMap.countOcc f.table < f.capacity * 2 := by
      have h1 := FlatHashMap.countOcc_le_length f.table
      have h2 := hInv.len
      have h3 := hInv.cap_pos
      omega
    have hload : 4 * f.size ≤ 3 * (f.capacity * 2) := by
      have := hInv.load
      omega
    have hcap2 : f.capacity * 2 = 2 ^ (j + 1) := by
      rw [hj]
      ring
    obtain ⟨m1, hre, hInv1, -, -, -, -, -, -, -⟩ :=
      FlatHashMap.rehash_Inv hInv (j + 1) hcap2 hcount hload
    rcases rehash_rel hR (f.capacity * 2) with ⟨h1, h2⟩ |
      ⟨f1, n1, h1, h2, hR1, hent1⟩
    · rw [hre] at h1
      simp at h1
    · have hf1 : f1 = m1 := by
        rw [h1] at hre
        exact Option.some_inj.mp hre
      have hInvf1 : FlatHashMap.Inv hf f1 := by
        rw [hf1]
        exact hInv1
      have hfeq : FlatHashMap.insert hf f key value =
          FlatHashMap.insert_loop (make_hash (hf key)) key value 0
            f1.capacity none f1 := by
        simp only [FlatHashMap.insert]
        rw [if_pos hpc, h1]
        rfl
      have hneq : NodeHashMap.insert hf n key value =
          NodeHashMap.insert_loop (make_hash (hf key)) key value 0
            f1.capacity none n1 := by
        simp only [NodeHashMap.insert]
        rw [hR.size, hR.capacity, hR.tomb, if_pos hpc, h2]
        show NodeHashMap.insert_loop (make_hash (hf key)) key value 0
          n1.capacity none n1 = _
        rw [hR1.capacity]
      rw [hfeq, hneq]
      exact insert_loop_rel hR1 hInvf1.nodup (make_hash (hf key)) key value
        f1.capacity 0 none
  · have hfeq : FlatHashMap.insert hf f key value =
        FlatHashMap.insert_loop (make_hash (hf key)) key value 0
          f.capacity none f := by
      simp only [FlatHashMap.insert]
      rw [if_neg hpc]
      rfl
    have hneq : NodeHashMap.insert hf n key value =
        NodeHashMap.insert_loop (make_hash (hf key)) key value 0
          f.capacity none n := by
      simp only [NodeHashMap.insert]
      rw [hR.size, hR.capacity, hR.tomb, if_neg hpc]
      show NodeHashMap.insert_loop (make_hash (hf key)) key value 0
        n.capacity none n = _
      rw [hR.capacity]
    rw [hfeq, hneq]
    exact insert_loop_rel hR hInv.nodup (make_hash (hf key)) key value
      f.capacity 0 none

/-- `erase` moves in lockstep on related states. -/
theorem erase_rel {hf : K → Nat} {f : FlatHashMap K V} {n : NodeHashMap K V}
    (hR : Rel f n) (key : K) :
    (FlatHashMap.erase hf f key = none ∧ NodeHashMap.erase hf n key = none) ∨
    ∃ f2 n2 b2, FlatHashMap.erase hf f key = some (f2, b2) ∧
      NodeHashMap.erase hf n key = some (n2, b2) ∧ Rel f2 n2 := by
  by_cases hpos : FlatHashMap.find_slot f key (make_hash (hf key)) =
      f.capacity
  · refine Or.inr ⟨f, n, false, ?_, ?_, hR⟩
    · simp only [FlatHashMap.erase]
      rw [if_pos hpos]
    · simp only [NodeHashMap.erase]
      rw [find_slot_rel hR, hR.capacity, if_pos hpos]
  · have hR1 : Rel
        { f with
          table := f.table.set
            (FlatHashMap.find_slot f key (make_hash (hf key))) .tombstone
          tombstone_count := f.tombstone_count + 1
          size := f.size - 1 }
        { table := n.table.set
            (FlatHashMap.find_slot f key (make_hash (hf key))) .tombstone
          entries := n.entries
          size := f.size - 1
          capacity := f.capacity
          tombstone_count := f.tombstone_count + 1 } :=
      ⟨rfl, rfl, rfl,
        forall₂_set hR.slots (slotRel_tomb_tomb n.entries) _⟩
    by_cases hcomp : 4 * (f.tombstone_count + 1) > f.capacity ∧
        f.size - 1 > 0
    · rcases rehash_rel hR1 f.capacity with ⟨h1, h2⟩ |
        ⟨f2, n2, h1, h2, hR2, -⟩
      · refine Or.inl ⟨?_, ?_⟩
        · simp only [FlatHashMap.erase]
          rw [if_neg hpos, if_pos hcomp, h1]
          rfl
        · simp only [NodeHashMap.erase]
          rw [find_slot_rel hR, hR.capacity, hR.tomb, hR.size,
            if_neg hpos, if_pos hcomp, h2]
          rfl
      · refine Or.inr ⟨f2, n2, true, ?_, ?_, hR2⟩
        · simp only [FlatHashMap.erase]
          rw [if_neg hpos, if_pos hcomp, h1]
          rfl
        · simp only [NodeHashMap.erase]
          rw [find_slot_rel hR, hR.capacity, hR.tomb, hR.size,
            if_neg hpos, if_pos hcomp, h2]
          rfl
    · refine Or.inr ⟨_, _, true, ?_, ?_, hR1⟩
      · simp only [FlatHashMap.erase]
        rw [if_neg hpos, if_neg hcomp]
      · simp only [NodeHashMap.erase]
        rw [find_slot_rel hR, hR.capacity, hR.tomb, hR.size,
          if_neg hpos, if_neg hcomp]

theorem clear_slots_rel {entries : List (K × V)} :
    ∀ {l1 : List (FSlot K V)} {l2 : List NSlot},
      List.Forall₂ (SlotRel entries) l1 l2 →
      List.Forall₂ (SlotRel ([] : List (K × V)))
        (l1.map fun _ => FSlot.empty) (l2.map fun _ => NSlot.empty) := by
  intro l1 l2 h
  induction h with
  | nil => exact List.Forall₂.nil
  | cons hab hrest ih => exact List.Forall₂.cons (slotRel_empty_empty []) ih

/-- `clear` preserves the correspondence. -/
theorem clear_rel {f : FlatHashMap K V} {n : NodeHashMap K V} (hR : Rel f n) :
    Rel (FlatHashMap.clear f) (NodeHashMap.clear n) :=
  ⟨rfl, hR.capacity, rfl, clear_slots_rel hR.slots⟩

/-- `operator[]` moves in lockstep from a flat-invariant related pair. -/
theorem bracket_rel {hf : K → Nat} (d : V) {f : FlatHashMap K V}
    {n : NodeHashMap K V} (hInv : FlatHashMap.Inv hf f) (hR : Rel f n)
    (key : K) :
    (FlatHashMap.bracket hf d f key = none ∧
      NodeHashMap.bracket hf d n key = none) ∨
    ∃ f2 n2 v2, FlatHashMap.bracket hf d f key = some (f2, v2) ∧
      NodeHashMap.bracket hf d n key = some (n2, v2) ∧ Rel f2 n2 := by
  by_cases hpos : FlatHashMap.find_slot f key (make_hash (hf key)) =
      f.capacity
  · have hne : ¬FlatHashMap.find_slot f key (make_hash (hf key)) ≠
        f.capacity := fun hc => hc hpos
    rcases insert_rel hInv hR key d with ⟨h1, h2⟩ |
      ⟨f2, n2, b2, h1, h2, hR2⟩
    · refine Or.inl ⟨?_, ?_⟩
      · simp only [FlatHashMap.bracket]
        rw [if_neg hne, h1]
        rfl
      · simp only [NodeHashMap.bracket]
        rw [find_slot_rel hR, hR.capacity, if_neg hne, h2]
        rfl
    · refine Or.inr ⟨f2, n2, d, ?_, ?_, hR2⟩
      · simp only [FlatHashMap.bracket]
        rw [if_neg hne, h1]
        rfl
      · simp only [NodeHashMap.bracket]
        rw [find_slot_rel hR, hR.capacity, if_neg hne, h2]
        rfl
  · have hne : FlatHashMap.find_slot f key (make_hash (hf key)) ≠
        f.capacity := hpos
    have hsr := slotRel_at hR.slots
      (FlatHashMap.find_slot f key (make_hash (hf key)))
    cases hfs : fslotAt f.table
        (FlatHashMap.find_slot f key (make_hash (hf key))) with
    | empty =>
      rw [hfs] at hsr
      have hns := SlotRel_empty_right hsr
      refine Or.inl ⟨?_, ?_⟩
      · simp only [FlatHashMap.bracket]
        rw [if_pos hne, hfs]
      · simp only [NodeHashMap.bracket]
        rw [find_slot_rel hR, hR.capacity, if_pos hne, hns]
    | tombstone =>
      rw [hfs] at hsr
      have hns := SlotRel_tomb_right hsr
      refine Or.inl ⟨?_, ?_⟩
      · simp only [FlatHashMap.bracket]
        rw [if_pos hne, hfs]
      · simp only [NodeHashMap.bracket]
        rw [find_slot_rel hR, hR.capacity, if_pos hne, hns]
    | occupied h0 k0 v0 =>
      rw [hfs] at hsr
      obtain ⟨eid, hns, hget⟩ := SlotRel_occ_right hsr
      refine Or.inr ⟨f, n, v0, ?_, ?_, hR⟩
      · simp only [FlatHashMap.bracket]
        rw [if_pos hne, hfs]
      · simp only [NodeHashMap.bracket]
        rw [find_slot_rel hR, hR.capacity, if_pos hne, hns]
        show (n.entries.get? eid).map (fun e => (n, e.2)) = some (n, v0)
        rw [hget]
        rfl

/-- Fresh maps of the two backends correspond. -/
theorem Rel_new : Rel (FlatHashMap.new K V) (NodeHashMap.new K V) :=
  ⟨rfl, rfl, rfl,
    forall₂_replicate_rel (slotRel_empty_empty []) INITIAL_CAPACITY⟩

theorem Rel_newSized (nn : Nat) :
    Rel (FlatHashMap.newSized K V nn) (NodeHashMap.newSized K V nn) :=
  ⟨rfl, rfl, rfl, forall₂_replicate_rel (slotRel_empty_empty []) _⟩

/-- One public operation moves in lockstep, producing identical
observations. -/
theorem step_rel {hf : K → Nat} {d : V} {f : FlatHashMap K V}
    {n : NodeHashMap K V} (hInv : FlatHashMap.Inv hf f) (hR : Rel f n)
    (op : MapOp K V) :
    (FlatHashMap.step hf d f op = none ∧ NodeHashMap.step hf d n op = none) ∨
    ∃ f2 n2 o, FlatHashMap.step hf d f op = some (f2, o) ∧
      NodeHashMap.step hf d n op = some (n2, o) ∧ Rel f2 n2 := by
  cases op with
  | insert k v =>
    rcases insert_rel hInv hR k v with ⟨h1, h2⟩ | ⟨f2, n2, b2, h1, h2, hR2⟩
    · exact Or.inl ⟨by simp [FlatHashMap.step, h1],
        by simp [NodeHashMap.step, h2]⟩
    · refine Or.inr ⟨f2, n2, ⟨some v, b2, f2.size⟩, ?_, ?_, hR2⟩
      · simp [FlatHashMap.step, h1]
      · simp [NodeHashMap.step, h2, hR2.size]
  | erase k =>
    rcases @erase_rel K V _ hf f n hR k with ⟨h1, h2⟩ |
      ⟨f2, n2, b2, h1, h2, hR2⟩
    · exact Or.inl ⟨by simp [FlatHashMap.step, h1],
        by simp [NodeHashMap.step, h2]⟩
    · refine Or.inr ⟨f2, n2, ⟨none, b2, f2.size⟩, ?_, ?_, hR2⟩
      · simp [FlatHashMap.step, h1]
      · simp [NodeHashMap.step, h2, hR2.size]
  | clear =>
    refine Or.inr ⟨FlatHashMap.clear f, NodeHashMap.clear n,
      ⟨none, true, 0⟩, ?_, ?_, clear_rel hR⟩
    · simp [FlatHashMap.step, FlatHashMap.clear]
    · simp [NodeHashMap.step, NodeHashMap.clear]
  | bracket k =>
    rcases bracket_rel d hInv hR k with ⟨h1, h2⟩ | ⟨f2, n2, v2, h1, h2, hR2⟩
    · exact Or.inl ⟨by simp [FlatHashMap.step, h1],
        by simp [NodeHashMap.step, h2]⟩
    · refine Or.inr ⟨f2, n2, ⟨some v2, true, f2.size⟩, ?_, ?_, hR2⟩
      · simp [FlatHashMap.step, h1]
      · simp [NodeHashMap.step, h2, hR2.size]
  | find k =>
    refine Or.inr ⟨f, n, ⟨FlatHashMap.find hf f k,
      (FlatHashMap.find hf f k).isSome, f.size⟩, rfl, ?_, hR⟩
    simp [NodeHashMap.step, find_rel hR, hR.size]
  | contains k =>
    refine Or.inr ⟨f, n, ⟨none, FlatHashMap.contains hf f k, f.size⟩,
      rfl, ?_, hR⟩
    simp [NodeHashMap.step, contains_rel hR, hR.size]

/-- A flat step from an invariant state always succeeds. -/
theorem fstep_some {hf : K → Nat} {d : V} {m : FlatHashMap K V}
    (hInv : FlatHashMap.Inv hf m) (op : MapOp K V) :
    ∃ m2 o, FlatHashMap.step hf d m op = some (m2, o) := by
  cases op with
  | insert k v =>
    obtain ⟨m2, ins, hi, -⟩ := FlatHashMap.insert_spec hInv k v
    exact ⟨m2, ⟨some v, ins, m2.size⟩, by simp [FlatHashMap.step, hi]⟩
  | erase k =>
    obtain ⟨m2, b, hi, -⟩ := FlatHashMap.erase_spec hInv k
    exact ⟨m2, ⟨none, b, m2.size⟩, by simp [FlatHashMap.step, hi]⟩
  | clear => exact ⟨_, _, rfl⟩
  | bracket k =>
    obtain ⟨m2, v2, hi, -⟩ := FlatHashMap.bracket_spec hInv d k
    exact ⟨m2, ⟨some v2, true, m2.size⟩, by simp [FlatHashMap.step, hi]⟩
  | find k => exact ⟨m, _, rfl⟩
  | contains k => exact ⟨m, _, rfl⟩

/-- Reachability of the flat backend is closed under successful steps. -/
theorem fstep_Reach {hf : K → Nat} {d : V} {m m2 : FlatHashMap K V}
    {o : Obs V} {op : MapOp K V} (hre : FlatHashMap.Reach hf d m)
    (hs : FlatHashMap.step hf d m op = some (m2, o)) :
    FlatHashMap.Reach hf d m2 := by
  cases op with
  | insert k v =>
    simp only [FlatHashMap.step] at hs
    rcases Option.map_eq_some'.mp hs with ⟨r, hr1, hr2⟩
    have hm2 : r.1 = m2 := congrArg Prod.fst hr2
    rw [← hm2]
    exact FlatHashMap.Reach.insert hre hr1
  | erase k =>
    simp only [FlatHashMap.step] at hs
    rcases Option.map_eq_some'.mp hs with ⟨r, hr1, hr2⟩
    have hm2 : r.1 = m2 := congrArg Prod.fst hr2
    rw [← hm2]
    exact FlatHashMap.Reach.erase hre hr1
  | clear =>
    simp only [FlatHashMap.step, Option.some_inj, Prod.mk.injEq] at hs
    exact hs.1 ▸ FlatHashMap.Reach.clear hre
  | bracket k =>
    simp only [FlatHashMap.step] at hs
    rcases Option.map_eq_some'.mp hs with ⟨r, hr1, hr2⟩
    have hm2 : r.1 = m2 := congrArg Prod.fst hr2
    rw [← hm2]
    exact FlatHashMap.Reach.bracket hre hr1
  | find k =>
    simp only [FlatHashMap.step, Option.some_inj, Prod.mk.injEq] at hs
    exact hs.1 ▸ hre
  | contains k =>
    simp only [FlatHashMap.step, Option.some_inj, Prod.mk.injEq] at hs
    exact hs.1 ▸ hre

/-- A flat run from a reachable state always succeeds and stays
reachable. -/
theorem frun_some {hf : K → Nat} {d : V} :
    ∀ (ops : List (MapOp K V)) {m : FlatHashMap K V},
      FlatHashMap.Reach hf d m →
      ∃ m2 os, FlatHashMap.run hf d ops m = some (m2, os) ∧
        FlatHashMap.Reach hf d m2 := by
  intro ops
  induction ops with
  | nil => intro m hre; exact ⟨m, [], rfl, hre⟩
  | cons op ops ih =>
    intro m hre
    obtain ⟨m1, o, hs⟩ := fstep_some (FlatHashMap.Reach_Inv hre) op
    obtain ⟨m2, os, hrun, hre2⟩ := ih (fstep_Reach hre hs)
    exact ⟨m2, o :: os, by simp [FlatHashMap.run, hs, hrun], hre2⟩

/-- Whole-run lockstep: identical per-step observations, related final
states. -/
theorem run_rel {hf : K → Nat} {d : V} :
    ∀ (ops : List (MapOp K V)) {f : FlatHashMap K V} {n : NodeHashMap K V},
      FlatHashMap.Reach hf d f → Rel f n →
      (FlatHashMap.run hf d ops f = none ∧
        NodeHashMap.run hf d ops n = none) ∨
      ∃ f2 n2 os, FlatHashMap.run hf d ops f = some (f2, os) ∧
        NodeHashMap.run hf d ops n = some (n2, os) ∧ Rel f2 n2 := by
  intro ops
  induction ops with
  | nil => intro f n _ hR; exact Or.inr ⟨f, n, [], rfl, rfl, hR⟩
  | cons op ops ih =>
    intro f n hreach hR
    rcases @step_rel K V _ hf d f n (FlatHashMap.Reach_Inv hreach) hR op with
      ⟨h1, h2⟩ | ⟨f1, n1, o, h1, h2, hR1⟩
    · exact Or.inl ⟨by simp [FlatHashMap.run, h1],
        by simp [NodeHashMap.run, h2]⟩
    · have hreach1 : FlatHashMap.Reach hf d f1 := fstep_Reach hreach h1
      rcases ih hreach1 hR1 with ⟨h3, h4⟩ | ⟨f2, n2, os, h3, h4, hR2⟩
      · exact Or.inl ⟨by simp [FlatHashMap.run, h1, h3],
          by simp [NodeHashMap.run, h2, h4]⟩
      · exact Or.inr ⟨f2, n2, o :: os,
          by simp [FlatHashMap.run, h1, h3],
          by simp [NodeHashMap.run, h2, h4], hR2⟩

/-- Every reachable node-backend state has a related reachable flat
state. -/
theorem NReach_transfer {hf : K → Nat} {d : V} {n : NodeHashMap K V}
    (h : NodeHashMap.Reach hf d n) :
    ∃ f, FlatHashMap.Reach hf d f ∧ Rel f n := by
  induction h with
  | new => exact ⟨FlatHashMap.new K V, FlatHashMap.Reach.new, Rel_new⟩
  | newSized nn hn =>
    exact ⟨FlatHashMap.newSized K V nn, FlatHashMap.Reach.newSized nn hn,
      Rel_newSized nn⟩
  | insert hre heq ih =>
    obtain ⟨f, hfre, hR⟩ := ih
    rcases insert_rel (FlatHashMap.Reach_Inv hfre) hR _ _ with
      ⟨h1, h2⟩ | ⟨f2, n2, b2, h1, h2, hR2⟩
    · rw [heq] at h2
      simp at h2
    · rw [heq] at h2
      simp only [Option.some_inj, Prod.mk.injEq] at h2
      refine ⟨f2, FlatHashMap.Reach.insert hfre h1, ?_⟩
      rw [h2.1]
      exact hR2
  | erase hre heq ih =>
    obtain ⟨f, hfre, hR⟩ := ih
    rcases @erase_rel K V _ hf f _ hR _ with ⟨h1, h2⟩ |
      ⟨f2, n2, b2, h1, h2, hR2⟩
    · rw [heq] at h2
      simp at h2
    · rw [heq] at h2
      simp only [Option.some_inj, Prod.mk.injEq] at h2
      refine ⟨f2, FlatHashMap.Reach.erase hfre h1, ?_⟩
      rw [h2.1]
      exact hR2
  | clear hre ih =>
    obtain ⟨f, hfre, hR⟩ := ih
    exact ⟨FlatHashMap.clear f, FlatHashMap.Reach.clear hfre, clear_rel hR⟩
  | bracket hre heq ih =>
    obtain ⟨f, hfre, hR⟩ := ih
    rcases bracket_rel _ (FlatHashMap.Reach_Inv hfre) hR _ with
      ⟨h1, h2⟩ | ⟨f2, n2, v2, h1, h2, hR2⟩
    · rw [heq] at h2
      simp at h2
    · rw [heq] at h2
      simp only [Option.some_inj, Prod.mk.injEq] at h2
      refine ⟨f2, FlatHashMap.Reach.bracket hfre h1, ?_⟩
      rw [h2.1]
      exact hR2

end Lockstep

/-! ### Concrete reachable states used by the claim instances -/

section ClaimHelpers

variable {K V : Type} [DecidableEq K]

/-- Result state of `insert` (unchanged state if insertion failed). -/
def finsR (hf : K → Nat) (m : FlatHashMap K V) (k : K) (v : V) :
    FlatHashMap K V :=
  match FlatHashMap.insert hf m k v with
  | some r => r.1
  | none => m

/-- Result state of `erase` (unchanged state if erasure failed). -/
def ferasR (hf : K → Nat) (m : FlatHashMap K V) (k : K) : FlatHashMap K V :=
  match FlatHashMap.erase hf m k with
  | some r => r.1
  | none => m

def ninsR (hf : K → Nat) (n : NodeHashMap K V) (k : K) (v : V) :
    NodeHashMap K V :=
  match NodeHashMap.insert hf n k v with
  | some r => r.1
  | none => n

def nerasR (hf : K → Nat) (n : NodeHashMap K V) (k : K) : NodeHashMap K V :=
  match NodeHashMap.erase hf n k with
  | some r => r.1
  | none => n

theorem Reach_finsR {hf : K → Nat} {d : V} {m : FlatHashMap K V}
    (hre : FlatHashMap.Reach hf d m) (k : K) (v : V) :
    FlatHashMap.Reach hf d (finsR hf m k v) := by
  unfold finsR
  cases hins : FlatHashMap.insert hf m k v with
  | none => exact hre
  | some r => exact FlatHashMap.Reach.insert hre hins

theorem Reach_ferasR {hf : K → Nat} {d : V} {m : FlatHashMap K V}
    (hre : FlatHashMap.Reach hf d m) (k : K) :
    FlatHashMap.Reach hf d (ferasR hf m k) := by
  unfold ferasR
  cases hers : FlatHashMap.erase hf m k with
  | none => exact hre
  | some r => exact FlatHashMap.Reach.erase hre hers

theorem Reach_ninsR {hf : K → Nat} {d : V} {n : NodeHashMap K V}
    (hre : NodeHashMap.Reach hf d n) (k : K) (v : V) :
    NodeHashMap.Reach hf d (ninsR hf n k v) := by
  unfold ninsR
  cases hins : NodeHashMap.insert hf n k v with
  | none => exact hre
  | some r => exact NodeHashMap.Reach.insert hre hins

theorem Reach_nerasR {hf : K → Nat} {d : V} {n : NodeHashMap K V}
    (hre : NodeHashMap.Reach hf d n) (k : K) :
    NodeHashMap.Reach hf d (nerasR hf n k) := by
  unfold nerasR
  cases hers : NodeHashMap.erase hf n k with
  | none => exact hre
  | some r => exact NodeHashMap.Reach.erase hre hers

/-- The node probing loop on an empty slot vector always reports
`capacity`. -/
theorem nfind_slot_go_nil (entries : List (K × V))
    (capacity index hash : Nat) (key : K) :
    ∀ fuel i, NodeHashMap.find_slot_go ([] : List NSlot) entries capacity
      index hash key i fuel = capacity
  | 0, _ => rfl
  | _ + 1, _ => rfl

/-- A moved-from node map contains no key: the slot vector is empty, so
probing reports "not found" at once. -/
theorem ncontains_nil_table {hf : K → Nat} {n : NodeHashMap K V}
    (htbl : n.table = []) (k : K) : NodeHashMap.contains hf n k = false := by
  simp only [NodeHashMap.contains, NodeHashMap.find, NodeHashMap.find_slot,
    htbl]
  rw [nfind_slot_go_nil]
  simp

end ClaimHelpers

/-! ### The claims -/

section Claims

/-- C1: for both backends, in every state reachable from a fresh map by the
public operations, `size()` equals the number of distinct keys for which
`contains` returns true (exhibited as a duplicate-free list of keys whose
length is `size()` and whose membership coincides with `contains`). -/
theorem claim_C1 {K V : Type} [DecidableEq K] (hf : K → Nat) (d : V) :
    (∀ m : FlatHashMap K V, FlatHashMap.Reach hf d m →
      ∃ ks : List K, ks.Nodup ∧ ks.length = m.size ∧
        ∀ k, FlatHashMap.contains hf m k = true ↔ k ∈ ks) ∧
    (∀ n : NodeHashMap K V, NodeHashMap.Reach hf d n →
      ∃ ks : List K, ks.Nodup ∧ ks.length = n.size ∧
        ∀ k, NodeHashMap.contains hf n k = true ↔ k ∈ ks) := by
  refine ⟨?_, ?_⟩
  · intro m hre
    have hInv := FlatHashMap.Reach_Inv hre
    refine ⟨FlatHashMap.occupiedKeys m.table, hInv.nodup, ?_, ?_⟩
    · rw [FlatHashMap.length_occupiedKeys, hInv.size_eq]
    · intro k
      exact FlatHashMap.contains_iff_mem hInv
  · intro n hre
    obtain ⟨f, hfre, hR⟩ := NReach_transfer hre
    have hInv := FlatHashMap.Reach_Inv hfre
    refine ⟨FlatHashMap.occupiedKeys f.table, hInv.nodup, ?_, ?_⟩
    · rw [FlatHashMap.length_occupiedKeys, hR.size, hInv.size_eq]
    · intro k
      rw [contains_rel hR]
      exact FlatHashMap.contains_iff_mem hInv

/-- C1 witness: the freshly constructed flat map instantiates the claim. -/
theorem claim_C1_witness :
    ∃ ks : List Nat, ks.Nodup ∧ ks.length = (FlatHashMap.new Nat Nat).size ∧
      ∀ k, FlatHashMap.contains (fun k => k) (FlatHashMap.new Nat Nat) k =
        true ↔ k ∈ ks :=
  (claim_C1 (fun k => k) (0 : Nat)).1 (FlatHashMap.new Nat Nat)
    FlatHashMap.Reach.new

/-- C2: driving both backends from fresh construction with one and the same
operation sequence always succeeds on both, produces identical per-step
observations (value returned, boolean returned, `size()` after the step),
and ends in states that agree on `size`, `contains` and `find` for every
key. -/
theorem claim_C2 {K V : Type} [DecidableEq K] (hf : K → Nat) (d : V)
    (ops : List (MapOp K V)) :
    ∃ f2 n2 os,
      FlatHashMap.run hf d ops (FlatHashMap.new K V) = some (f2, os) ∧
      NodeHashMap.run hf d ops (NodeHashMap.new K V) = some (n2, os) ∧
      n2.size = f2.size ∧
      (∀ k, NodeHashMap.contains hf n2 k = FlatHashMap.contains hf f2 k) ∧
      (∀ k, NodeHashMap.find hf n2 k = FlatHashMap.find hf f2 k) := by
  rcases @run_rel K V _ hf d ops _ _ FlatHashMap.Reach.new Rel_new with
    ⟨h1, h2⟩ | ⟨f2, n2, os, h3, h4, hR2⟩
  · obtain ⟨m2, os, hrun, -⟩ :=
      @frun_some K V _ hf d ops _ FlatHashMap.Reach.new
    rw [hrun] at h1
    simp at h1
  · exact ⟨f2, n2, os, h3, h4, hR2.size, fun k => contains_rel hR2 k,
      fun k => find_rel hR2 k⟩

def c3Flat : FlatHashMap Nat Nat :=
  finsR (fun k => k) (FlatHashMap.newSized Nat Nat 0) 0 0

def c3Node : NodeHashMap Nat Nat :=
  ninsR (fun k => k) (NodeHashMap.newSized Nat Nat 0) 0 0

/-- C3 counterexample: erasing the only key of a reachable singleton
capacity-2 map tombstones it without compaction (the compaction guard also
requires `size() > 0`), leaving tombstone ratio 1/2 > 0.25 — in both
backends. -/
theorem claim_C3 :
    FlatHashMap.Reach (fun k => k) (0 : Nat) c3Flat ∧
    (FlatHashMap.erase (fun k => k) c3Flat 0).map
      (fun r => decide (4 * r.1.tombstone_count ≤ r.1.capacity)) =
      some false ∧
    NodeHashMap.Reach (fun k => k) (0 : Nat) c3Node ∧
    (NodeHashMap.erase (fun k => k) c3Node 0).map
      (fun r => decide (4 * r.1.tombstone_count ≤ r.1.capacity)) =
      some false :=
  ⟨Reach_finsR (FlatHashMap.Reach.newSized 0 (Nat.zero_le _)) 0 0,
   by decide,
   Reach_ninsR (NodeHashMap.Reach.newSized 0 (Nat.zero_le _)) 0 0,
   by decide⟩

/-- C3 amended: in both backends the tombstone ratio is at most 0.25
immediately after every insert, and after every erase it is at most 0.25
unless the map became empty (the compaction guard skips empty maps). -/
theorem claim_C3_amended {K V : Type} [DecidableEq K] (hf : K → Nat)
    (d : V) :
    (∀ (m m1 : FlatHashMap K V) (k : K) (v w : V) (b : Bool),
      FlatHashMap.Reach hf d m →
      FlatHashMap.insert hf m k v = some (m1, w, b) →
      4 * m1.tombstone_count ≤ m1.capacity) ∧
    (∀ (m m1 : FlatHashMap K V) (k : K) (b : Bool),
      FlatHashMap.Reach hf d m →
      FlatHashMap.erase hf m k = some (m1, b) →
      4 * m1.tombstone_count ≤ m1.capacity ∨ m1.size = 0) ∧
    (∀ (n n1 : NodeHashMap K V) (k : K) (v w : V) (b : Bool),
      NodeHashMap.Reach hf d n →
      NodeHashMap.insert hf n k v = some (n1, w, b) →
      4 * n1.tombstone_count ≤ n1.capacity) ∧
    (∀ (n n1 : NodeHashMap K V) (k : K) (b : Bool),
      NodeHashMap.Reach hf d n →
      NodeHashMap.erase hf n k = some (n1, b) →
      4 * n1.tombstone_count ≤ n1.capacity ∨ n1.size = 0) := by
  refine ⟨?_, ?_, ?_, ?_⟩
  · intro m m1 k v w b hre hins
    obtain ⟨m2, ins, heq, -, -, -, -, -, -, hts, -⟩ :=
      FlatHashMap.insert_spec (FlatHashMap.Reach_Inv hre) k v
    rw [heq] at hins
    simp only [Option.some_inj, Prod.mk.injEq] at hins
    rw [← hins.1]
    exact hts
  · intro m m1 k b hre hers
    obtain ⟨m2, b2, heq, -, -, -, -, -, -, hts⟩ :=
      FlatHashMap.erase_spec (FlatHashMap.Reach_Inv hre) k
    rw [heq] at hers
    simp only [Option.some_inj, Prod.mk.injEq] at hers
    rw [← hers.1]
    exact hts
  · intro n n1 k v w b hre hins
    obtain ⟨f, hfre, hR⟩ := NReach_transfer hre
    have hInv := FlatHashMap.Reach_Inv hfre
    rcases insert_rel hInv hR k v with ⟨-, hn⟩ | ⟨f2, n2, b2, hfe, hne, hR2⟩
    · rw [hins] at hn
      simp at hn
    · rw [hins] at hne
      simp only [Option.some_inj, Prod.mk.injEq] at hne
      obtain ⟨m2, ins, heq, -, -, -, -, -, -, hts, -⟩ :=
        FlatHashMap.insert_spec hInv k v
      rw [heq] at hfe
      simp only [Option.some_inj, Prod.mk.injEq] at hfe
      rw [hne.1, hR2.tomb, hR2.capacity, ← hfe.1]
      exact hts
  · intro n n1 k b hre hers
    obtain ⟨f, hfre, hR⟩ := NReach_transfer hre
    have hInv := FlatHashMap.Reach_Inv hfre
    rcases @erase_rel K V _ hf f n hR k with ⟨-, hn⟩ |
      ⟨f2, n2, b2, hfe, hne, hR2⟩
    · rw [hers] at hn
      simp at hn
    · rw [hers] at hne
      simp only [Option.some_inj, Prod.mk.injEq] at hne
      obtain ⟨m2, b3, heq, -, -, -, -, -, -, hts⟩ :=
        FlatHashMap.erase_spec hInv k
      rw [heq] at hfe
      simp only [Option.some_inj, Prod.mk.injEq] at hfe
      rw [hne.1, hR2.tomb, hR2.capacity, hR2.size, ← hfe.1]
      exact hts

/-- C3 amended witness: the concrete capacity-2 erase instantiates the
amended erase bound (through the `size() = 0` disjunct). -/
theorem claim_C3_amended_witness :
    4 * (ferasR (fun k => k) c3Flat 0).tombstone_count ≤
      (ferasR (fun k => k) c3Flat 0).capacity ∨
    (ferasR (fun k => k) c3Flat 0).size = 0 :=
  (claim_C3_amended (fun k => k) (0 : Nat)).2.1 c3Flat
    (ferasR (fun k => k) c3Flat 0) 0 true
    (Reach_finsR (FlatHashMap.Reach.newSized 0 (Nat.zero_le _)) 0 0)
    (by decide)

def c4Node : NodeHashMap Nat Nat :=
  ninsR (fun k => k) (NodeHashMap.newSized Nat Nat 0) 0 0

/-- C4 counterexample: the node backend's defaulted moves copy the scalar
members, so after move-construction or move-assignment from a reachable
one-element map the source still reports `size() = 1`, not 0. -/
theorem claim_C4 :
    NodeHashMap.Reach (fun k => k) (0 : Nat) c4Node ∧
    c4Node.size = 1 ∧
    (NodeHashMap.move_construct c4Node).2.size = 1 ∧
    (NodeHashMap.move_assign (NodeHashMap.new Nat Nat) c4Node).2.size = 1 :=
  ⟨Reach_ninsR (NodeHashMap.Reach.newSized 0 (Nat.zero_le _)) 0 0,
   by decide, by decide, by decide⟩

/-- C4 amended: after move-construction or move-assignment the flat source
is fully voided (`size() = 0`, no key contained); the node source contains
no key either (its vectors are moved out), but its `size()` still reports
the old size because the defaulted move copies the scalar members. -/
theorem claim_C4_amended {K V : Type} [DecidableEq K] (hf : K → Nat) :
    (∀ m : FlatHashMap K V,
      (FlatHashMap.move_construct m).2.size = 0 ∧
      (∀ k, FlatHashMap.contains hf (FlatHashMap.move_construct m).2 k =
        false) ∧
      ∀ dst, (FlatHashMap.move_assign dst m).2.size = 0 ∧
        ∀ k, FlatHashMap.contains hf (FlatHashMap.move_assign dst m).2 k =
          false) ∧
    (∀ n : NodeHashMap K V,
      (NodeHashMap.move_construct n).2.size = n.size ∧
      (∀ k, NodeHashMap.contains hf (NodeHashMap.move_construct n).2 k =
        false) ∧
      ∀ dst, (NodeHashMap.move_assign dst n).2.size = n.size ∧
        ∀ k, NodeHashMap.contains hf (NodeHashMap.move_assign dst n).2 k =
          false) := by
  refine ⟨?_, ?_⟩
  · intro m
    exact ⟨rfl, fun k => rfl, fun dst => ⟨rfl, fun k => rfl⟩⟩
  · intro n
    exact ⟨rfl, fun k => ncontains_nil_table rfl k,
      fun dst => ⟨rfl, fun k => ncontains_nil_table rfl k⟩⟩

/-- C5: last-write-wins in both backends — inserting `v1` then `v2` under
the same key makes the second insert report "updated" (`inserted = false`)
while returning `v2`, leaves `find` yielding `v2`, and does not change
`size()`. -/
theorem claim_C5 {K V : Type} [DecidableEq K] (hf : K → Nat) (d : V) :
    (∀ (m m1 m2 : FlatHashMap K V) (k : K) (v1 v2 w1 w2 : V) (b1 b2 : Bool),
      FlatHashMap.Reach hf d m →
      FlatHashMap.insert hf m k v1 = some (m1, w1, b1) →
      FlatHashMap.insert hf m1 k v2 = some (m2, w2, b2) →
      b2 = false ∧ w2 = v2 ∧ FlatHashMap.find hf m2 k = some v2 ∧
        m2.size = m1.size) ∧
    (∀ (n n1 n2 : NodeHashMap K V) (k : K) (v1 v2 w1 w2 : V) (b1 b2 : Bool),
      NodeHashMap.Reach hf d n →
      NodeHashMap.insert hf n k v1 = some (n1, w1, b1) →
      NodeHashMap.insert hf n1 k v2 = some (n2, w2, b2) →
      b2 = false ∧ w2 = v2 ∧ NodeHashMap.find hf n2 k = some v2 ∧
        n2.size = n1.size) := by
  refine ⟨?_, ?_⟩
  · intro m m1 m2 k v1 v2 w1 w2 b1 b2 hre h1 h2
    have hInv := FlatHashMap.Reach_Inv hre
    obtain ⟨m1s, ins1, heq1, hInv1s, -, hfk1, -, -, -, -, -⟩ :=
      FlatHashMap.insert_spec hInv k v1
    rw [heq1] at h1
    simp only [Option.some_inj, Prod.mk.injEq] at h1
    have hInv1 : FlatHashMap.Inv hf m1 := by
      rw [← h1.1]
      exact hInv1s
    have hco : FlatHashMap.contains hf m1 k = true := by
      unfold FlatHashMap.contains
      rw [← h1.1, hfk1]
      rfl
    obtain ⟨m2s, ins2, heq2, -, hins2, hfk2, -, hsz2, -, -, -⟩ :=
      FlatHashMap.insert_spec hInv1 k v2
    rw [heq2] at h2
    simp only [Option.some_inj, Prod.mk.injEq] at h2
    refine ⟨?_, h2.2.1.symm, ?_, ?_⟩
    · rw [← h2.2.2, hins2, hco]
      rfl
    · rw [← h2.1]
      exact hfk2
    · rw [← h2.1, hsz2, hco]
      simp
  · intro n n1 n2 k v1 v2 w1 w2 b1 b2 hre h1 h2
    obtain ⟨f, hfre, hR⟩ := NReach_transfer hre
    have hInv := FlatHashMap.Reach_Inv hfre
    rcases insert_rel hInv hR k v1 with ⟨-, hn⟩ |
      ⟨f1, n1r, b1r, hfe1, hne1, hR1⟩
    · rw [h1] at hn
      simp at hn
    · rw [h1] at hne1
      simp only [Option.some_inj, Prod.mk.injEq] at hne1
      have hR1x : Rel f1 n1 := by
        rw [hne1.1]
        exact hR1
      have hfre1 : FlatHashMap.Reach hf d f1 :=
        FlatHashMap.Reach.insert hfre hfe1
      have hInv1 := FlatHashMap.Reach_Inv hfre1
      rcases insert_rel hInv1 hR1x k v2 with ⟨-, hn⟩ |
        ⟨f2, n2r, b2r, hfe2, hne2, hR2⟩
      · rw [h2] at hn
        simp at hn
      · rw [h2] at hne2
        simp only [Option.some_inj, Prod.mk.injEq] at hne2
        have hR2x : Rel f2 n2 := by
          rw [hne2.1]
          exact hR2
        obtain ⟨m1s, ins1, heq1, -, -, hfk1, -, -, -, -, -⟩ :=
          FlatHashMap.insert_spec hInv k v1
        rw [heq1] at hfe1
        simp only [Option.some_inj, Prod.mk.injEq] at hfe1
        have hco : FlatHashMap.contains hf f1 k = true := by
          unfold FlatHashMap.contains
          rw [← hfe1.1, hfk1]
          rfl
        obtain ⟨m2s, ins2, heq2, -, hins2, hfk2, -, hsz2, -, -, -⟩ :=
          FlatHashMap.insert_spec hInv1 k v2
        rw [heq2] at hfe2
        simp only [Option.some_inj, Prod.mk.injEq] at hfe2
        refine ⟨?_, hne2.2.1, ?_, ?_⟩
        · rw [hne2.2.2, ← hfe2.2.2, hins2, hco]
          rfl
        · rw [find_rel hR2x, ← hfe2.1]
          exact hfk2
        · rw [hR2x.size, hR1x.size, ← hfe2.1, hsz2, hco]
          simp

def c5Flat1 : FlatHashMap Nat Nat :=
  finsR (fun k => k) (FlatHashMap.new Nat Nat) 0 1

def c5Flat2 : FlatHashMap Nat Nat := finsR (fun k => k) c5Flat1 0 9

/-- C5 witness: two inserts of key 0 into a fresh flat map instantiate
last-write-wins. -/
theorem claim_C5_witness :
    false = false ∧ (9 : Nat) = 9 ∧
      FlatHashMap.find (fun k => k) c5Flat2 0 = some 9 ∧
      c5Flat2.size = c5Flat1.size :=
  (claim_C5 (fun k => k) (0 : Nat)).1 (FlatHashMap.new Nat Nat) c5Flat1
    c5Flat2 0 1 9 1 9 true false FlatHashMap.Reach.new (by decide)
    (by decide)

/-- C6: erasing an absent key returns `false` and leaves the map state
(and hence `size`, `capacity`, tombstone count, `contains` and `find` for
every key) literally unchanged, in both backends. -/
theorem claim_C6 {K V : Type} [DecidableEq K] (hf : K → Nat) (d : V) :
    (∀ (m m1 : FlatHashMap K V) (k : K) (b : Bool),
      FlatHashMap.contains hf m k = false →
      FlatHashMap.erase hf m k = some (m1, b) →
      b = false ∧ m1 = m) ∧
    (∀ (n n1 : NodeHashMap K V) (k : K) (b : Bool),
      NodeHashMap.Reach hf d n →
      NodeHashMap.contains hf n k = false →
      NodeHashMap.erase hf n k = some (n1, b) →
      b = false ∧ n1 = n) := by
  refine ⟨?_, ?_⟩
  · intro m m1 k b hc he
    have hrun : FlatHashMap.erase hf m k = some (m, false) := by
      simp only [FlatHashMap.erase]
      rw [if_pos (FlatHashMap.contains_eq_false_iff.mp hc)]
    rw [hrun] at he
    simp only [Option.some_inj, Prod.mk.injEq] at he
    exact ⟨he.2.symm, he.1.symm⟩
  · intro n n1 k b hre hc he
    obtain ⟨f, hfre, hR⟩ := NReach_transfer hre
    have hcf : FlatHashMap.contains hf f k = false := by
      rw [← contains_rel hR]
      exact hc
    have hrun : NodeHashMap.erase hf n k = some (n, false) := by
      simp only [NodeHashMap.erase]
      rw [find_slot_rel hR, hR.capacity,
        if_pos (FlatHashMap.contains_eq_false_iff.mp hcf)]
    rw [hrun] at he
    simp only [Option.some_inj, Prod.mk.injEq] at he
    exact ⟨he.2.symm, he.1.symm⟩

/-- C6 witness: erasing key 5 from a fresh flat map. -/
theorem claim_C6_witness :
    false = false ∧ FlatHashMap.new Nat Nat = FlatHashMap.new Nat Nat :=
  (claim_C6 (fun k => k) (0 : Nat)).1 (FlatHashMap.new Nat Nat)
    (FlatHashMap.new Nat Nat) 5 false (by decide) (by decide)

/-- C7: in both backends the load factor is at most 0.75 immediately after
every insert on a reachable state. -/
theorem claim_C7 {K V : Type} [DecidableEq K] (hf : K → Nat) (d : V) :
    (∀ (m m1 : FlatHashMap K V) (k : K) (v w : V) (b : Bool),
      FlatHashMap.Reach hf d m →
      FlatHashMap.insert hf m k v = some (m1, w, b) →
      4 * m1.size ≤ 3 * m1.capacity) ∧
    (∀ (n n1 : NodeHashMap K V) (k : K) (v w : V) (b : Bool),
      NodeHashMap.Reach hf d n →
      NodeHashMap.insert hf n k v = some (n1, w, b) →
      4 * n1.size ≤ 3 * n1.capacity) := by
  refine ⟨?_, ?_⟩
  · intro m m1 k v w b hre hins
    obtain ⟨m2, ins, heq, -, -, -, -, -, -, -, hload⟩ :=
      FlatHashMap.insert_spec (FlatHashMap.Reach_Inv hre) k v
    rw [heq] at hins
    simp only [Option.some_inj, Prod.mk.injEq] at hins
    rw [← hins.1]
    exact hload
  · intro n n1 k v w b hre hins
    obtain ⟨f, hfre, hR⟩ := NReach_transfer hre
    have hInv := FlatHashMap.Reach_Inv hfre
    rcases insert_rel hInv hR k v with ⟨-, hn⟩ | ⟨f2, n2, b2, hfe, hne, hR2⟩
    · rw [hins] at hn
      simp at hn
    · rw [hins] at hne
      simp only [Option.some_inj, Prod.mk.injEq] at hne
      obtain ⟨m2, ins, heq, -, -, -, -, -, -, -, hload⟩ :=
        FlatHashMap.insert_spec hInv k v
      rw [heq] at hfe
      simp only [Option.some_inj, Prod.mk.injEq] at hfe
      rw [hne.1, hR2.size, hR2.capacity, ← hfe.1]
      exact hload

def c7Flat : FlatHashMap Nat Nat :=
  finsR (fun k => k) (FlatHashMap.new Nat Nat) 0 1

/-- C7 witness: inserting into a fresh flat map instantiates the load
bound. -/
theorem claim_C7_witness : 4 * c7Flat.size ≤ 3 * c7Flat.capacity :=
  (claim_C7 (fun k => k) (0 : Nat)).1 (FlatHashMap.new Nat Nat) c7Flat
    0 1 1 true FlatHashMap.Reach.new (by decide)

/-- C8: from every reachable state, insert succeeds in both backends — the
"Hash table is full" branch (modelled as the probing loop running out of
fuel, i.e. a `none` result) is unreachable. -/
theorem claim_C8 {K V : Type} [DecidableEq K] (hf : K → Nat) (d : V) :
    (∀ (m : FlatHashMap K V) (k : K) (v : V), FlatHashMap.Reach hf d m →
      ∃ r, FlatHashMap.insert hf m k v = some r) ∧
    (∀ (n : NodeHashMap K V) (k : K) (v : V), NodeHashMap.Reach hf d n →
      ∃ r, NodeHashMap.insert hf n k v = some r) := by
  refine ⟨?_, ?_⟩
  · intro m k v hre
    obtain ⟨m2, ins, heq, -⟩ :=
      FlatHashMap.insert_spec (FlatHashMap.Reach_Inv hre) k v
    exact ⟨_, heq⟩
  · intro n k v hre
    obtain ⟨f, hfre, hR⟩ := NReach_transfer hre
    have hInv := FlatHashMap.Reach_Inv hfre
    rcases insert_rel hInv hR k v with ⟨hf1, -⟩ | ⟨f2, n2, b2, -, hne, -⟩
    · obtain ⟨m2, ins, heq, -⟩ := FlatHashMap.insert_spec hInv k v
      rw [heq] at hf1
      simp at hf1
    · exact ⟨_, hne⟩

/-- C8 witness: insert into the fresh flat map succeeds. -/
theorem claim_C8_witness :
    ∃ r, FlatHashMap.insert (fun k => k) (FlatHashMap.new Nat Nat) 0 1 =
      some r :=
  (claim_C8 (fun k => k) (0 : Nat)).1 (FlatHashMap.new Nat Nat) 0 1
    FlatHashMap.Reach.new

def c9Flat : FlatHashMap Nat Nat :=
  ferasR (fun k => k)
    (finsR (fun k => k)
      (finsR (fun k => k)
        (finsR (fun k => k) (FlatHashMap.newSized Nat Nat 6) 0 100)
        8 108)
      16 116)
    8

/-- C9: on a reachable capacity-8 map, after inserting keys 0, 8, 16 and
erasing 8, probing skips the tombstone left by 8: `contains 0` and
`contains 16` stay true (16 is still found past the tombstone), while
`contains 8` is false. -/
theorem claim_C9 :
    (FlatHashMap.newSized Nat Nat 6).capacity = 8 ∧
    FlatHashMap.Reach (fun k => k) (0 : Nat) c9Flat ∧
    c9Flat.capacity = 8 ∧
    c9Flat.tombstone_count = 1 ∧
    FlatHashMap.contains (fun k => k) c9Flat 0 = true ∧
    FlatHashMap.contains (fun k => k) c9Flat 8 = false ∧
    FlatHashMap.contains (fun k => k) c9Flat 16 = true ∧
    FlatHashMap.find (fun k => k) c9Flat 16 = some 116 :=
  ⟨by decide,
   Reach_ferasR (Reach_finsR (Reach_finsR (Reach_finsR
     (FlatHashMap.Reach.newSized 6 (by norm_num)) 0 100) 8 108) 16 116) 8,
   by decide, by decide, by decide, by decide, by decide, by decide⟩

def c10Flat : FlatHashMap Nat Nat :=
  finsR (fun k => k) (finsR (fun k => k) (finsR (fun k => k)
    (finsR (fun k => k) (finsR (fun k => k) (finsR (fun k => k)
    (finsR (fun k => k) (finsR (fun k => k) (finsR (fun k => k)
    (finsR (fun k => k) (finsR (fun k => k) (finsR (fun k => k)
    (FlatHashMap.new Nat Nat)
    0 0) 1 0) 2 0) 3 0) 4 0) 5 0) 6 0) 7 0) 8 0) 9 0) 10 0) 11 0

def c10Node : NodeHashMap Nat Nat :=
  ninsR (fun k => k) (ninsR (fun k => k) (ninsR (fun k => k)
    (ninsR (fun k => k) (ninsR (fun k => k) (ninsR (fun k => k)
    (ninsR (fun k => k) (ninsR (fun k => k) (ninsR (fun k => k)
    (ninsR (fun k => k) (ninsR (fun k => k) (ninsR (fun k => k)
    (NodeHashMap.new Nat Nat)
    0 0) 1 0) 2 0) 3 0) 4 0) 5 0) 6 0) 7 0) 8 0) 9 0) 10 0) 11 0

/-- C10: on a reachable twelve-element capacity-16 map, inserting an
already-present key reports `inserted = false` yet doubles the capacity:
the growth pre-check runs before duplicate detection, in both backends. -/
theorem claim_C10 :
    FlatHashMap.Reach (fun k => k) (0 : Nat) c10Flat ∧
    FlatHashMap.contains (fun k => k) c10Flat 5 = true ∧
    (FlatHashMap.insert (fun k => k) c10Flat 5 999).map
      (fun r => (r.2.2, r.1.capacity)) =
      some (false, 2 * c10Flat.capacity) ∧
    NodeHashMap.Reach (fun k => k) (0 : Nat) c10Node ∧
    NodeHashMap.contains (fun k => k) c10Node 5 = true ∧
    (NodeHashMap.insert (fun k => k) c10Node 5 999).map
      (fun r => (r.2.2, r.1.capacity)) =
      some (false, 2 * c10Node.capacity) :=
  ⟨Reach_finsR (Reach_finsR (Reach_finsR (Reach_finsR (Reach_finsR
     (Reach_finsR (Reach_finsR (Reach_finsR (Reach_finsR (Reach_finsR
     (Reach_finsR (Reach_finsR FlatHashMap.Reach.new
     0 0) 1 0) 2 0) 3 0) 4 0) 5 0) 6 0) 7 0) 8 0) 9 0) 10 0) 11 0,
   by decide, by decide,
   Reach_ninsR (Reach_ninsR (Reach_ninsR (Reach_ninsR (Reach_ninsR
     (Reach_ninsR (Reach_ninsR (Reach_ninsR (Reach_ninsR (Reach_ninsR
     (Reach_ninsR (Reach_ninsR NodeHashMap.Reach.new
     0 0) 1 0) 2 0) 3 0) 4 0) 5 0) 6 0) 7 0) 8 0) 9 0) 10 0) 11 0,
   by decide, by decide⟩

end Claims

end HybridMap
